import Mathlib

/- Verification development for the regenny `TemplatePreprocessor` subsystem
   (`src/preprocessors/TemplatePreprocessor.cpp`): a shallow embedding of the
   file transformer, the constant-expression evaluator, the sanitizer, the
   specialization cache and the tree driver, together with theorems that settle
   the specification claims about them.  Text is modelled as `List Char`;
   `int64_t` arithmetic is modelled on `Int` with explicit reduction modulo
   2^64 (two's complement) wherever the machine type can overflow. -/

set_option maxRecDepth 8192
set_option synthInstance.maxSize 1000
set_option maxHeartbeats 1600000

namespace Regenny

/-! ## Character classification (C locale, as used by the source via
    `std::isalpha` etc. on `unsigned char`, which on ASCII input agrees with
    the ranges below) -/

def isSpaceC (c : Char) : Bool :=
  c == ' ' || c == '\t' || c == '\n' || c == Char.ofNat 11 || c == Char.ofNat 12 || c == '\r'

def isDigitC (c : Char) : Bool := '0' ≤ c && c ≤ '9'

def isAlphaC (c : Char) : Bool := ('a' ≤ c && c ≤ 'z') || ('A' ≤ c && c ≤ 'Z')

def isAlnumC (c : Char) : Bool := isAlphaC c || isDigitC c

def isXDigitC (c : Char) : Bool :=
  isDigitC c || ('a' ≤ c && c ≤ 'f') || ('A' ≤ c && c ≤ 'F')

def toLowerC (c : Char) : Char :=
  if 'A' ≤ c && c ≤ 'Z' then Char.ofNat (c.toNat + 32) else c

/-- `is_identifier_start` from the source. -/
def is_identifier_start (c : Char) : Bool := isAlphaC c || c == '_'

/-- `is_identifier_char` from the source. -/
def is_identifier_char (c : Char) : Bool := isAlnumC c || c == '_'

/-- `is_type_char` from the source. -/
def is_type_char (c : Char) : Bool := isAlnumC c || c == '_' || c == '.' || c == ':'

/-! ## Generic list-of-char helpers mirroring `std::string` operations -/

/-- `text[i]` as an option (in-bounds read). -/
def cAt (t : List Char) (i : Nat) : Option Char := (t.drop i).head?

/-- `text.substr(a, b - a)`: the slice `[a, b)`. -/
def slice (t : List Char) (a b : Nat) : List Char := (t.drop a).take (b - a)

/-- `text.replace(start, len, repl)`. -/
def splice (t : List Char) (start len : Nat) (repl : List Char) : List Char :=
  t.take start ++ repl ++ t.drop (start + len)

/-- `text.find(c, from)`: first index `≥ from` holding `c`. -/
def findCharFrom (t : List Char) (c : Char) (i : Nat) : Option Nat :=
  match (t.drop i).findIdx? (fun x => x == c) with
  | some k => some (i + k)
  | none => none

/-- `text.find(pat, from)` for a pattern string. -/
def findSubFrom (t pat : List Char) (i : Nat) : Option Nat :=
  ((List.range (t.length + 1)).filter
    (fun j => decide (i ≤ j) && pat.isPrefixOf (t.drop j))).head?

/-- `text.find(pat) != npos`. -/
def containsSub (t pat : List Char) : Bool := (findSubFrom t pat 0).isSome

/-- `text.rfind(c, i)`: last index `≤ i` holding `c`. -/
def rfindCharLE (t : List Char) (c : Char) (i : Nat) : Option Nat :=
  ((List.range (t.length + 1)).filter
    (fun j => decide (j ≤ i) && (cAt t j == some c))).getLast?

/-- `trim` from the source: strip whitespace from both ends. -/
def trim (s : List Char) : List Char :=
  ((s.dropWhile isSpaceC).reverse.dropWhile isSpaceC).reverse

/-! ## Two's-complement 64-bit arithmetic on `Int`

    The source computes on `int64_t`.  We model a signed 64-bit quantity as
    the unique representative in `[-2^63, 2^63)` and reduce after every
    operation that can leave the range.  Division and modulus follow C++
    truncated semantics (`Int.tdiv` / `Int.tmod`); `>>` on a negative value is
    an arithmetic shift, i.e. floor division.  Shifting by an amount outside
    `[0, 64)` is undefined behaviour in the source; the model returns 0 there
    and the theorems restrict themselves to in-range shift counts. -/

def toU64 (x : Int) : Nat := (x.emod (2 ^ 64)).toNat

def ofU64 (n : Nat) : Int := if n < 2 ^ 63 then (n : Int) else (n : Int) - 2 ^ 64

def wrap64 (x : Int) : Int := ofU64 (toU64 x)

def add64 (a b : Int) : Int := wrap64 (a + b)

def sub64 (a b : Int) : Int := wrap64 (a - b)

def mul64 (a b : Int) : Int := wrap64 (a * b)

def div64 (a b : Int) : Int := wrap64 (Int.tdiv a b)

def mod64 (a b : Int) : Int := wrap64 (Int.tmod a b)

def neg64 (a : Int) : Int := wrap64 (-a)

def not64 (a : Int) : Int := wrap64 (-a - 1)

def and64 (a b : Int) : Int := ofU64 (Nat.land (toU64 a) (toU64 b))

def or64 (a b : Int) : Int := ofU64 (Nat.lor (toU64 a) (toU64 b))

def xor64 (a b : Int) : Int := ofU64 (Nat.xor (toU64 a) (toU64 b))

def shl64 (a b : Int) : Int :=
  if 0 ≤ b ∧ b < 64 then wrap64 (a * 2 ^ b.toNat) else 0

def shr64 (a b : Int) : Int :=
  if 0 ≤ b ∧ b < 64 then Int.fdiv a (2 ^ b.toNat) else 0

/-! ## The sanitizer (`sanitize_token`, `sanitize_scope_name`) -/

/-- The `push_sep` lambda from `sanitize_token`: append `'_'` unless the
    accumulator is empty or already ends in `'_'`. -/
def pushSep (acc : List Char) : List Char :=
  if acc = [] then acc
  else if acc.getLast? = some '_' then acc
  else acc ++ ['_']

/-- One character of the `sanitize_token` scan. -/
def sanitizeStep (acc : List Char) (c : Char) : List Char :=
  if isAlnumC c || c == '_' then acc ++ [c]
  else if c == '*' then pushSep (pushSep acc ++ ['p', 't', 'r'])
  else if c == '&' then pushSep (pushSep acc ++ ['r', 'e', 'f'])
  else if c == '[' || c == ']' then pushSep (pushSep acc ++ ['a', 'r', 'r'])
  else if c == ':' then pushSep acc
  else if c == '<' then pushSep (pushSep acc ++ ['l', 't'])
  else if c == '>' then pushSep (pushSep acc ++ ['g', 't'])
  else if c == ',' then pushSep acc
  else if c == '.' then pushSep (pushSep acc ++ ['.'])
  else pushSep acc

/-- The final fix-ups of `sanitize_token`: strip one leading `'_'`, prefix a
    `'_'` when the result starts with a digit, default to `"T"` when empty and
    finally rewrite every `'.'` to `'_'`. -/
def sanitizeFinish (r0 : List Char) : List Char :=
  let r1 := match r0 with
            | '_' :: rest => rest
            | _ => r0
  let r2 := match r1 with
            | c :: _ => if isDigitC c then '_' :: r1 else r1
            | [] => r1
  let r3 := if r2 = [] then ['T'] else r2
  r3.map (fun c => if c == '.' then '_' else c)

/-- `sanitize_token` from the source. -/
def sanitize_token (token : List Char) : List Char :=
  sanitizeFinish (token.foldl sanitizeStep [])

/-- `sanitize_scope_name` from the source: identifier characters pass, every
    other character (including `'.'`) becomes `'_'`. -/
def sanitize_scope_name (path : List Char) : List Char :=
  path.map (fun c => if isAlnumC c || c == '_' then c else '_')

/-! ### A two-phase restatement of the sanitizer, used for the corrected C3

    Phase one maps every character to a fragment list in which `none` is a
    separator mark and `some c` a literal character; phase two materializes a
    separator as a single `'_'` only when the output so far is nonempty and
    does not already end in `'_'`; the fix-ups are shared. -/

def fragMap (c : Char) : List (Option Char) :=
  if isAlnumC c || c == '_' then [some c]
  else if c == '*' then [none, some 'p', some 't', some 'r', none]
  else if c == '&' then [none, some 'r', some 'e', some 'f', none]
  else if c == '[' || c == ']' then [none, some 'a', some 'r', some 'r', none]
  else if c == ':' then [none]
  else if c == '<' then [none, some 'l', some 't', none]
  else if c == '>' then [none, some 'g', some 't', none]
  else if c == ',' then [none]
  else if c == '.' then [none, some '.', none]
  else [none]

def collapseStep (acc : List Char) : Option Char → List Char
  | some c => acc ++ [c]
  | none => pushSep acc

/-- The sanitizer as described by the amended claim: per-character fragments,
    separator collapse, then the shared fix-ups. -/
def sanitizeSpec (token : List Char) : List Char :=
  sanitizeFinish ((token.flatMap fragMap).foldl collapseStep [])

theorem foldl_collapse_fragMap (c : Char) (acc : List Char) :
    List.foldl collapseStep acc (fragMap c) = sanitizeStep acc c := by
  simp only [fragMap, sanitizeStep]
  split_ifs <;>
    simp only [List.foldl_cons, List.foldl_nil, collapseStep, List.append_assoc,
      List.cons_append, List.nil_append]

theorem foldl_sanitizeStep_eq (token : List Char) : ∀ acc : List Char,
    token.foldl sanitizeStep acc = ((token.flatMap fragMap).foldl collapseStep acc) := by
  induction token with
  | nil => intro acc; rfl
  | cons c rest ih =>
      intro acc
      simp only [List.foldl_cons, List.flatMap_cons, List.foldl_append,
        foldl_collapse_fragMap]
      exact ih _

/-- C3, counterexample.  The claim says `'.'` collapses to a single `'_'`
    separator, which would make `sanitize_token "a.b" = "a_b"`; the source emits
    a separator, a literal dot and another separator and only replaces the dot
    by `'_'` in the final pass, producing `"a___b"`. -/
theorem sanitize_token_dot_cex :
    sanitize_token ['a', '.', 'b'] = ['a', '_', '_', '_', 'b'] ∧
      sanitize_token ['a', '.', 'b'] ≠ ['a', '_', 'b'] := by
  constructor <;> decide

/-- C3, amended claim: alphanumerics and `'_'` pass through; `'*'`, `'&'`,
    `'['`/`']'`, `'<'`, `'>'` become `ptr`/`ref`/`arr`/`lt`/`gt` each surrounded
    by separator marks; `':'`, `','`, whitespace and every other character
    contribute one separator mark; `'.'` contributes a separator mark, a
    literal dot and another separator mark; a separator mark materializes as a
    single `'_'` only when the output so far is nonempty and does not already
    end in `'_'`; then one leading `'_'` is stripped, a leading digit is
    prefixed with `'_'`, an empty result becomes `"T"`, and every remaining
    `'.'` is replaced by `'_'`.  The single-pass source function agrees with
    this phased restatement on every token. -/
theorem sanitize_token_spec (token : List Char) :
    sanitize_token token = sanitizeSpec token := by
  unfold sanitize_token sanitizeSpec
  rw [foldl_sanitizeStep_eq]

/-! ## Specialization signatures (`make_signature` and the cache key built in
    `register_specialization`) -/

/-- The `'\x1f'` separator used by `make_signature`. -/
def sepChar : Char := Char.ofNat 31

/-- `make_signature` from the source: arguments joined by U+001F. -/
def make_signature : List (List Char) → List Char
  | [] => []
  | [a] => a
  | a :: rest => a ++ sepChar :: make_signature rest

/-- The cache signature built in `register_specialization`:
    `scope_token + "|" + make_signature(args)`. -/
def spec_signature (scopeTok : List Char) (args : List (List Char)) : List Char :=
  scopeTok ++ '|' :: make_signature args

theorem sepfree_prefix_eq : ∀ (a b r1 r2 : List Char),
    sepChar ∉ a → sepChar ∉ b →
    (r1 = [] ∨ r1.head? = some sepChar) → (r2 = [] ∨ r2.head? = some sepChar) →
    a ++ r1 = b ++ r2 → a = b ∧ r1 = r2 := by
  intro a
  induction a with
  | nil =>
      intro b r1 r2 _ hb h1 _ heq
      cases b with
      | nil => exact ⟨rfl, heq⟩
      | cons c bs =>
          exfalso
          simp only [List.nil_append, List.cons_append] at heq
          rcases h1 with h1 | h1
          · subst h1; exact (List.cons_ne_nil _ _) heq.symm
          · rw [heq] at h1
            simp only [List.head?_cons, Option.some.injEq] at h1
            exact hb (h1 ▸ List.mem_cons_self c bs)
  | cons c as ih =>
      intro b r1 r2 ha hb h1 h2 heq
      cases b with
      | nil =>
          exfalso
          simp only [List.cons_append, List.nil_append] at heq
          rcases h2 with h2 | h2
          · subst h2; exact (List.cons_ne_nil _ _) heq
          · rw [← heq] at h2
            simp only [List.head?_cons, Option.some.injEq] at h2
            exact ha (h2 ▸ List.mem_cons_self c as)
      | cons d bs =>
          simp only [List.cons_append, List.cons.injEq] at heq
          obtain ⟨hcd, htail⟩ := heq
          have has : sepChar ∉ as := fun h => ha (List.mem_cons_of_mem _ h)
          have hbs : sepChar ∉ bs := fun h => hb (List.mem_cons_of_mem _ h)
          obtain ⟨h3, h4⟩ := ih bs r1 r2 has hbs h1 h2 htail
          exact ⟨by rw [hcd, h3], h4⟩

theorem make_signature_ne_nil (a : List Char) (rest : List (List Char))
    (ha : a ≠ []) : make_signature (a :: rest) ≠ [] := by
  cases rest with
  | nil => simpa [make_signature] using ha
  | cons b t =>
      simp only [make_signature]
      intro h
      rcases List.append_eq_nil.mp h with ⟨_, h2⟩
      exact (List.cons_ne_nil _ _) h2

theorem make_signature_inj : ∀ (a1 a2 : List (List Char)),
    (∀ x ∈ a1, x ≠ [] ∧ sepChar ∉ x) → (∀ x ∈ a2, x ≠ [] ∧ sepChar ∉ x) →
    make_signature a1 = make_signature a2 → a1 = a2 := by
  intro a1
  induction a1 with
  | nil =>
      intro a2 _ h2 heq
      cases a2 with
      | nil => rfl
      | cons b t =>
          exact absurd heq.symm
            (make_signature_ne_nil b t (h2 b (List.mem_cons_self b t)).1)
  | cons a t1 ih =>
      intro a2 h1 h2 heq
      cases a2 with
      | nil =>
          exact absurd heq (make_signature_ne_nil a t1 (h1 a (List.mem_cons_self a t1)).1)
      | cons b t2 =>
          have hsde : ∀ (t : List (List Char)) (x : List Char),
              make_signature (x :: t)
                = x ++ (if t = [] then [] else sepChar :: make_signature t) := by
            intro t x
            cases t <;> simp [make_signature]
          rw [hsde t1 a, hsde t2 b] at heq
          have hr1 : (if t1 = [] then ([] : List Char) else sepChar :: make_signature t1) = []
              ∨ (if t1 = [] then ([] : List Char) else sepChar :: make_signature t1).head?
                  = some sepChar := by
            by_cases h : t1 = [] <;> simp [h]
          have hr2 : (if t2 = [] then ([] : List Char) else sepChar :: make_signature t2) = []
              ∨ (if t2 = [] then ([] : List Char) else sepChar :: make_signature t2).head?
                  = some sepChar := by
            by_cases h : t2 = [] <;> simp [h]
          obtain ⟨hab, htails⟩ := sepfree_prefix_eq a b _ _
            (h1 a (List.mem_cons_self a t1)).2 (h2 b (List.mem_cons_self b t2)).2 hr1 hr2 heq
          subst hab
          by_cases ht1 : t1 = [] <;> by_cases ht2 : t2 = []
          · rw [ht1, ht2]
          · rw [if_pos ht1, if_neg ht2] at htails; exact absurd htails.symm (List.cons_ne_nil _ _)
          · rw [if_neg ht1, if_pos ht2] at htails; exact absurd htails (List.cons_ne_nil _ _)
          · rw [if_neg ht1, if_neg ht2] at htails
            have := List.cons.inj htails
            have hrec := ih t2 (fun x hx => h1 x (List.mem_cons_of_mem _ hx))
              (fun x hx => h2 x (List.mem_cons_of_mem _ hx)) this.2
            rw [hrec]

/-- C4, amended claim: for a fixed definition and scope hint, two distinct
    argument tuples can share a sanitized specialization name, but — provided
    every argument is nonempty and free of the U+001F join character, as the
    argument parser guarantees — they always produce distinct cache signatures,
    so they are cached as distinct specializations. -/
theorem spec_signature_inj (scopeTok : List Char) (a1 a2 : List (List Char))
    (h1 : ∀ x ∈ a1, x ≠ [] ∧ sepChar ∉ x) (h2 : ∀ x ∈ a2, x ≠ [] ∧ sepChar ∉ x)
    (heq : spec_signature scopeTok a1 = spec_signature scopeTok a2) : a1 = a2 := by
  unfold spec_signature at heq
  have h3 := List.append_cancel_left heq
  exact make_signature_inj a1 a2 h1 h2 (List.cons.inj h3).2

/-- C4, witness for the amended claim at a concrete input. -/
theorem spec_signature_inj_witness :
    ([['i', 'n', 't']] : List (List Char)) = [['i', 'n', 't']] :=
  spec_signature_inj ['s'] [['i', 'n', 't']] [['i', 'n', 't']] (by decide) (by decide) rfl

/-! ## The constant-expression evaluator (`ConstantExpressionParser`)

    The C++ parser is a recursive-descent parser over `(m_expr, m_pos,
    m_valid)` that only moves forward.  We embed it as functions consuming a
    `List Char` and threading the `m_valid` flag.  Loops recurse on an
    explicit fuel which is structurally decreasing, so every definition
    kernel-reduces; each loop iteration consumes at least one character, so a
    fuel of `length + 1` never runs out, and the top-level descent recurses
    only when an `'('` has been consumed, so a top fuel of `length + 1` never
    runs out either. -/

def skipWsE (s : List Char) : List Char := s.dropWhile isSpaceC

def numSuffixC (c : Char) : Bool := c == 'u' || c == 'U' || c == 'l' || c == 'L'

/-- `consume_numeric_suffix` from the source. -/
def consume_numeric_suffix (s : List Char) : List Char := s.dropWhile numSuffixC

def hexDigitVal (c : Char) : Nat :=
  if isDigitC c then c.toNat - 48
  else if 'a' ≤ c && c ≤ 'f' then c.toNat - 87
  else if 'A' ≤ c && c ≤ 'F' then c.toNat - 55
  else 0

def digitsVal (base : Nat) (ds : List Char) : Nat :=
  ds.foldl (fun a c => a * base + hexDigitVal c) 0

/-- Result triple: value, remaining input, `m_valid`. -/
abbrev PRes := Int × List Char × Bool

/-- `parse_number`: decimal or hexadecimal literal with `u`/`U`/`l`/`L`
    suffixes.  `std::stoll` throws `out_of_range` above `2^63 - 1`, which the
    source catches by invalidating the parse. -/
def parse_number (s0 : List Char) (v : Bool) : PRes :=
  let s := skipWsE s0
  if s = [] then (0, [], false)
  else if s.head? = some '0' ∧ (s.tail.head? = some 'x' ∨ s.tail.head? = some 'X') then
    let rest := s.tail.tail
    let ds := rest.takeWhile isXDigitC
    let rest' := rest.dropWhile isXDigitC
    if ds = [] then (0, rest', false)
    else if digitsVal 16 ds < 2 ^ 63 then
      ((digitsVal 16 ds : Int), consume_numeric_suffix rest', v)
    else (0, rest', false)
  else
    let ds := s.takeWhile isDigitC
    let rest' := s.dropWhile isDigitC
    if ds = [] then (0, rest', false)
    else if digitsVal 10 ds < 2 ^ 63 then
      ((digitsVal 10 ds : Int), consume_numeric_suffix rest', v)
    else (0, rest', false)

/-- `parse_primary`, parametrized by the parser used inside parentheses. -/
def parse_primary_with (pOr : List Char → Bool → PRes) (s : List Char) (v : Bool) : PRes :=
  if (skipWsE s).head? = some '(' then
    match pOr (skipWsE s).tail v with
    | (x, s3, v3) =>
      if (skipWsE s3).head? = some ')' then (x, (skipWsE s3).tail, v3)
      else (x, skipWsE s3, false)
  else parse_number (skipWsE s) v

/-- `parse_unary` (`+`, `-`, `~`), fuelled on its own self-recursion. -/
def unary_fueled (pPr : List Char → Bool → PRes) : Nat → List Char → Bool → PRes
  | 0, s, _ => (0, s, false)
  | fuel + 1, s, v =>
    if (skipWsE s).head? = some '+' then unary_fueled pPr fuel (skipWsE s).tail v
    else if (skipWsE s).head? = some '-' then
      match unary_fueled pPr fuel (skipWsE s).tail v with
      | (x, s3, v3) => (neg64 x, s3, v3)
    else if (skipWsE s).head? = some '~' then
      match unary_fueled pPr fuel (skipWsE s).tail v with
      | (x, s3, v3) => (not64 x, s3, v3)
    else pPr (skipWsE s) v

def parse_unary_with (pPr : List Char → Bool → PRes) (s : List Char) (v : Bool) : PRes :=
  unary_fueled pPr (s.length + 1) s v

/-- The `parse_multiplicative` loop (`*`, `/`, `%`, with division/modulo by
    zero invalidating the parse). -/
def mul_loop_fueled (pUn : List Char → Bool → PRes) :
    Nat → Int → List Char → Bool → PRes
  | 0, _, s, _ => (0, s, false)
  | fuel + 1, x, s, v =>
    if v = false then (x, s, v)
    else if (skipWsE s).head? = some '*' then
      match pUn (skipWsE s).tail v with
      | (y, s3, v3) => mul_loop_fueled pUn fuel (mul64 x y) s3 v3
    else if (skipWsE s).head? = some '/' then
      match pUn (skipWsE s).tail v with
      | (y, s3, v3) =>
        if y = 0 then (0, s3, false)
        else mul_loop_fueled pUn fuel (div64 x y) s3 v3
    else if (skipWsE s).head? = some '%' then
      match pUn (skipWsE s).tail v with
      | (y, s3, v3) =>
        if y = 0 then (0, s3, false)
        else mul_loop_fueled pUn fuel (mod64 x y) s3 v3
    else (x, skipWsE s, v)

def parse_multiplicative_with (pUn : List Char → Bool → PRes) (s : List Char) (v : Bool) :
    PRes :=
  match pUn s v with
  | (x, s1, v1) => mul_loop_fueled pUn (s1.length + 1) x s1 v1

/-- The `parse_additive` loop (`+`, `-`). -/
def add_loop_fueled (pMu : List Char → Bool → PRes) :
    Nat → Int → List Char → Bool → PRes
  | 0, _, s, _ => (0, s, false)
  | fuel + 1, x, s, v =>
    if v = false then (x, s, v)
    else if (skipWsE s).head? = some '+' then
      match pMu (skipWsE s).tail v with
      | (y, s3, v3) => add_loop_fueled pMu fuel (add64 x y) s3 v3
    else if (skipWsE s).head? = some '-' then
      match pMu (skipWsE s).tail v with
      | (y, s3, v3) => add_loop_fueled pMu fuel (sub64 x y) s3 v3
    else (x, skipWsE s, v)

def parse_additive_with (pMu : List Char → Bool → PRes) (s : List Char) (v : Bool) : PRes :=
  match pMu s v with
  | (x, s1, v1) => add_loop_fueled pMu (s1.length + 1) x s1 v1

/-- The `parse_shift` loop (`<<`, `>>` via `match_token`). -/
def shift_loop_fueled (pAd : List Char → Bool → PRes) :
    Nat → Int → List Char → Bool → PRes
  | 0, _, s, _ => (0, s, false)
  | fuel + 1, x, s, v =>
    if v = false then (x, s, v)
    else if (skipWsE s).head? = some '<' ∧ (skipWsE s).tail.head? = some '<' then
      match pAd (skipWsE s).tail.tail v with
      | (y, s3, v3) => shift_loop_fueled pAd fuel (shl64 x y) s3 v3
    else if (skipWsE s).head? = some '>' ∧ (skipWsE s).tail.head? = some '>' then
      match pAd (skipWsE s).tail.tail v with
      | (y, s3, v3) => shift_loop_fueled pAd fuel (shr64 x y) s3 v3
    else (x, skipWsE s, v)

def parse_shift_with (pAd : List Char → Bool → PRes) (s : List Char) (v : Bool) : PRes :=
  match pAd s v with
  | (x, s1, v1) => shift_loop_fueled pAd (s1.length + 1) x s1 v1

/-- The `parse_bitwise_and` loop; `&&` invalidates the parse. -/
def and_loop_fueled (pSh : List Char → Bool → PRes) :
    Nat → Int → List Char → Bool → PRes
  | 0, _, s, _ => (0, s, false)
  | fuel + 1, x, s, v =>
    if v = false then (x, s, v)
    else if (skipWsE s).head? = some '&' then
      if (skipWsE s).tail.head? = some '&' then (x, skipWsE s, false)
      else
        match pSh (skipWsE s).tail v with
        | (y, s3, v3) => and_loop_fueled pSh fuel (and64 x y) s3 v3
    else (x, skipWsE s, v)

def parse_bitwise_and_with (pSh : List Char → Bool → PRes) (s : List Char) (v : Bool) :
    PRes :=
  match pSh s v with
  | (x, s1, v1) => and_loop_fueled pSh (s1.length + 1) x s1 v1

/-- The `parse_bitwise_xor` loop (`^`). -/
def xor_loop_fueled (pAn : List Char → Bool → PRes) :
    Nat → Int → List Char → Bool → PRes
  | 0, _, s, _ => (0, s, false)
  | fuel + 1, x, s, v =>
    if v = false then (x, s, v)
    else if (skipWsE s).head? = some '^' then
      match pAn (skipWsE s).tail v with
      | (y, s3, v3) => xor_loop_fueled pAn fuel (xor64 x y) s3 v3
    else (x, skipWsE s, v)

def parse_bitwise_xor_with (pAn : List Char → Bool → PRes) (s : List Char) (v : Bool) :
    PRes :=
  match pAn s v with
  | (x, s1, v1) => xor_loop_fueled pAn (s1.length + 1) x s1 v1

/-- The `parse_bitwise_or` loop; `||` invalidates the parse. -/
def or_loop_fueled (pXo : List Char → Bool → PRes) :
    Nat → Int → List Char → Bool → PRes
  | 0, _, s, _ => (0, s, false)
  | fuel + 1, x, s, v =>
    if v = false then (x, s, v)
    else if (skipWsE s).head? = some '|' then
      if (skipWsE s).tail.head? = some '|' then (x, skipWsE s, false)
      else
        match pXo (skipWsE s).tail v with
        | (y, s3, v3) => or_loop_fueled pXo fuel (or64 x y) s3 v3
    else (x, skipWsE s, v)

def parse_bitwise_or_with (pXo : List Char → Bool → PRes) (s : List Char) (v : Bool) :
    PRes :=
  match pXo s v with
  | (x, s1, v1) => or_loop_fueled pXo (s1.length + 1) x s1 v1

/-! The tower: each level is the corresponding `_with` combinator applied to
    the level below; parenthesized sub-expressions re-enter the tower one fuel
    step down. -/

def primLvl (pOr : List Char → Bool → PRes) : List Char → Bool → PRes :=
  parse_primary_with pOr

def unLvl (pOr : List Char → Bool → PRes) : List Char → Bool → PRes :=
  parse_unary_with (primLvl pOr)

def mulLvl (pOr : List Char → Bool → PRes) : List Char → Bool → PRes :=
  parse_multiplicative_with (unLvl pOr)

def addLvl (pOr : List Char → Bool → PRes) : List Char → Bool → PRes :=
  parse_additive_with (mulLvl pOr)

def shiftLvl (pOr : List Char → Bool → PRes) : List Char → Bool → PRes :=
  parse_shift_with (addLvl pOr)

def andLvl (pOr : List Char → Bool → PRes) : List Char → Bool → PRes :=
  parse_bitwise_and_with (shiftLvl pOr)

def xorLvl (pOr : List Char → Bool → PRes) : List Char → Bool → PRes :=
  parse_bitwise_xor_with (andLvl pOr)

def orLvl (pOr : List Char → Bool → PRes) : List Char → Bool → PRes :=
  parse_bitwise_or_with (xorLvl pOr)

def parse_bitwise_or_rec : Nat → List Char → Bool → PRes
  | 0, s, _ => (0, s, false)
  | fuel + 1, s, v => orLvl (parse_bitwise_or_rec fuel) s v

/-- `evaluate_constant_expression` from the source: parse the whole text and
    require the cursor to sit at the end with `m_valid` still set. -/
def evaluate_constant_expression (s : List Char) : Option Int :=
  match parse_bitwise_or_rec (s.length + 1) s true with
  | (x, s1, v) => if v = true ∧ skipWsE s1 = [] then some x else none

/-! ## Bracket reduction (`evaluate_bracket_expressions`) -/

/-- `std::to_string` on a 64-bit signed value. -/
def intChars (i : Int) : List Char :=
  if i < 0 then '-' :: Nat.toDigits 10 i.natAbs else Nat.toDigits 10 i.toNat

/-- The depth scan of `evaluate_bracket_expressions`: from `pos` (just past
    the opening `'['`) with the given depth, return the position of the
    matching `']'`, or `none` when the loop ends without closing. -/
def bracket_close (t : List Char) : Nat → Nat → Nat → Option Nat
  | 0, _, _ => none
  | fuel + 1, pos, depth =>
    match cAt t pos with
    | none => none
    | some c =>
      if c = '[' then bracket_close t fuel (pos + 1) (depth + 1)
      else if c = ']' then
        if depth = 1 then some pos
        else bracket_close t fuel (pos + 1) (depth - 1)
      else bracket_close t fuel (pos + 1) depth

/-- The scan loop of `evaluate_bracket_expressions`.  Each iteration moves the
    search position strictly forward; a replacement inserts at most a 20-byte
    decimal in place of a nonempty expression, so `8 * length + 8` fuel can
    never be exhausted. -/
def ebe_loop : Nat → List Char → Nat → List Char
  | 0, text, _ => text
  | fuel + 1, text, searchPos =>
    if text.length ≤ searchPos then text
    else
      match findCharFrom text '[' searchPos with
      | none => text
      | some openP =>
        if (decide (0 < openP) && (cAt text (openP - 1) == some '[')) ||
            (cAt text (openP + 1) == some '[') then
          ebe_loop fuel text (openP + 1)
        else
          match bracket_close text (text.length + 1) (openP + 1) 1 with
          | none => ebe_loop fuel text (openP + 1)
          | some posC =>
            let ex := slice text (openP + 1) posC
            if ex = [] then ebe_loop fuel text (posC + 1)
            else
              match evaluate_constant_expression ex with
              | some value =>
                let repl := intChars value
                ebe_loop fuel (splice text (openP + 1) ex.length repl)
                  (openP + 1 + repl.length)
              | none => ebe_loop fuel text (posC + 1)

/-- `evaluate_bracket_expressions` from the source. -/
def evaluate_bracket_expressions (t : List Char) : List Char :=
  ebe_loop (8 * t.length + 8) t 0

theorem findCharFrom_ge {t : List Char} {c : Char} {i j : Nat}
    (h : findCharFrom t c i = some j) : i ≤ j ∧ j < t.length := by
  unfold findCharFrom at h
  cases hf : (t.drop i).findIdx? (fun x => x == c) with
  | none => rw [hf] at h; exact absurd h (by simp)
  | some k =>
      rw [hf] at h
      simp only [Option.some.injEq] at h
      have hk := (List.findIdx?_eq_some_iff_findIdx_eq.mp hf).1
      rw [List.length_drop] at hk
      omega

theorem bracket_close_ge {t : List Char} :
    ∀ {fuel pos depth posC : Nat}, bracket_close t fuel pos depth = some posC →
      pos ≤ posC ∧ posC < t.length := by
  intro fuel
  induction fuel with
  | zero => intro pos depth posC h; exact absurd h (by simp [bracket_close])
  | succ f ih =>
      intro pos depth posC h
      unfold bracket_close at h
      cases hc : cAt t pos with
      | none => rw [hc] at h; exact absurd h (by simp)
      | some c =>
          rw [hc] at h
          dsimp only at h
          have hlt : pos < t.length := by
            by_contra hge
            have : t.drop pos = [] := List.drop_eq_nil_of_le (by omega)
            simp [cAt, this] at hc
          by_cases h1 : c = '['
          · rw [if_pos h1] at h
            have := ih h; omega
          · rw [if_neg h1] at h
            by_cases h2 : c = ']'
            · rw [if_pos h2] at h
              by_cases h3 : depth = 1
              · rw [if_pos h3] at h
                simp only [Option.some.injEq] at h
                omega
              · rw [if_neg h3] at h
                have := ih h; omega
            · rw [if_neg h2] at h
              have := ih h; omega

theorem take_splice_of_le {t repl : List Char} {start len n : Nat}
    (hn : n ≤ start) (hs : start ≤ t.length) :
    (splice t start len repl).take n = t.take n := by
  unfold splice
  rw [List.append_assoc,
    List.take_append_of_le_length (by rw [List.length_take]; omega), List.take_take]
  congr 1
  omega

/-- Prefix preservation: the scan never alters a byte before the current
    search position. -/
theorem ebe_loop_take : ∀ (fuel : Nat) (t : List Char) (sp : Nat),
    (ebe_loop fuel t sp).take sp = t.take sp := by
  intro fuel
  induction fuel with
  | zero => intro t sp; rfl
  | succ f ih =>
      intro t sp
      unfold ebe_loop
      by_cases hsp : t.length ≤ sp
      · rw [if_pos hsp]
      · rw [if_neg hsp]
        cases hfind : findCharFrom t '[' sp with
        | none => rfl
        | some openP =>
            dsimp only
            obtain ⟨hof, _⟩ := findCharFrom_ge hfind
            by_cases hnb : ((decide (0 < openP) && (cAt t (openP - 1) == some '[')) ||
                (cAt t (openP + 1) == some '[')) = true
            · rw [if_pos hnb]
              calc (ebe_loop f t (openP + 1)).take sp
                  = ((ebe_loop f t (openP + 1)).take (openP + 1)).take sp := by
                    rw [List.take_take]; congr 1; omega
                _ = (t.take (openP + 1)).take sp := by rw [ih]
                _ = t.take sp := by rw [List.take_take]; congr 1; omega
            · rw [if_neg hnb]
              cases hbc : bracket_close t (t.length + 1) (openP + 1) 1 with
              | none =>
                  dsimp only
                  calc (ebe_loop f t (openP + 1)).take sp
                      = ((ebe_loop f t (openP + 1)).take (openP + 1)).take sp := by
                        rw [List.take_take]; congr 1; omega
                    _ = (t.take (openP + 1)).take sp := by rw [ih]
                    _ = t.take sp := by rw [List.take_take]; congr 1; omega
              | some posC =>
                  dsimp only
                  obtain ⟨hpc1, hpc2⟩ := bracket_close_ge hbc
                  by_cases hex : slice t (openP + 1) posC = []
                  · rw [if_pos hex]
                    calc (ebe_loop f t (posC + 1)).take sp
                        = ((ebe_loop f t (posC + 1)).take (posC + 1)).take sp := by
                          rw [List.take_take]; congr 1; omega
                      _ = (t.take (posC + 1)).take sp := by rw [ih]
                      _ = t.take sp := by rw [List.take_take]; congr 1; omega
                  · rw [if_neg hex]
                    cases hev : evaluate_constant_expression (slice t (openP + 1) posC) with
                    | none =>
                        dsimp only
                        calc (ebe_loop f t (posC + 1)).take sp
                            = ((ebe_loop f t (posC + 1)).take (posC + 1)).take sp := by
                              rw [List.take_take]; congr 1; omega
                          _ = (t.take (posC + 1)).take sp := by rw [ih]
                          _ = t.take sp := by rw [List.take_take]; congr 1; omega
                    | some value =>
                        dsimp only
                        have hspl : (splice t (openP + 1) (slice t (openP + 1) posC).length
                            (intChars value)).take sp = t.take sp :=
                          take_splice_of_le (by omega) (by omega)
                        calc (ebe_loop f _ (openP + 1 + (intChars value).length)).take sp
                            = ((ebe_loop f _ (openP + 1 + (intChars value).length)).take
                                (openP + 1 + (intChars value).length)).take sp := by
                              rw [List.take_take]; congr 1; omega
                          _ = ((splice t (openP + 1) (slice t (openP + 1) posC).length
                                (intChars value)).take
                                (openP + 1 + (intChars value).length)).take sp := by rw [ih]
                          _ = (splice t (openP + 1) (slice t (openP + 1) posC).length
                                (intChars value)).take sp := by
                              rw [List.take_take]; congr 1; omega
                          _ = t.take sp := hspl

/-- C7: the bracket reducer (a) never alters a byte before its search
    position, (b) on a pair whose whole inner text fails to evaluate
    (including division or modulo by zero and empty content) it performs no
    modification, resumes after the closing `']'`, and the pair survives
    byte-for-byte in the output, and (c) a pair whose opening `'['` has
    another `'['` as a neighbor is skipped without modification. -/
theorem ebe_failure_behaviour :
    (∀ (fuel : Nat) (t : List Char) (sp : Nat),
      (ebe_loop fuel t sp).take sp = t.take sp) ∧
    (∀ (fuel : Nat) (t : List Char) (sp openP posC : Nat),
      findCharFrom t '[' sp = some openP →
      ((decide (0 < openP) && (cAt t (openP - 1) == some '[')) ||
        (cAt t (openP + 1) == some '[')) = false →
      bracket_close t (t.length + 1) (openP + 1) 1 = some posC →
      evaluate_constant_expression (slice t (openP + 1) posC) = none →
      ebe_loop (fuel + 1) t sp = ebe_loop fuel t (posC + 1) ∧
        (ebe_loop (fuel + 1) t sp).take (posC + 1) = t.take (posC + 1)) ∧
    (∀ (fuel : Nat) (t : List Char) (sp openP : Nat),
      findCharFrom t '[' sp = some openP →
      ((decide (0 < openP) && (cAt t (openP - 1) == some '[')) ||
        (cAt t (openP + 1) == some '[')) = true →
      ebe_loop (fuel + 1) t sp = ebe_loop fuel t (openP + 1) ∧
        (ebe_loop (fuel + 1) t sp).take (openP + 1) = t.take (openP + 1)) := by
  refine ⟨ebe_loop_take, ?_, ?_⟩
  · intro fuel t sp openP posC hfind hnb hbc hev
    obtain ⟨hof1, hof2⟩ := findCharFrom_ge hfind
    have hstep : ebe_loop (fuel + 1) t sp = ebe_loop fuel t (posC + 1) := by
      conv_lhs => unfold ebe_loop
      rw [if_neg (by omega : ¬t.length ≤ sp), hfind]
      dsimp only
      rw [if_neg (by rw [hnb]; simp), hbc]
      dsimp only
      by_cases hex : slice t (openP + 1) posC = []
      · rw [if_pos hex]
      · rw [if_neg hex, hev]
    refine ⟨hstep, ?_⟩
    rw [hstep, ebe_loop_take]
  · intro fuel t sp openP hfind hnb
    obtain ⟨hof1, hof2⟩ := findCharFrom_ge hfind
    have hstep : ebe_loop (fuel + 1) t sp = ebe_loop fuel t (openP + 1) := by
      conv_lhs => unfold ebe_loop
      rw [if_neg (by omega : ¬t.length ≤ sp), hfind]
      dsimp only
      rw [if_pos hnb]
    refine ⟨hstep, ?_⟩
    rw [hstep, ebe_loop_take]

/-- C7, witness: the pair `[1/0]` (division by zero) inside `a[1/0]b` is left
    byte-for-byte unchanged. -/
theorem ebe_failure_behaviour_witness :
    ebe_loop 4 "a[1/0]b".toList 0 = ebe_loop 3 "a[1/0]b".toList 6 ∧
      (ebe_loop 4 "a[1/0]b".toList 0).take 6 = "a[1/0]b".toList.take 6 :=
  ebe_failure_behaviour.2.1 3 "a[1/0]b".toList 0 1 5 (by decide) (by decide)
    (by decide) (by decide)

/-! ## The supported expression grammar (for C2)

    Parse trees of the grammar accepted by the evaluator, one type per
    precedence level, with the iterated (left-associative) operators of a
    level represented as an explicit chain so that the chain mirrors the
    parser's loops.  `PrimE.num hex ds suf` is an integer literal: hexadecimal
    when `hex`, with digit characters `ds` and `u`/`U`/`l`/`L` suffix
    characters `suf`.  `renderX` produces the canonical (whitespace-free)
    concrete syntax of a tree; every expression of the grammar is the render
    of exactly one tree. -/

mutual

inductive OrE : Type where
  | mk : XorE → OrT → OrE

inductive OrT : Type where
  | nil : OrT
  | cons : XorE → OrT → OrT

inductive XorE : Type where
  | mk : AndE → XorT → XorE

inductive XorT : Type where
  | nil : XorT
  | cons : AndE → XorT → XorT

inductive AndE : Type where
  | mk : ShiftE → AndT → AndE

inductive AndT : Type where
  | nil : AndT
  | cons : ShiftE → AndT → AndT

inductive ShiftE : Type where
  | mk : AddE → ShiftT → ShiftE

inductive ShiftT : Type where
  | nil : ShiftT
  | shl : AddE → ShiftT → ShiftT
  | shr : AddE → ShiftT → ShiftT

inductive AddE : Type where
  | mk : MulE → AddT → AddE

inductive AddT : Type where
  | nil : AddT
  | plus : MulE → AddT → AddT
  | minus : MulE → AddT → AddT

inductive MulE : Type where
  | mk : UnE → MulT → MulE

inductive MulT : Type where
  | nil : MulT
  | times : UnE → MulT → MulT
  | div : UnE → MulT → MulT
  | mod : UnE → MulT → MulT

inductive UnE : Type where
  | plus : UnE → UnE
  | minus : UnE → UnE
  | tilde : UnE → UnE
  | prim : PrimE → UnE

inductive PrimE : Type where
  | paren : OrE → PrimE
  | num : Bool → List Char → List Char → PrimE

end

mutual

def renderOr : OrE → List Char
  | .mk x t => renderXor x ++ renderOrT t

def renderOrT : OrT → List Char
  | .nil => []
  | .cons x t => '|' :: (renderXor x ++ renderOrT t)

def renderXor : XorE → List Char
  | .mk a t => renderAnd a ++ renderXorT t

def renderXorT : XorT → List Char
  | .nil => []
  | .cons a t => '^' :: (renderAnd a ++ renderXorT t)

def renderAnd : AndE → List Char
  | .mk s t => renderShift s ++ renderAndT t

def renderAndT : AndT → List Char
  | .nil => []
  | .cons s t => '&' :: (renderShift s ++ renderAndT t)

def renderShift : ShiftE → List Char
  | .mk a t => renderAdd a ++ renderShiftT t

def renderShiftT : ShiftT → List Char
  | .nil => []
  | .shl a t => '<' :: '<' :: (renderAdd a ++ renderShiftT t)
  | .shr a t => '>' :: '>' :: (renderAdd a ++ renderShiftT t)

def renderAdd : AddE → List Char
  | .mk m t => renderMul m ++ renderAddT t

def renderAddT : AddT → List Char
  | .nil => []
  | .plus m t => '+' :: (renderMul m ++ renderAddT t)
  | .minus m t => '-' :: (renderMul m ++ renderAddT t)

def renderMul : MulE → List Char
  | .mk u t => renderUn u ++ renderMulT t

def renderMulT : MulT → List Char
  | .nil => []
  | .times u t => '*' :: (renderUn u ++ renderMulT t)
  | .div u t => '/' :: (renderUn u ++ renderMulT t)
  | .mod u t => '%' :: (renderUn u ++ renderMulT t)

def renderUn : UnE → List Char
  | .plus u => '+' :: renderUn u
  | .minus u => '-' :: renderUn u
  | .tilde u => '~' :: renderUn u
  | .prim p => renderPrim p

def renderPrim : PrimE → List Char
  | .paren e => '(' :: (renderOr e ++ [')'])
  | .num hex ds suf => (if hex then '0' :: 'x' :: ds else ds) ++ suf

end

/-! The mathematical value of a tree under two's-complement signed 64-bit
    semantics: every operator is interpreted by the corresponding `_64`
    operation, chains fold left exactly as the parser's loops accumulate. -/

mutual

def evalOr : OrE → Int
  | .mk x t => evalOrT (evalXor x) t

def evalOrT : Int → OrT → Int
  | acc, .nil => acc
  | acc, .cons x t => evalOrT (or64 acc (evalXor x)) t

def evalXor : XorE → Int
  | .mk a t => evalXorT (evalAnd a) t

def evalXorT : Int → XorT → Int
  | acc, .nil => acc
  | acc, .cons a t => evalXorT (xor64 acc (evalAnd a)) t

def evalAnd : AndE → Int
  | .mk s t => evalAndT (evalShift s) t

def evalAndT : Int → AndT → Int
  | acc, .nil => acc
  | acc, .cons s t => evalAndT (and64 acc (evalShift s)) t

def evalShift : ShiftE → Int
  | .mk a t => evalShiftT (evalAdd a) t

def evalShiftT : Int → ShiftT → Int
  | acc, .nil => acc
  | acc, .shl a t => evalShiftT (shl64 acc (evalAdd a)) t
  | acc, .shr a t => evalShiftT (shr64 acc (evalAdd a)) t

def evalAdd : AddE → Int
  | .mk m t => evalAddT (evalMul m) t

def evalAddT : Int → AddT → Int
  | acc, .nil => acc
  | acc, .plus m t => evalAddT (add64 acc (evalMul m)) t
  | acc, .minus m t => evalAddT (sub64 acc (evalMul m)) t

def evalMul : MulE → Int
  | .mk u t => evalMulT (evalUn u) t

def evalMulT : Int → MulT → Int
  | acc, .nil => acc
  | acc, .times u t => evalMulT (mul64 acc (evalUn u)) t
  | acc, .div u t => evalMulT (div64 acc (evalUn u)) t
  | acc, .mod u t => evalMulT (mod64 acc (evalUn u)) t

def evalUn : UnE → Int
  | .plus u => evalUn u
  | .minus u => neg64 (evalUn u)
  | .tilde u => not64 (evalUn u)
  | .prim p => evalPrim p

def evalPrim : PrimE → Int
  | .paren e => evalOr e
  | .num hex ds _ => (digitsVal (if hex then 16 else 10) ds : Int)

end

/-! Side conditions: literal digits are valid for their base with a value
    `std::stoll` accepts (at most `2^63 - 1`) and valid suffix characters;
    every division or modulo right operand evaluates to a nonzero value; every
    shift right operand evaluates into `[0, 64)` (out-of-range shifts are
    undefined behaviour in the source). -/

mutual

def okOr : OrE → Bool
  | .mk x t => okXor x && okOrT t

def okOrT : OrT → Bool
  | .nil => true
  | .cons x t => okXor x && okOrT t

def okXor : XorE → Bool
  | .mk a t => okAnd a && okXorT t

def okXorT : XorT → Bool
  | .nil => true
  | .cons a t => okAnd a && okXorT t

def okAnd : AndE → Bool
  | .mk s t => okShift s && okAndT t

def okAndT : AndT → Bool
  | .nil => true
  | .cons s t => okShift s && okAndT t

def okShift : ShiftE → Bool
  | .mk a t => okAdd a && okShiftT t

def okShiftT : ShiftT → Bool
  | .nil => true
  | .shl a t => okAdd a && decide (0 ≤ evalAdd a) && decide (evalAdd a < 64) && okShiftT t
  | .shr a t => okAdd a && decide (0 ≤ evalAdd a) && decide (evalAdd a < 64) && okShiftT t

def okAdd : AddE → Bool
  | .mk m t => okMul m && okAddT t

def okAddT : AddT → Bool
  | .nil => true
  | .plus m t => okMul m && okAddT t
  | .minus m t => okMul m && okAddT t

def okMul : MulE → Bool
  | .mk u t => okUn u && okMulT t

def okMulT : MulT → Bool
  | .nil => true
  | .times u t => okUn u && okMulT t
  | .div u t => okUn u && decide (evalUn u ≠ 0) && okMulT t
  | .mod u t => okUn u && decide (evalUn u ≠ 0) && okMulT t

def okUn : UnE → Bool
  | .plus u => okUn u
  | .minus u => okUn u
  | .tilde u => okUn u
  | .prim p => okPrim p

def okPrim : PrimE → Bool
  | .paren e => okOr e
  | .num hex ds suf =>
    decide (ds ≠ []) && ds.all (fun c => if hex then isXDigitC c else isDigitC c) &&
      decide (digitsVal (if hex then 16 else 10) ds < 2 ^ 63) && suf.all numSuffixC

end

/-! Parenthesis nesting depth of a tree; the top-level descent of the parser
    consumes one fuel step per `'('`. -/

mutual

def pdOr : OrE → Nat
  | .mk x t => max (pdXor x) (pdOrT t)

def pdOrT : OrT → Nat
  | .nil => 0
  | .cons x t => max (pdXor x) (pdOrT t)

def pdXor : XorE → Nat
  | .mk a t => max (pdAnd a) (pdXorT t)

def pdXorT : XorT → Nat
  | .nil => 0
  | .cons a t => max (pdAnd a) (pdXorT t)

def pdAnd : AndE → Nat
  | .mk s t => max (pdShift s) (pdAndT t)

def pdAndT : AndT → Nat
  | .nil => 0
  | .cons s t => max (pdShift s) (pdAndT t)

def pdShift : ShiftE → Nat
  | .mk a t => max (pdAdd a) (pdShiftT t)

def pdShiftT : ShiftT → Nat
  | .nil => 0
  | .shl a t => max (pdAdd a) (pdShiftT t)
  | .shr a t => max (pdAdd a) (pdShiftT t)

def pdAdd : AddE → Nat
  | .mk m t => max (pdMul m) (pdAddT t)

def pdAddT : AddT → Nat
  | .nil => 0
  | .plus m t => max (pdMul m) (pdAddT t)
  | .minus m t => max (pdMul m) (pdAddT t)

def pdMul : MulE → Nat
  | .mk u t => max (pdUn u) (pdMulT t)

def pdMulT : MulT → Nat
  | .nil => 0
  | .times u t => max (pdUn u) (pdMulT t)
  | .div u t => max (pdUn u) (pdMulT t)
  | .mod u t => max (pdUn u) (pdMulT t)

def pdUn : UnE → Nat
  | .plus u => pdUn u
  | .minus u => pdUn u
  | .tilde u => pdUn u
  | .prim p => pdPrim p

def pdPrim : PrimE → Nat
  | .paren e => pdOr e + 1
  | .num _ _ _ => 0

end

/-! ## Character-code facts used by the parser correctness proofs -/

theorem char_toNat_inj {c d : Char} (h : c.toNat = d.toNat) : c = d := by
  rw [← Char.ofNat_toNat c, ← Char.ofNat_toNat d, h]

theorem char_ne_of_toNat {c d : Char} (h : c.toNat ≠ d.toNat) : c ≠ d :=
  fun he => h (by rw [he])

theorem isDigitC_bounds {c : Char} (h : isDigitC c = true) :
    48 ≤ c.toNat ∧ c.toNat ≤ 57 := by
  unfold isDigitC at h
  simp only [Bool.and_eq_true, decide_eq_true_eq] at h
  exact h

theorem isXDigitC_bounds {c : Char} (h : isXDigitC c = true) :
    (48 ≤ c.toNat ∧ c.toNat ≤ 57) ∨ (97 ≤ c.toNat ∧ c.toNat ≤ 102) ∨
      (65 ≤ c.toNat ∧ c.toNat ≤ 70) := by
  unfold isXDigitC isDigitC at h
  simp only [Bool.or_eq_true, Bool.and_eq_true, decide_eq_true_eq] at h
  rcases h with (h | h) | h
  · exact Or.inl h
  · exact Or.inr (Or.inl h)
  · exact Or.inr (Or.inr h)

theorem numSuffixC_vals {c : Char} (h : numSuffixC c = true) :
    c.toNat = 117 ∨ c.toNat = 85 ∨ c.toNat = 108 ∨ c.toNat = 76 := by
  unfold numSuffixC at h
  simp only [Bool.or_eq_true, beq_iff_eq] at h
  rcases h with ((h | h) | h) | h <;> subst h <;> decide

theorem isSpaceC_bounds {c : Char} (h : isSpaceC c = true) :
    c.toNat = 32 ∨ c.toNat = 9 ∨ c.toNat = 10 ∨ c.toNat = 11 ∨ c.toNat = 12 ∨
      c.toNat = 13 := by
  unfold isSpaceC at h
  simp only [Bool.or_eq_true, beq_iff_eq] at h
  rcases h with ((((h | h) | h) | h) | h) | h <;> subst h <;> decide

theorem isDigitC_false {c : Char} (h : c.toNat < 48 ∨ 57 < c.toNat) :
    isDigitC c = false := by
  cases hd : isDigitC c
  · rfl
  · exact absurd (isDigitC_bounds hd) (by omega)

theorem isXDigitC_false {c : Char} (h1 : c.toNat < 48 ∨ 57 < c.toNat)
    (h2 : c.toNat < 97 ∨ 102 < c.toNat) (h3 : c.toNat < 65 ∨ 70 < c.toNat) :
    isXDigitC c = false := by
  cases hd : isXDigitC c
  · rfl
  · exact absurd (isXDigitC_bounds hd) (by omega)

theorem numSuffixC_false {c : Char} (h1 : c.toNat ≠ 117) (h2 : c.toNat ≠ 85)
    (h3 : c.toNat ≠ 108) (h4 : c.toNat ≠ 76) : numSuffixC c = false := by
  cases hd : numSuffixC c
  · rfl
  · exact absurd (numSuffixC_vals hd) (by omega)

theorem isSpaceC_false {c : Char} (h : 33 ≤ c.toNat) : isSpaceC c = false := by
  cases hd : isSpaceC c
  · rfl
  · exact absurd (isSpaceC_bounds hd) (by omega)

theorem skipWsE_cons {c : Char} {r : List Char} (h : isSpaceC c = false) :
    skipWsE (c :: r) = c :: r := by
  simp [skipWsE, h]

theorem takeWhile_dropWhile_append {p : Char → Bool} {l1 l2 : List Char}
    (h : ∀ c ∈ l1, p c = true)
    (h2 : l2 = [] ∨ ∃ c r, l2 = c :: r ∧ p c = false) :
    (l1 ++ l2).takeWhile p = l1 ∧ (l1 ++ l2).dropWhile p = l2 := by
  induction l1 with
  | nil =>
      simp only [List.nil_append]
      rcases h2 with rfl | ⟨c, r, rfl, hc⟩
      · exact ⟨rfl, rfl⟩
      · simp [List.takeWhile_cons, List.dropWhile_cons, hc]
  | cons a l ih =>
      have ha : p a = true := h a (List.mem_cons_self _ _)
      have ihh := ih (fun c hc => h c (List.mem_cons_of_mem _ hc))
      simp [List.takeWhile_cons, List.dropWhile_cons, ha, ihh.1, ihh.2]

/-! ## Terminator sets: the characters that may legitimately follow a
    sub-expression at each precedence level, cumulative from the top level
    downwards.  `headIn s cs` says `s` is exhausted or starts with one of
    them. -/

def headIn (s : List Char) (cs : List Char) : Prop :=
  match s with
  | [] => True
  | c :: _ => c ∈ cs

def stopOr : List Char := [')']

def stopXor : List Char := '|' :: stopOr

def stopAnd : List Char := '^' :: stopXor

def stopShift : List Char := '&' :: stopAnd

def stopAdd : List Char := '<' :: '>' :: stopShift

def stopMul : List Char := '+' :: '-' :: stopAdd

def stopUn : List Char := '*' :: '/' :: '%' :: stopMul

theorem headIn_mono {s cs cs' : List Char} (h : headIn s cs) (hsub : cs ⊆ cs') :
    headIn s cs' := by
  cases s with
  | nil => trivial
  | cons c r => exact hsub h

theorem stopUn_toNat : ∀ c ∈ stopUn, 33 ≤ c.toNat ∧ c.toNat ≠ 117 ∧ c.toNat ≠ 85 ∧
    c.toNat ≠ 108 ∧ c.toNat ≠ 76 ∧ c.toNat ≠ 120 ∧ c.toNat ≠ 88 ∧
    (c.toNat < 48 ∨ 57 < c.toNat) ∧ (c.toNat < 97 ∨ 102 < c.toNat) ∧
    (c.toNat < 65 ∨ 70 < c.toNat) := by
  decide

theorem headIn_skipWsE {s cs : List Char} (h : headIn s cs)
    (hcs : ∀ c ∈ cs, 33 ≤ c.toNat) : skipWsE s = s := by
  cases s with
  | nil => rfl
  | cons c r => exact skipWsE_cons (isSpaceC_false (hcs c h))

/-! ## First characters of rendered trees -/

/-- A rendered primary starts with `'('` or a digit. -/
def startP (s : List Char) : Prop :=
  match s with
  | [] => False
  | c :: _ => c = '(' ∨ isDigitC c = true

/-- A rendered unary (or anything built on top of one) starts with `'+'`,
    `'-'`, `'~'`, `'('` or a digit. -/
def startOk (s : List Char) : Prop :=
  match s with
  | [] => False
  | c :: _ => c = '+' ∨ c = '-' ∨ c = '~' ∨ c = '(' ∨ isDigitC c = true

theorem startP_startOk {s : List Char} (h : startP s) : startOk s := by
  cases s with
  | nil => exact h.elim
  | cons c r =>
      rcases h with h | h
      · exact Or.inr (Or.inr (Or.inr (Or.inl h)))
      · exact Or.inr (Or.inr (Or.inr (Or.inr h)))

theorem startOk_ne_nil {s : List Char} (h : startOk s) : s ≠ [] := by
  cases s with
  | nil => exact h.elim
  | cons c r => simp

theorem startOk_length {s : List Char} (h : startOk s) : 1 ≤ s.length := by
  cases s with
  | nil => exact h.elim
  | cons c r => simp

theorem startOk_append {s r : List Char} (h : startOk s) : startOk (s ++ r) := by
  cases s with
  | nil => exact h.elim
  | cons c t => exact h

theorem startOk_toNat {s : List Char} (h : startOk s) :
    ∃ c r, s = c :: r ∧ (c.toNat = 43 ∨ c.toNat = 45 ∨ c.toNat = 126 ∨ c.toNat = 40 ∨
      (48 ≤ c.toNat ∧ c.toNat ≤ 57)) := by
  cases s with
  | nil => exact h.elim
  | cons c r =>
      refine ⟨c, r, rfl, ?_⟩
      rcases h with h | h | h | h | h
      · subst h; exact Or.inl rfl
      · subst h; exact Or.inr (Or.inl rfl)
      · subst h; exact Or.inr (Or.inr (Or.inl rfl))
      · subst h; exact Or.inr (Or.inr (Or.inr (Or.inl rfl)))
      · exact Or.inr (Or.inr (Or.inr (Or.inr (isDigitC_bounds h))))

theorem startOk_skipWsE {s : List Char} (h : startOk s) : skipWsE s = s := by
  obtain ⟨c, r, rfl, hc⟩ := startOk_toNat h
  exact skipWsE_cons (isSpaceC_false (by omega))

mutual

theorem startOk_renderOr (e : OrE) (h : okOr e = true) : startOk (renderOr e) :=
  match e with
  | .mk x t => by
      simp only [okOr, Bool.and_eq_true] at h
      simp only [renderOr]
      exact startOk_append (startOk_renderXor x h.1)

theorem startOk_renderXor (x : XorE) (h : okXor x = true) : startOk (renderXor x) :=
  match x with
  | .mk a t => by
      simp only [okXor, Bool.and_eq_true] at h
      simp only [renderXor]
      exact startOk_append (startOk_renderAnd a h.1)

theorem startOk_renderAnd (a : AndE) (h : okAnd a = true) : startOk (renderAnd a) :=
  match a with
  | .mk sh t => by
      simp only [okAnd, Bool.and_eq_true] at h
      simp only [renderAnd]
      exact startOk_append (startOk_renderShift sh h.1)

theorem startOk_renderShift (sh : ShiftE) (h : okShift sh = true) :
    startOk (renderShift sh) :=
  match sh with
  | .mk a t => by
      simp only [okShift, Bool.and_eq_true] at h
      simp only [renderShift]
      exact startOk_append (startOk_renderAdd a h.1)

theorem startOk_renderAdd (a : AddE) (h : okAdd a = true) : startOk (renderAdd a) :=
  match a with
  | .mk m t => by
      simp only [okAdd, Bool.and_eq_true] at h
      simp only [renderAdd]
      exact startOk_append (startOk_renderMul m h.1)

theorem startOk_renderMul (m : MulE) (h : okMul m = true) : startOk (renderMul m) :=
  match m with
  | .mk u t => by
      simp only [okMul, Bool.and_eq_true] at h
      simp only [renderMul]
      exact startOk_append (startOk_renderUn u h.1)

theorem startOk_renderUn (u : UnE) (h : okUn u = true) : startOk (renderUn u) :=
  match u with
  | .plus u' => by simp [renderUn, startOk]
  | .minus u' => by simp [renderUn, startOk]
  | .tilde u' => by simp [renderUn, startOk]
  | .prim p => startP_startOk (startP_renderPrim p h)

theorem startP_renderPrim (p : PrimE) (h : okPrim p = true) : startP (renderPrim p) :=
  match p with
  | .paren e => by simp [renderPrim, startP]
  | .num hex ds suf => by
      simp only [okPrim, Bool.and_eq_true, decide_eq_true_eq] at h
      obtain ⟨⟨⟨hne, hall⟩, _⟩, _⟩ := h
      cases hex with
      | true => exact Or.inr (by decide)
      | false =>
          cases ds with
          | nil => exact absurd rfl hne
          | cons d ds' =>
              have hd : isDigitC d = true := by
                simpa using List.all_eq_true.mp hall d (List.mem_cons_self _ _)
              exact Or.inr hd

end

/-! Parenthesis depth is bounded by the render length (each nesting level
    contributes at least one character). -/

mutual

theorem pd_le_renderOr : ∀ (e : OrE), pdOr e ≤ (renderOr e).length
  | .mk x t => by
      have h1 := pd_le_renderXor x
      have h2 := pd_le_renderOrT t
      simp only [pdOr, renderOr, List.length_append]
      omega

theorem pd_le_renderOrT : ∀ (t : OrT), pdOrT t ≤ (renderOrT t).length
  | .nil => by simp [pdOrT, renderOrT]
  | .cons x t => by
      have h1 := pd_le_renderXor x
      have h2 := pd_le_renderOrT t
      simp only [pdOrT, renderOrT, List.length_cons, List.length_append]
      omega

theorem pd_le_renderXor : ∀ (x : XorE), pdXor x ≤ (renderXor x).length
  | .mk a t => by
      have h1 := pd_le_renderAnd a
      have h2 := pd_le_renderXorT t
      simp only [pdXor, renderXor, List.length_append]
      omega

theorem pd_le_renderXorT : ∀ (t : XorT), pdXorT t ≤ (renderXorT t).length
  | .nil => by simp [pdXorT, renderXorT]
  | .cons a t => by
      have h1 := pd_le_renderAnd a
      have h2 := pd_le_renderXorT t
      simp only [pdXorT, renderXorT, List.length_cons, List.length_append]
      omega

theorem pd_le_renderAnd : ∀ (a : AndE), pdAnd a ≤ (renderAnd a).length
  | .mk sh t => by
      have h1 := pd_le_renderShift sh
      have h2 := pd_le_renderAndT t
      simp only [pdAnd, renderAnd, List.length_append]
      omega

theorem pd_le_renderAndT : ∀ (t : AndT), pdAndT t ≤ (renderAndT t).length
  | .nil => by simp [pdAndT, renderAndT]
  | .cons sh t => by
      have h1 := pd_le_renderShift sh
      have h2 := pd_le_renderAndT t
      simp only [pdAndT, renderAndT, List.length_cons, List.length_append]
      omega

theorem pd_le_renderShift : ∀ (sh : ShiftE), pdShift sh ≤ (renderShift sh).length
  | .mk a t => by
      have h1 := pd_le_renderAdd a
      have h2 := pd_le_renderShiftT t
      simp only [pdShift, renderShift, List.length_append]
      omega

theorem pd_le_renderShiftT : ∀ (t : ShiftT), pdShiftT t ≤ (renderShiftT t).length
  | .nil => by simp [pdShiftT, renderShiftT]
  | .shl a t => by
      have h1 := pd_le_renderAdd a
      have h2 := pd_le_renderShiftT t
      simp only [pdShiftT, renderShiftT, List.length_cons, List.length_append]
      omega
  | .shr a t => by
      have h1 := pd_le_renderAdd a
      have h2 := pd_le_renderShiftT t
      simp only [pdShiftT, renderShiftT, List.length_cons, List.length_append]
      omega

theorem pd_le_renderAdd : ∀ (a : AddE), pdAdd a ≤ (renderAdd a).length
  | .mk m t => by
      have h1 := pd_le_renderMul m
      have h2 := pd_le_renderAddT t
      simp only [pdAdd, renderAdd, List.length_append]
      omega

theorem pd_le_renderAddT : ∀ (t : AddT), pdAddT t ≤ (renderAddT t).length
  | .nil => by simp [pdAddT, renderAddT]
  | .plus m t => by
      have h1 := pd_le_renderMul m
      have h2 := pd_le_renderAddT t
      simp only [pdAddT, renderAddT, List.length_cons, List.length_append]
      omega
  | .minus m t => by
      have h1 := pd_le_renderMul m
      have h2 := pd_le_renderAddT t
      simp only [pdAddT, renderAddT, List.length_cons, List.length_append]
      omega

theorem pd_le_renderMul : ∀ (m : MulE), pdMul m ≤ (renderMul m).length
  | .mk u t => by
      have h1 := pd_le_renderUn u
      have h2 := pd_le_renderMulT t
      simp only [pdMul, renderMul, List.length_append]
      omega

theorem pd_le_renderMulT : ∀ (t : MulT), pdMulT t ≤ (renderMulT t).length
  | .nil => by simp [pdMulT, renderMulT]
  | .times u t => by
      have h1 := pd_le_renderUn u
      have h2 := pd_le_renderMulT t
      simp only [pdMulT, renderMulT, List.length_cons, List.length_append]
      omega
  | .div u t => by
      have h1 := pd_le_renderUn u
      have h2 := pd_le_renderMulT t
      simp only [pdMulT, renderMulT, List.length_cons, List.length_append]
      omega
  | .mod u t => by
      have h1 := pd_le_renderUn u
      have h2 := pd_le_renderMulT t
      simp only [pdMulT, renderMulT, List.length_cons, List.length_append]
      omega

theorem pd_le_renderUn : ∀ (u : UnE), pdUn u ≤ (renderUn u).length
  | .plus u => by
      have h1 := pd_le_renderUn u
      simp only [pdUn, renderUn, List.length_cons]
      omega
  | .minus u => by
      have h1 := pd_le_renderUn u
      simp only [pdUn, renderUn, List.length_cons]
      omega
  | .tilde u => by
      have h1 := pd_le_renderUn u
      simp only [pdUn, renderUn, List.length_cons]
      omega
  | .prim p => pd_le_renderPrim p

theorem pd_le_renderPrim : ∀ (p : PrimE), pdPrim p ≤ (renderPrim p).length
  | .paren e => by
      have h1 := pd_le_renderOr e
      simp only [pdPrim, renderPrim, List.length_cons, List.length_append,
        List.length_singleton]
      omega
  | .num hex ds suf => by
      simp only [pdPrim]
      exact Nat.zero_le _

end

/-! The first character of a rendered chain tail is the level operator, which
    belongs to the terminator set of the level below. -/

theorem headIn_renderOrT {t : OrT} {rest : List Char} (h : headIn rest stopOr) :
    headIn (renderOrT t ++ rest) stopXor := by
  cases t with
  | nil => simpa [renderOrT] using headIn_mono h (by decide)
  | cons x t' =>
      simp only [renderOrT, List.cons_append, headIn]
      decide

theorem headIn_renderXorT {t : XorT} {rest : List Char} (h : headIn rest stopXor) :
    headIn (renderXorT t ++ rest) stopAnd := by
  cases t with
  | nil => simpa [renderXorT] using headIn_mono h (by decide)
  | cons a t' =>
      simp only [renderXorT, List.cons_append, headIn]
      decide

theorem headIn_renderAndT {t : AndT} {rest : List Char} (h : headIn rest stopAnd) :
    headIn (renderAndT t ++ rest) stopShift := by
  cases t with
  | nil => simpa [renderAndT] using headIn_mono h (by decide)
  | cons sh t' =>
      simp only [renderAndT, List.cons_append, headIn]
      decide

theorem headIn_renderShiftT {t : ShiftT} {rest : List Char} (h : headIn rest stopShift) :
    headIn (renderShiftT t ++ rest) stopAdd := by
  cases t with
  | nil => simpa [renderShiftT] using headIn_mono h (by decide)
  | shl a t' =>
      simp only [renderShiftT, List.cons_append, headIn]
      decide
  | shr a t' =>
      simp only [renderShiftT, List.cons_append, headIn]
      decide

theorem headIn_renderAddT {t : AddT} {rest : List Char} (h : headIn rest stopAdd) :
    headIn (renderAddT t ++ rest) stopMul := by
  cases t with
  | nil => simpa [renderAddT] using headIn_mono h (by decide)
  | plus m t' =>
      simp only [renderAddT, List.cons_append, headIn]
      decide
  | minus m t' =>
      simp only [renderAddT, List.cons_append, headIn]
      decide

theorem headIn_renderMulT {t : MulT} {rest : List Char} (h : headIn rest stopMul) :
    headIn (renderMulT t ++ rest) stopUn := by
  cases t with
  | nil => simpa [renderMulT] using headIn_mono h (by decide)
  | times u t' =>
      simp only [renderMulT, List.cons_append, headIn]
      decide
  | div u t' =>
      simp only [renderMulT, List.cons_append, headIn]
      decide
  | mod u t' =>
      simp only [renderMulT, List.cons_append, headIn]
      decide

theorem suffix_rest_facts {suf rest : List Char} (hsuf : suf.all numSuffixC = true)
    (hrest : headIn rest stopUn) :
    (suf ++ rest = [] ∨ ∃ c r, suf ++ rest = c :: r ∧ isXDigitC c = false ∧
      isDigitC c = false ∧ (c = 'x' → False) ∧ (c = 'X' → False)) ∧
    (rest = [] ∨ ∃ c r, rest = c :: r ∧ numSuffixC c = false) := by
  constructor
  · cases suf with
    | cons u su =>
        have hu := numSuffixC_vals (by simpa using (List.all_eq_true.mp hsuf u (List.mem_cons_self _ _)))
        refine Or.inr ⟨u, su ++ rest, by simp, ?_, ?_, ?_, ?_⟩
        · exact isXDigitC_false (by omega) (by omega) (by omega)
        · exact isDigitC_false (by omega)
        · intro h; subst h; revert hu; decide
        · intro h; subst h; revert hu; decide
    | nil =>
        simp only [List.nil_append]
        cases rest with
        | nil => exact Or.inl rfl
        | cons c r =>
            have hc := stopUn_toNat c hrest
            refine Or.inr ⟨c, r, rfl, ?_, ?_, ?_, ?_⟩
            · exact isXDigitC_false (by omega) (by omega) (by omega)
            · exact isDigitC_false (by omega)
            · intro h; subst h; exact absurd hc (by decide)
            · intro h; subst h; exact absurd hc (by decide)
  · cases rest with
    | nil => exact Or.inl rfl
    | cons c r =>
        have hc := stopUn_toNat c hrest
        exact Or.inr ⟨c, r, rfl, numSuffixC_false (by omega) (by omega) (by omega) (by omega)⟩

theorem parse_number_render (hex : Bool) (ds suf rest : List Char)
    (hok : okPrim (.num hex ds suf) = true) (hrest : headIn rest stopUn) :
    parse_number (renderPrim (.num hex ds suf) ++ rest) true
      = ((digitsVal (if hex then 16 else 10) ds : Int), rest, true) := by
  simp only [okPrim, Bool.and_eq_true, decide_eq_true_eq] at hok
  obtain ⟨⟨⟨hne, hall⟩, hlt⟩, hsuf⟩ := hok
  obtain ⟨hfollow, hrestf⟩ := suffix_rest_facts hsuf hrest
  have hconsume : consume_numeric_suffix (suf ++ rest) = rest := by
    unfold consume_numeric_suffix
    exact (takeWhile_dropWhile_append (fun c hc => by simpa using List.all_eq_true.mp hsuf c hc)
      (by rcases hrestf with h | ⟨c, r, hcr, hc⟩
          · exact Or.inl h
          · exact Or.inr ⟨c, r, hcr, hc⟩)).2
  cases hex with
  | true =>
      have hallX : ∀ c ∈ ds, isXDigitC c = true := by
        intro c hc
        simpa using List.all_eq_true.mp hall c hc
      have htd := @takeWhile_dropWhile_append isXDigitC ds (suf ++ rest)
        hallX (by rcases hfollow with h | ⟨c, r, hcr, hx, _, _, _⟩
                  · exact Or.inl h
                  · exact Or.inr ⟨c, r, hcr, hx⟩)
      have harr : renderPrim (.num true ds suf) ++ rest = '0' :: 'x' :: (ds ++ (suf ++ rest)) := by
        simp [renderPrim]
      rw [harr]
      unfold parse_number
      rw [skipWsE_cons (by decide)]
      rw [if_neg (by simp)]
      rw [if_pos ⟨rfl, Or.inl rfl⟩]
      simp only [List.tail_cons]
      rw [htd.1, htd.2]
      have hlt16 : digitsVal 16 ds < 2 ^ 63 := by simpa using hlt
      rw [if_neg hne, if_pos hlt16, hconsume]
      simp
  | false =>
      cases ds with
      | nil => exact absurd rfl hne
      | cons d ds' =>
          have hallD : ∀ c ∈ d :: ds', isDigitC c = true := by
            intro c hc
            simpa using List.all_eq_true.mp hall c hc
          have hd := isDigitC_bounds (hallD d (List.mem_cons_self _ _))
          have htd := @takeWhile_dropWhile_append isDigitC (d :: ds')
            (suf ++ rest) hallD
            (by rcases hfollow with h | ⟨c, r, hcr, _, hdig, _, _⟩
                · exact Or.inl h
                · exact Or.inr ⟨c, r, hcr, hdig⟩)
          have harr : renderPrim (.num false (d :: ds') suf) ++ rest
              = d :: (ds' ++ (suf ++ rest)) := by
            simp [renderPrim]
          rw [harr]
          unfold parse_number
          rw [skipWsE_cons (isSpaceC_false (by omega))]
          rw [if_neg (by simp)]
          rw [if_neg ?hhex]
          case hhex =>
            rintro ⟨h0, hx⟩
            have hx' : (ds' ++ (suf ++ rest)).head? = some 'x'
                ∨ (ds' ++ (suf ++ rest)).head? = some 'X' := by simpa using hx
            cases ds' with
            | cons d2 ds2 =>
                have hd2 := isDigitC_bounds (hallD d2 (List.mem_cons_of_mem _ (List.mem_cons_self _ _)))
                rcases hx' with h | h <;>
                  · simp only [List.cons_append, List.head?_cons, Option.some.injEq] at h
                    subst h
                    exact absurd hd2 (by decide)
            | nil =>
                simp only [List.nil_append] at hx'
                rcases hfollow with h | ⟨c, r, hcr, _, _, hnx, hnX⟩
                · rw [h] at hx'
                  simp at hx'
                · rw [hcr] at hx'
                  simp only [List.head?_cons, Option.some.injEq] at hx'
                  rcases hx' with h | h
                  · exact hnx h
                  · exact hnX h
          have hds : (d :: (ds' ++ (suf ++ rest))) = (d :: ds') ++ (suf ++ rest) := by simp
          rw [hds, htd.1, htd.2]
          have hlt10 : digitsVal 10 (d :: ds') < 2 ^ 63 := by simpa using hlt
          rw [if_neg hne, if_pos hlt10, hconsume]
          simp

theorem startP_toNat {s : List Char} (h : startP s) :
    ∃ c r, s = c :: r ∧ (c.toNat = 40 ∨ (48 ≤ c.toNat ∧ c.toNat ≤ 57)) := by
  cases s with
  | nil => exact h.elim
  | cons c r =>
      refine ⟨c, r, rfl, ?_⟩
      rcases h with h | h
      · subst h; exact Or.inl rfl
      · exact Or.inr (isDigitC_bounds h)

/-! Each loop returns `(acc, s, true)` untouched when the input starts with a
    terminator of its level (or is exhausted). -/

theorem or_loop_stop (pXo : List Char → Bool → PRes) {l : Nat} (x : Int)
    {s : List Char} (hs : headIn s stopOr) :
    or_loop_fueled pXo (l + 1) x s true = (x, s, true) := by
  have hws : skipWsE s = s := headIn_skipWsE hs (by decide)
  have h1 : ¬ (skipWsE s).head? = some '|' := by
    rw [hws]; cases s with
    | nil => simp
    | cons c r =>
        have hc : c ∈ stopOr := hs
        simp only [List.head?_cons, Option.some.injEq]
        intro hcc; subst hcc; exact absurd hc (by decide)
  unfold or_loop_fueled
  rw [if_neg (by simp), if_neg h1, hws]

theorem xor_loop_stop (pAn : List Char → Bool → PRes) {l : Nat} (x : Int)
    {s : List Char} (hs : headIn s stopXor) :
    xor_loop_fueled pAn (l + 1) x s true = (x, s, true) := by
  have hws : skipWsE s = s := headIn_skipWsE hs (by decide)
  have h1 : ¬ (skipWsE s).head? = some '^' := by
    rw [hws]; cases s with
    | nil => simp
    | cons c r =>
        have hc : c ∈ stopXor := hs
        simp only [List.head?_cons, Option.some.injEq]
        intro hcc; subst hcc; exact absurd hc (by decide)
  unfold xor_loop_fueled
  rw [if_neg (by simp), if_neg h1, hws]

theorem and_loop_stop (pSh : List Char → Bool → PRes) {l : Nat} (x : Int)
    {s : List Char} (hs : headIn s stopAnd) :
    and_loop_fueled pSh (l + 1) x s true = (x, s, true) := by
  have hws : skipWsE s = s := headIn_skipWsE hs (by decide)
  have h1 : ¬ (skipWsE s).head? = some '&' := by
    rw [hws]; cases s with
    | nil => simp
    | cons c r =>
        have hc : c ∈ stopAnd := hs
        simp only [List.head?_cons, Option.some.injEq]
        intro hcc; subst hcc; exact absurd hc (by decide)
  unfold and_loop_fueled
  rw [if_neg (by simp), if_neg h1, hws]

theorem shift_loop_stop (pAd : List Char → Bool → PRes) {l : Nat} (x : Int)
    {s : List Char} (hs : headIn s stopShift) :
    shift_loop_fueled pAd (l + 1) x s true = (x, s, true) := by
  have hws : skipWsE s = s := headIn_skipWsE hs (by decide)
  have hlt : ¬ (skipWsE s).head? = some '<' := by
    rw [hws]; cases s with
    | nil => simp
    | cons c r =>
        have hc : c ∈ stopShift := hs
        simp only [List.head?_cons, Option.some.injEq]
        intro hcc; subst hcc; exact absurd hc (by decide)
  have hgt : ¬ (skipWsE s).head? = some '>' := by
    rw [hws]; cases s with
    | nil => simp
    | cons c r =>
        have hc : c ∈ stopShift := hs
        simp only [List.head?_cons, Option.some.injEq]
        intro hcc; subst hcc; exact absurd hc (by decide)
  unfold shift_loop_fueled
  rw [if_neg (by simp), if_neg (fun h => hlt h.1), if_neg (fun h => hgt h.1), hws]

theorem add_loop_stop (pMu : List Char → Bool → PRes) {l : Nat} (x : Int)
    {s : List Char} (hs : headIn s stopAdd) :
    add_loop_fueled pMu (l + 1) x s true = (x, s, true) := by
  have hws : skipWsE s = s := headIn_skipWsE hs (by decide)
  have h1 : ¬ (skipWsE s).head? = some '+' := by
    rw [hws]; cases s with
    | nil => simp
    | cons c r =>
        have hc : c ∈ stopAdd := hs
        simp only [List.head?_cons, Option.some.injEq]
        intro hcc; subst hcc; exact absurd hc (by decide)
  have h2 : ¬ (skipWsE s).head? = some '-' := by
    rw [hws]; cases s with
    | nil => simp
    | cons c r =>
        have hc : c ∈ stopAdd := hs
        simp only [List.head?_cons, Option.some.injEq]
        intro hcc; subst hcc; exact absurd hc (by decide)
  unfold add_loop_fueled
  rw [if_neg (by simp), if_neg h1, if_neg h2, hws]

theorem mul_loop_stop (pUn : List Char → Bool → PRes) {l : Nat} (x : Int)
    {s : List Char} (hs : headIn s stopMul) :
    mul_loop_fueled pUn (l + 1) x s true = (x, s, true) := by
  have hws : skipWsE s = s := headIn_skipWsE hs (by decide)
  have h1 : ¬ (skipWsE s).head? = some '*' := by
    rw [hws]; cases s with
    | nil => simp
    | cons c r =>
        have hc : c ∈ stopMul := hs
        simp only [List.head?_cons, Option.some.injEq]
        intro hcc; subst hcc; exact absurd hc (by decide)
  have h2 : ¬ (skipWsE s).head? = some '/' := by
    rw [hws]; cases s with
    | nil => simp
    | cons c r =>
        have hc : c ∈ stopMul := hs
        simp only [List.head?_cons, Option.some.injEq]
        intro hcc; subst hcc; exact absurd hc (by decide)
  have h3 : ¬ (skipWsE s).head? = some '%' := by
    rw [hws]; cases s with
    | nil => simp
    | cons c r =>
        have hc : c ∈ stopMul := hs
        simp only [List.head?_cons, Option.some.injEq]
        intro hcc; subst hcc; exact absurd hc (by decide)
  unfold mul_loop_fueled
  rw [if_neg (by simp), if_neg h1, if_neg h2, if_neg h3, hws]


/-! One-step unfolding equations for the fuelled loops (definitional). -/

theorem unary_step (pPr : List Char → Bool → PRes) (l : Nat) (s : List Char) (v : Bool) :
    unary_fueled pPr (l + 1) s v
      = (if (skipWsE s).head? = some '+' then unary_fueled pPr l (skipWsE s).tail v
         else if (skipWsE s).head? = some '-' then
           match unary_fueled pPr l (skipWsE s).tail v with
           | (x, s3, v3) => (neg64 x, s3, v3)
         else if (skipWsE s).head? = some '~' then
           match unary_fueled pPr l (skipWsE s).tail v with
           | (x, s3, v3) => (not64 x, s3, v3)
         else pPr (skipWsE s) v) := rfl

theorem mul_loop_step (pUn : List Char → Bool → PRes) (l : Nat) (x : Int) (s : List Char)
    (v : Bool) :
    mul_loop_fueled pUn (l + 1) x s v
      = (if v = false then (x, s, v)
         else if (skipWsE s).head? = some '*' then
           match pUn (skipWsE s).tail v with
           | (y, s3, v3) => mul_loop_fueled pUn l (mul64 x y) s3 v3
         else if (skipWsE s).head? = some '/' then
           match pUn (skipWsE s).tail v with
           | (y, s3, v3) =>
             if y = 0 then (0, s3, false) else mul_loop_fueled pUn l (div64 x y) s3 v3
         else if (skipWsE s).head? = some '%' then
           match pUn (skipWsE s).tail v with
           | (y, s3, v3) =>
             if y = 0 then (0, s3, false) else mul_loop_fueled pUn l (mod64 x y) s3 v3
         else (x, skipWsE s, v)) := rfl

theorem add_loop_step (pMu : List Char → Bool → PRes) (l : Nat) (x : Int) (s : List Char)
    (v : Bool) :
    add_loop_fueled pMu (l + 1) x s v
      = (if v = false then (x, s, v)
         else if (skipWsE s).head? = some '+' then
           match pMu (skipWsE s).tail v with
           | (y, s3, v3) => add_loop_fueled pMu l (add64 x y) s3 v3
         else if (skipWsE s).head? = some '-' then
           match pMu (skipWsE s).tail v with
           | (y, s3, v3) => add_loop_fueled pMu l (sub64 x y) s3 v3
         else (x, skipWsE s, v)) := rfl

theorem shift_loop_step (pAd : List Char → Bool → PRes) (l : Nat) (x : Int) (s : List Char)
    (v : Bool) :
    shift_loop_fueled pAd (l + 1) x s v
      = (if v = false then (x, s, v)
         else if (skipWsE s).head? = some '<' ∧ (skipWsE s).tail.head? = some '<' then
           match pAd (skipWsE s).tail.tail v with
           | (y, s3, v3) => shift_loop_fueled pAd l (shl64 x y) s3 v3
         else if (skipWsE s).head? = some '>' ∧ (skipWsE s).tail.head? = some '>' then
           match pAd (skipWsE s).tail.tail v with
           | (y, s3, v3) => shift_loop_fueled pAd l (shr64 x y) s3 v3
         else (x, skipWsE s, v)) := rfl

theorem and_loop_step (pSh : List Char → Bool → PRes) (l : Nat) (x : Int) (s : List Char)
    (v : Bool) :
    and_loop_fueled pSh (l + 1) x s v
      = (if v = false then (x, s, v)
         else if (skipWsE s).head? = some '&' then
           if (skipWsE s).tail.head? = some '&' then (x, skipWsE s, false)
           else
             match pSh (skipWsE s).tail v with
             | (y, s3, v3) => and_loop_fueled pSh l (and64 x y) s3 v3
         else (x, skipWsE s, v)) := rfl

theorem xor_loop_step (pAn : List Char → Bool → PRes) (l : Nat) (x : Int) (s : List Char)
    (v : Bool) :
    xor_loop_fueled pAn (l + 1) x s v
      = (if v = false then (x, s, v)
         else if (skipWsE s).head? = some '^' then
           match pAn (skipWsE s).tail v with
           | (y, s3, v3) => xor_loop_fueled pAn l (xor64 x y) s3 v3
         else (x, skipWsE s, v)) := rfl

theorem or_loop_step (pXo : List Char → Bool → PRes) (l : Nat) (x : Int) (s : List Char)
    (v : Bool) :
    or_loop_fueled pXo (l + 1) x s v
      = (if v = false then (x, s, v)
         else if (skipWsE s).head? = some '|' then
           if (skipWsE s).tail.head? = some '|' then (x, skipWsE s, false)
           else
             match pXo (skipWsE s).tail v with
             | (y, s3, v3) => or_loop_fueled pXo l (or64 x y) s3 v3
         else (x, skipWsE s, v)) := rfl

theorem parse_primary_step (pOr : List Char → Bool → PRes) (s : List Char) (v : Bool) :
    parse_primary_with pOr s v
      = (if (skipWsE s).head? = some '(' then
           match pOr (skipWsE s).tail v with
           | (x, s3, v3) =>
             if (skipWsE s3).head? = some ')' then (x, (skipWsE s3).tail, v3)
             else (x, skipWsE s3, false)
         else parse_number (skipWsE s) v) := rfl

mutual

theorem or_render (fuel : Nat) (e : OrE) (rest : List Char) (hok : okOr e = true)
    (hrest : headIn rest stopOr) (hpd : pdOr e < fuel) :
    parse_bitwise_or_rec fuel (renderOr e ++ rest) true = (evalOr e, rest, true) := by
  match e with
  | .mk x t =>
      obtain ⟨f, rfl⟩ : ∃ f, fuel = f + 1 := ⟨fuel - 1, by omega⟩
      simp only [okOr, Bool.and_eq_true] at hok
      simp only [pdOr, Nat.max_le, Nat.lt_succ_iff] at hpd
      have harr : renderOr (OrE.mk x t) ++ rest = renderXor x ++ (renderOrT t ++ rest) := by
        simp [renderOr]
      rw [harr]
      have hunf : parse_bitwise_or_rec (f + 1) (renderXor x ++ (renderOrT t ++ rest)) true
          = (match xorLvl (parse_bitwise_or_rec f)
                (renderXor x ++ (renderOrT t ++ rest)) true with
             | (y, s1, v1) =>
               or_loop_fueled (xorLvl (parse_bitwise_or_rec f)) (s1.length + 1) y s1 v1) := rfl
      rw [hunf]
      have hsub := xor_render f x (renderOrT t ++ rest) hok.1 (headIn_renderOrT hrest) hpd.1
      rw [hsub]
      exact orT_render f t (evalXor x) rest ((renderOrT t ++ rest).length + 1) hok.2 hrest
        hpd.2 (by omega)

theorem orT_render (f : Nat) (t : OrT) (acc : Int) (rest : List Char) (lf : Nat)
    (hok : okOrT t = true) (hrest : headIn rest stopOr) (hpd : pdOrT t ≤ f)
    (hlf : (renderOrT t ++ rest).length < lf) :
    or_loop_fueled (xorLvl (parse_bitwise_or_rec f)) lf acc (renderOrT t ++ rest) true
      = (evalOrT acc t, rest, true) := by
  match t with
  | .nil =>
      obtain ⟨l, rfl⟩ : ∃ l, lf = l + 1 := ⟨lf - 1, by omega⟩
      rw [(by simp [renderOrT] : renderOrT OrT.nil ++ rest = rest)]
      exact or_loop_stop _ acc hrest
  | .cons a t' =>
      simp only [okOrT, Bool.and_eq_true] at hok
      simp only [pdOrT, Nat.max_le] at hpd
      obtain ⟨l, rfl⟩ : ∃ l, lf = l + 1 := ⟨lf - 1, by omega⟩
      have harr : renderOrT (OrT.cons a t') ++ rest
          = '|' :: (renderXor a ++ (renderOrT t' ++ rest)) := by
        simp [renderOrT]
      have hlen : (renderOrT t' ++ rest).length < l := by
        have h1 := startOk_length (startOk_renderXor a hok.1)
        rw [harr] at hlf
        simp only [List.length_cons, List.length_append] at hlf
        simp only [List.length_append]
        omega
      rw [harr]
      rw [or_loop_step]
      rw [if_neg (by simp)]
      rw [skipWsE_cons (by decide)]
      rw [List.head?_cons]
      rw [if_pos (show (some '|' : Option Char) = some '|' from rfl)]
      have hinner : ¬ (renderXor a ++ (renderOrT t' ++ rest)).head? = some '|' := by
        obtain ⟨c, r, hcr, hc⟩ := startOk_toNat (startOk_append (startOk_renderXor a hok.1))
        rw [hcr, List.head?_cons]
        simp only [Option.some.injEq]
        intro hcc; subst hcc; exact absurd hc (by decide)
      rw [List.tail_cons]
      rw [if_neg hinner]
      have hsub := xor_render f a (renderOrT t' ++ rest) hok.1 (headIn_renderOrT hrest) hpd.1
      rw [hsub]
      exact orT_render f t' (or64 acc (evalXor a)) rest l hok.2 hrest hpd.2 hlen

theorem xor_render (f : Nat) (e : XorE) (rest : List Char) (hok : okXor e = true)
    (hrest : headIn rest stopXor) (hpd : pdXor e ≤ f) :
    xorLvl (parse_bitwise_or_rec f) (renderXor e ++ rest) true = (evalXor e, rest, true) := by
  match e with
  | .mk sub t =>
      simp only [okXor, Bool.and_eq_true] at hok
      simp only [pdXor, Nat.max_le] at hpd
      have harr : renderXor (XorE.mk sub t) ++ rest = renderAnd sub ++ (renderXorT t ++ rest) := by
        simp [renderXor]
      rw [harr]
      have hunf : xorLvl (parse_bitwise_or_rec f) (renderAnd sub ++ (renderXorT t ++ rest)) true
          = (match andLvl (parse_bitwise_or_rec f)
                (renderAnd sub ++ (renderXorT t ++ rest)) true with
             | (x, s1, v1) =>
               xor_loop_fueled (andLvl (parse_bitwise_or_rec f)) (s1.length + 1) x s1 v1) := rfl
      rw [hunf]
      have hsub := and_render f sub (renderXorT t ++ rest) hok.1 (headIn_renderXorT hrest) hpd.1
      rw [hsub]
      exact xorT_render f t (evalAnd sub) rest ((renderXorT t ++ rest).length + 1) hok.2 hrest
        hpd.2 (by omega)

theorem xorT_render (f : Nat) (t : XorT) (acc : Int) (rest : List Char) (lf : Nat)
    (hok : okXorT t = true) (hrest : headIn rest stopXor) (hpd : pdXorT t ≤ f)
    (hlf : (renderXorT t ++ rest).length < lf) :
    xor_loop_fueled (andLvl (parse_bitwise_or_rec f)) lf acc (renderXorT t ++ rest) true
      = (evalXorT acc t, rest, true) := by
  match t with
  | .nil =>
      obtain ⟨l, rfl⟩ : ∃ l, lf = l + 1 := ⟨lf - 1, by omega⟩
      rw [(by simp [renderXorT] : renderXorT XorT.nil ++ rest = rest)]
      exact xor_loop_stop _ acc hrest
  | .cons a t' =>
      simp only [okXorT, Bool.and_eq_true] at hok
      simp only [pdXorT, Nat.max_le] at hpd
      obtain ⟨l, rfl⟩ : ∃ l, lf = l + 1 := ⟨lf - 1, by omega⟩
      have harr : renderXorT (XorT.cons a t') ++ rest
          = '^' :: (renderAnd a ++ (renderXorT t' ++ rest)) := by
        simp [renderXorT]
      have hlen : (renderXorT t' ++ rest).length < l := by
        have h1 := startOk_length (startOk_renderAnd a hok.1)
        rw [harr] at hlf
        simp only [List.length_cons, List.length_append] at hlf
        simp only [List.length_append]
        omega
      rw [harr]
      rw [xor_loop_step]
      rw [if_neg (by simp)]
      rw [skipWsE_cons (by decide)]
      rw [List.head?_cons]
      rw [if_pos (show (some '^' : Option Char) = some '^' from rfl)]
      rw [List.tail_cons]
      have hsub := and_render f a (renderXorT t' ++ rest) hok.1 (headIn_renderXorT hrest) hpd.1
      rw [hsub]
      exact xorT_render f t' (xor64 acc (evalAnd a)) rest l hok.2 hrest hpd.2 hlen

theorem and_render (f : Nat) (e : AndE) (rest : List Char) (hok : okAnd e = true)
    (hrest : headIn rest stopAnd) (hpd : pdAnd e ≤ f) :
    andLvl (parse_bitwise_or_rec f) (renderAnd e ++ rest) true = (evalAnd e, rest, true) := by
  match e with
  | .mk sub t =>
      simp only [okAnd, Bool.and_eq_true] at hok
      simp only [pdAnd, Nat.max_le] at hpd
      have harr : renderAnd (AndE.mk sub t) ++ rest = renderShift sub ++ (renderAndT t ++ rest) := by
        simp [renderAnd]
      rw [harr]
      have hunf : andLvl (parse_bitwise_or_rec f) (renderShift sub ++ (renderAndT t ++ rest)) true
          = (match shiftLvl (parse_bitwise_or_rec f)
                (renderShift sub ++ (renderAndT t ++ rest)) true with
             | (x, s1, v1) =>
               and_loop_fueled (shiftLvl (parse_bitwise_or_rec f)) (s1.length + 1) x s1 v1) := rfl
      rw [hunf]
      have hsub := shift_render f sub (renderAndT t ++ rest) hok.1 (headIn_renderAndT hrest) hpd.1
      rw [hsub]
      exact andT_render f t (evalShift sub) rest ((renderAndT t ++ rest).length + 1) hok.2 hrest
        hpd.2 (by omega)

theorem andT_render (f : Nat) (t : AndT) (acc : Int) (rest : List Char) (lf : Nat)
    (hok : okAndT t = true) (hrest : headIn rest stopAnd) (hpd : pdAndT t ≤ f)
    (hlf : (renderAndT t ++ rest).length < lf) :
    and_loop_fueled (shiftLvl (parse_bitwise_or_rec f)) lf acc (renderAndT t ++ rest) true
      = (evalAndT acc t, rest, true) := by
  match t with
  | .nil =>
      obtain ⟨l, rfl⟩ : ∃ l, lf = l + 1 := ⟨lf - 1, by omega⟩
      rw [(by simp [renderAndT] : renderAndT AndT.nil ++ rest = rest)]
      exact and_loop_stop _ acc hrest
  | .cons a t' =>
      simp only [okAndT, Bool.and_eq_true] at hok
      simp only [pdAndT, Nat.max_le] at hpd
      obtain ⟨l, rfl⟩ : ∃ l, lf = l + 1 := ⟨lf - 1, by omega⟩
      have harr : renderAndT (AndT.cons a t') ++ rest
          = '&' :: (renderShift a ++ (renderAndT t' ++ rest)) := by
        simp [renderAndT]
      have hlen : (renderAndT t' ++ rest).length < l := by
        have h1 := startOk_length (startOk_renderShift a hok.1)
        rw [harr] at hlf
        simp only [List.length_cons, List.length_append] at hlf
        simp only [List.length_append]
        omega
      rw [harr]
      rw [and_loop_step]
      rw [if_neg (by simp)]
      rw [skipWsE_cons (by decide)]
      rw [List.head?_cons]
      rw [if_pos (show (some '&' : Option Char) = some '&' from rfl)]
      have hinner : ¬ (renderShift a ++ (renderAndT t' ++ rest)).head? = some '&' := by
        obtain ⟨c, r, hcr, hc⟩ := startOk_toNat (startOk_append (startOk_renderShift a hok.1))
        rw [hcr, List.head?_cons]
        simp only [Option.some.injEq]
        intro hcc; subst hcc; exact absurd hc (by decide)
      rw [List.tail_cons]
      rw [if_neg hinner]
      have hsub := shift_render f a (renderAndT t' ++ rest) hok.1 (headIn_renderAndT hrest) hpd.1
      rw [hsub]
      exact andT_render f t' (and64 acc (evalShift a)) rest l hok.2 hrest hpd.2 hlen

theorem shift_render (f : Nat) (e : ShiftE) (rest : List Char) (hok : okShift e = true)
    (hrest : headIn rest stopShift) (hpd : pdShift e ≤ f) :
    shiftLvl (parse_bitwise_or_rec f) (renderShift e ++ rest) true = (evalShift e, rest, true) := by
  match e with
  | .mk sub t =>
      simp only [okShift, Bool.and_eq_true] at hok
      simp only [pdShift, Nat.max_le] at hpd
      have harr : renderShift (ShiftE.mk sub t) ++ rest = renderAdd sub ++ (renderShiftT t ++ rest) := by
        simp [renderShift]
      rw [harr]
      have hunf : shiftLvl (parse_bitwise_or_rec f) (renderAdd sub ++ (renderShiftT t ++ rest)) true
          = (match addLvl (parse_bitwise_or_rec f)
                (renderAdd sub ++ (renderShiftT t ++ rest)) true with
             | (x, s1, v1) =>
               shift_loop_fueled (addLvl (parse_bitwise_or_rec f)) (s1.length + 1) x s1 v1) := rfl
      rw [hunf]
      have hsub := add_render f sub (renderShiftT t ++ rest) hok.1 (headIn_renderShiftT hrest) hpd.1
      rw [hsub]
      exact shiftT_render f t (evalAdd sub) rest ((renderShiftT t ++ rest).length + 1) hok.2 hrest
        hpd.2 (by omega)

theorem shiftT_render (f : Nat) (t : ShiftT) (acc : Int) (rest : List Char) (lf : Nat)
    (hok : okShiftT t = true) (hrest : headIn rest stopShift) (hpd : pdShiftT t ≤ f)
    (hlf : (renderShiftT t ++ rest).length < lf) :
    shift_loop_fueled (addLvl (parse_bitwise_or_rec f)) lf acc (renderShiftT t ++ rest) true
      = (evalShiftT acc t, rest, true) := by
  match t with
  | .nil =>
      obtain ⟨l, rfl⟩ : ∃ l, lf = l + 1 := ⟨lf - 1, by omega⟩
      rw [(by simp [renderShiftT] : renderShiftT ShiftT.nil ++ rest = rest)]
      exact shift_loop_stop _ acc hrest
  | .shl a t' =>
      simp only [okShiftT, Bool.and_eq_true, decide_eq_true_eq] at hok
      simp only [pdShiftT, Nat.max_le] at hpd
      obtain ⟨l, rfl⟩ : ∃ l, lf = l + 1 := ⟨lf - 1, by omega⟩
      have harr : renderShiftT (ShiftT.shl a t') ++ rest
          = '<' :: '<' :: (renderAdd a ++ (renderShiftT t' ++ rest)) := by
        simp [renderShiftT]
      have hlen : (renderShiftT t' ++ rest).length < l := by
        have h1 := startOk_length (startOk_renderAdd a hok.1.1.1)
        rw [harr] at hlf
        simp only [List.length_cons, List.length_append] at hlf
        simp only [List.length_append]
        omega
      rw [harr]
      rw [shift_loop_step]
      rw [if_neg (by simp)]
      rw [skipWsE_cons (by decide)]
      rw [List.tail_cons]
      rw [List.head?_cons, List.head?_cons]
      rw [if_pos (show (some '<' : Option Char) = some '<'
        ∧ (some '<' : Option Char) = some '<' from ⟨rfl, rfl⟩)]
      rw [List.tail_cons]
      have hsub := add_render f a (renderShiftT t' ++ rest) hok.1.1.1
        (headIn_renderShiftT hrest) hpd.1
      rw [hsub]
      exact shiftT_render f t' (shl64 acc (evalAdd a)) rest l hok.2 hrest hpd.2 hlen
  | .shr a t' =>
      simp only [okShiftT, Bool.and_eq_true, decide_eq_true_eq] at hok
      simp only [pdShiftT, Nat.max_le] at hpd
      obtain ⟨l, rfl⟩ : ∃ l, lf = l + 1 := ⟨lf - 1, by omega⟩
      have harr : renderShiftT (ShiftT.shr a t') ++ rest
          = '>' :: '>' :: (renderAdd a ++ (renderShiftT t' ++ rest)) := by
        simp [renderShiftT]
      have hlen : (renderShiftT t' ++ rest).length < l := by
        have h1 := startOk_length (startOk_renderAdd a hok.1.1.1)
        rw [harr] at hlf
        simp only [List.length_cons, List.length_append] at hlf
        simp only [List.length_append]
        omega
      rw [harr]
      rw [shift_loop_step]
      rw [if_neg (by simp)]
      rw [skipWsE_cons (by decide)]
      rw [List.tail_cons]
      rw [List.head?_cons, List.head?_cons]
      rw [if_neg (by simp)]
      rw [if_pos (show (some '>' : Option Char) = some '>'
        ∧ (some '>' : Option Char) = some '>' from ⟨rfl, rfl⟩)]
      rw [List.tail_cons]
      have hsub := add_render f a (renderShiftT t' ++ rest) hok.1.1.1
        (headIn_renderShiftT hrest) hpd.1
      rw [hsub]
      exact shiftT_render f t' (shr64 acc (evalAdd a)) rest l hok.2 hrest hpd.2 hlen

theorem add_render (f : Nat) (e : AddE) (rest : List Char) (hok : okAdd e = true)
    (hrest : headIn rest stopAdd) (hpd : pdAdd e ≤ f) :
    addLvl (parse_bitwise_or_rec f) (renderAdd e ++ rest) true = (evalAdd e, rest, true) := by
  match e with
  | .mk sub t =>
      simp only [okAdd, Bool.and_eq_true] at hok
      simp only [pdAdd, Nat.max_le] at hpd
      have harr : renderAdd (AddE.mk sub t) ++ rest = renderMul sub ++ (renderAddT t ++ rest) := by
        simp [renderAdd]
      rw [harr]
      have hunf : addLvl (parse_bitwise_or_rec f) (renderMul sub ++ (renderAddT t ++ rest)) true
          = (match mulLvl (parse_bitwise_or_rec f)
                (renderMul sub ++ (renderAddT t ++ rest)) true with
             | (x, s1, v1) =>
               add_loop_fueled (mulLvl (parse_bitwise_or_rec f)) (s1.length + 1) x s1 v1) := rfl
      rw [hunf]
      have hsub := mul_render f sub (renderAddT t ++ rest) hok.1 (headIn_renderAddT hrest) hpd.1
      rw [hsub]
      exact addT_render f t (evalMul sub) rest ((renderAddT t ++ rest).length + 1) hok.2 hrest
        hpd.2 (by omega)

theorem addT_render (f : Nat) (t : AddT) (acc : Int) (rest : List Char) (lf : Nat)
    (hok : okAddT t = true) (hrest : headIn rest stopAdd) (hpd : pdAddT t ≤ f)
    (hlf : (renderAddT t ++ rest).length < lf) :
    add_loop_fueled (mulLvl (parse_bitwise_or_rec f)) lf acc (renderAddT t ++ rest) true
      = (evalAddT acc t, rest, true) := by
  match t with
  | .nil =>
      obtain ⟨l, rfl⟩ : ∃ l, lf = l + 1 := ⟨lf - 1, by omega⟩
      rw [(by simp [renderAddT] : renderAddT AddT.nil ++ rest = rest)]
      exact add_loop_stop _ acc hrest
  | .plus a t' =>
      simp only [okAddT, Bool.and_eq_true] at hok
      simp only [pdAddT, Nat.max_le] at hpd
      obtain ⟨l, rfl⟩ : ∃ l, lf = l + 1 := ⟨lf - 1, by omega⟩
      have harr : renderAddT (AddT.plus a t') ++ rest
          = '+' :: (renderMul a ++ (renderAddT t' ++ rest)) := by
        simp [renderAddT]
      have hlen : (renderAddT t' ++ rest).length < l := by
        have h1 := startOk_length (startOk_renderMul a hok.1)
        rw [harr] at hlf
        simp only [List.length_cons, List.length_append] at hlf
        simp only [List.length_append]
        omega
      rw [harr]
      rw [add_loop_step]
      rw [if_neg (by simp)]
      rw [skipWsE_cons (by decide)]
      rw [List.head?_cons]
      rw [if_pos (show (some '+' : Option Char) = some '+' from rfl)]
      rw [List.tail_cons]
      have hsub := mul_render f a (renderAddT t' ++ rest) hok.1 (headIn_renderAddT hrest) hpd.1
      rw [hsub]
      exact addT_render f t' (add64 acc (evalMul a)) rest l hok.2 hrest hpd.2 hlen
  | .minus a t' =>
      simp only [okAddT, Bool.and_eq_true] at hok
      simp only [pdAddT, Nat.max_le] at hpd
      obtain ⟨l, rfl⟩ : ∃ l, lf = l + 1 := ⟨lf - 1, by omega⟩
      have harr : renderAddT (AddT.minus a t') ++ rest
          = '-' :: (renderMul a ++ (renderAddT t' ++ rest)) := by
        simp [renderAddT]
      have hlen : (renderAddT t' ++ rest).length < l := by
        have h1 := startOk_length (startOk_renderMul a hok.1)
        rw [harr] at hlf
        simp only [List.length_cons, List.length_append] at hlf
        simp only [List.length_append]
        omega
      rw [harr]
      rw [add_loop_step]
      rw [if_neg (by simp)]
      rw [skipWsE_cons (by decide)]
      rw [List.head?_cons]
      rw [if_neg (by simp)]
      rw [if_pos (show (some '-' : Option Char) = some '-' from rfl)]
      rw [List.tail_cons]
      have hsub := mul_render f a (renderAddT t' ++ rest) hok.1 (headIn_renderAddT hrest) hpd.1
      rw [hsub]
      exact addT_render f t' (sub64 acc (evalMul a)) rest l hok.2 hrest hpd.2 hlen

theorem mul_render (f : Nat) (e : MulE) (rest : List Char) (hok : okMul e = true)
    (hrest : headIn rest stopMul) (hpd : pdMul e ≤ f) :
    mulLvl (parse_bitwise_or_rec f) (renderMul e ++ rest) true = (evalMul e, rest, true) := by
  match e with
  | .mk u t =>
      simp only [okMul, Bool.and_eq_true] at hok
      simp only [pdMul, Nat.max_le] at hpd
      have harr : renderMul (MulE.mk u t) ++ rest = renderUn u ++ (renderMulT t ++ rest) := by
        simp [renderMul]
      rw [harr]
      have hunf : mulLvl (parse_bitwise_or_rec f) (renderUn u ++ (renderMulT t ++ rest)) true
          = (match unLvl (parse_bitwise_or_rec f) (renderUn u ++ (renderMulT t ++ rest)) true with
             | (x, s1, v1) =>
               mul_loop_fueled (unLvl (parse_bitwise_or_rec f)) (s1.length + 1) x s1 v1) := rfl
      rw [hunf]
      have hsub : unLvl (parse_bitwise_or_rec f) (renderUn u ++ (renderMulT t ++ rest)) true
          = (evalUn u, renderMulT t ++ rest, true) := by
        have h0 : unLvl (parse_bitwise_or_rec f) (renderUn u ++ (renderMulT t ++ rest)) true
            = unary_fueled (primLvl (parse_bitwise_or_rec f))
                ((renderUn u ++ (renderMulT t ++ rest)).length + 1)
                (renderUn u ++ (renderMulT t ++ rest)) true := rfl
        rw [h0]
        exact un_render f u (renderMulT t ++ rest) _ hok.1 (headIn_renderMulT hrest)
          hpd.1 (by omega)
      rw [hsub]
      exact mulT_render f t (evalUn u) rest ((renderMulT t ++ rest).length + 1) hok.2 hrest
        hpd.2 (by omega)

theorem mulT_render (f : Nat) (t : MulT) (acc : Int) (rest : List Char) (lf : Nat)
    (hok : okMulT t = true) (hrest : headIn rest stopMul) (hpd : pdMulT t ≤ f)
    (hlf : (renderMulT t ++ rest).length < lf) :
    mul_loop_fueled (unLvl (parse_bitwise_or_rec f)) lf acc (renderMulT t ++ rest) true
      = (evalMulT acc t, rest, true) := by
  match t with
  | .nil =>
      obtain ⟨l, rfl⟩ : ∃ l, lf = l + 1 := ⟨lf - 1, by omega⟩
      rw [(by simp [renderMulT] : renderMulT MulT.nil ++ rest = rest)]
      exact mul_loop_stop _ acc hrest
  | .times a t' =>
      simp only [okMulT, Bool.and_eq_true] at hok
      simp only [pdMulT, Nat.max_le] at hpd
      obtain ⟨l, rfl⟩ : ∃ l, lf = l + 1 := ⟨lf - 1, by omega⟩
      have harr : renderMulT (MulT.times a t') ++ rest
          = '*' :: (renderUn a ++ (renderMulT t' ++ rest)) := by
        simp [renderMulT]
      have hlen : (renderMulT t' ++ rest).length < l := by
        have h1 := startOk_length (startOk_renderUn a hok.1)
        rw [harr] at hlf
        simp only [List.length_cons, List.length_append] at hlf
        simp only [List.length_append]
        omega
      rw [harr]
      rw [mul_loop_step]
      rw [if_neg (by simp)]
      rw [skipWsE_cons (by decide)]
      rw [List.head?_cons]
      rw [if_pos (show (some '*' : Option Char) = some '*' from rfl)]
      rw [List.tail_cons]
      have hsub : unLvl (parse_bitwise_or_rec f) (renderUn a ++ (renderMulT t' ++ rest)) true
          = (evalUn a, renderMulT t' ++ rest, true) := by
        have h0 : unLvl (parse_bitwise_or_rec f) (renderUn a ++ (renderMulT t' ++ rest)) true
            = unary_fueled (primLvl (parse_bitwise_or_rec f))
                ((renderUn a ++ (renderMulT t' ++ rest)).length + 1)
                (renderUn a ++ (renderMulT t' ++ rest)) true := rfl
        rw [h0]
        exact un_render f a (renderMulT t' ++ rest) _ hok.1 (headIn_renderMulT hrest)
          hpd.1 (by omega)
      rw [hsub]
      exact mulT_render f t' (mul64 acc (evalUn a)) rest l hok.2 hrest hpd.2 hlen
  | .div a t' =>
      simp only [okMulT, Bool.and_eq_true, decide_eq_true_eq] at hok
      simp only [pdMulT, Nat.max_le] at hpd
      obtain ⟨l, rfl⟩ : ∃ l, lf = l + 1 := ⟨lf - 1, by omega⟩
      have harr : renderMulT (MulT.div a t') ++ rest
          = '/' :: (renderUn a ++ (renderMulT t' ++ rest)) := by
        simp [renderMulT]
      have hlen : (renderMulT t' ++ rest).length < l := by
        have h1 := startOk_length (startOk_renderUn a hok.1.1)
        rw [harr] at hlf
        simp only [List.length_cons, List.length_append] at hlf
        simp only [List.length_append]
        omega
      rw [harr]
      rw [mul_loop_step]
      rw [if_neg (by simp)]
      rw [skipWsE_cons (by decide)]
      rw [List.head?_cons]
      rw [if_neg (by simp)]
      rw [if_pos (show (some '/' : Option Char) = some '/' from rfl)]
      rw [List.tail_cons]
      have hsub : unLvl (parse_bitwise_or_rec f) (renderUn a ++ (renderMulT t' ++ rest)) true
          = (evalUn a, renderMulT t' ++ rest, true) := by
        have h0 : unLvl (parse_bitwise_or_rec f) (renderUn a ++ (renderMulT t' ++ rest)) true
            = unary_fueled (primLvl (parse_bitwise_or_rec f))
                ((renderUn a ++ (renderMulT t' ++ rest)).length + 1)
                (renderUn a ++ (renderMulT t' ++ rest)) true := rfl
        rw [h0]
        exact un_render f a (renderMulT t' ++ rest) _ hok.1.1 (headIn_renderMulT hrest)
          hpd.1 (by omega)
      rw [hsub]
      show (if evalUn a = 0 then ((0 : Int), renderMulT t' ++ rest, false)
            else mul_loop_fueled (unLvl (parse_bitwise_or_rec f)) l (div64 acc (evalUn a))
              (renderMulT t' ++ rest) true)
          = (evalMulT acc (MulT.div a t'), rest, true)
      rw [if_neg hok.1.2]
      exact mulT_render f t' (div64 acc (evalUn a)) rest l hok.2 hrest hpd.2 hlen
  | .mod a t' =>
      simp only [okMulT, Bool.and_eq_true, decide_eq_true_eq] at hok
      simp only [pdMulT, Nat.max_le] at hpd
      obtain ⟨l, rfl⟩ : ∃ l, lf = l + 1 := ⟨lf - 1, by omega⟩
      have harr : renderMulT (MulT.mod a t') ++ rest
          = '%' :: (renderUn a ++ (renderMulT t' ++ rest)) := by
        simp [renderMulT]
      have hlen : (renderMulT t' ++ rest).length < l := by
        have h1 := startOk_length (startOk_renderUn a hok.1.1)
        rw [harr] at hlf
        simp only [List.length_cons, List.length_append] at hlf
        simp only [List.length_append]
        omega
      rw [harr]
      rw [mul_loop_step]
      rw [if_neg (by simp)]
      rw [skipWsE_cons (by decide)]
      rw [List.head?_cons]
      rw [if_neg (by simp)]
      rw [if_neg (by simp)]
      rw [if_pos (show (some '%' : Option Char) = some '%' from rfl)]
      rw [List.tail_cons]
      have hsub : unLvl (parse_bitwise_or_rec f) (renderUn a ++ (renderMulT t' ++ rest)) true
          = (evalUn a, renderMulT t' ++ rest, true) := by
        have h0 : unLvl (parse_bitwise_or_rec f) (renderUn a ++ (renderMulT t' ++ rest)) true
            = unary_fueled (primLvl (parse_bitwise_or_rec f))
                ((renderUn a ++ (renderMulT t' ++ rest)).length + 1)
                (renderUn a ++ (renderMulT t' ++ rest)) true := rfl
        rw [h0]
        exact un_render f a (renderMulT t' ++ rest) _ hok.1.1 (headIn_renderMulT hrest)
          hpd.1 (by omega)
      rw [hsub]
      show (if evalUn a = 0 then ((0 : Int), renderMulT t' ++ rest, false)
            else mul_loop_fueled (unLvl (parse_bitwise_or_rec f)) l (mod64 acc (evalUn a))
              (renderMulT t' ++ rest) true)
          = (evalMulT acc (MulT.mod a t'), rest, true)
      rw [if_neg hok.1.2]
      exact mulT_render f t' (mod64 acc (evalUn a)) rest l hok.2 hrest hpd.2 hlen

theorem un_render (f : Nat) (u : UnE) (rest : List Char) (lf : Nat)
    (hok : okUn u = true) (hrest : headIn rest stopUn) (hpd : pdUn u ≤ f)
    (hlf : (renderUn u ++ rest).length < lf) :
    unary_fueled (primLvl (parse_bitwise_or_rec f)) lf (renderUn u ++ rest) true
      = (evalUn u, rest, true) := by
  match u with
  | .plus u' =>
      obtain ⟨l, rfl⟩ : ∃ l, lf = l + 1 := ⟨lf - 1, by omega⟩
      have harr : renderUn (UnE.plus u') ++ rest = '+' :: (renderUn u' ++ rest) := by
        simp [renderUn]
      have hlen : (renderUn u' ++ rest).length < l := by
        rw [harr] at hlf
        simp only [List.length_cons] at hlf
        omega
      rw [harr, unary_step]
      rw [skipWsE_cons (by decide)]
      rw [List.head?_cons]
      rw [if_pos (show (some '+' : Option Char) = some '+' from rfl)]
      rw [List.tail_cons]
      exact un_render f u' rest l hok hrest hpd hlen
  | .minus u' =>
      obtain ⟨l, rfl⟩ : ∃ l, lf = l + 1 := ⟨lf - 1, by omega⟩
      have harr : renderUn (UnE.minus u') ++ rest = '-' :: (renderUn u' ++ rest) := by
        simp [renderUn]
      have hlen : (renderUn u' ++ rest).length < l := by
        rw [harr] at hlf
        simp only [List.length_cons] at hlf
        omega
      rw [harr, unary_step]
      rw [skipWsE_cons (by decide)]
      rw [List.head?_cons]
      rw [if_neg (by simp)]
      rw [if_pos (show (some '-' : Option Char) = some '-' from rfl)]
      rw [List.tail_cons]
      rw [un_render f u' rest l hok hrest hpd hlen]
      rfl
  | .tilde u' =>
      obtain ⟨l, rfl⟩ : ∃ l, lf = l + 1 := ⟨lf - 1, by omega⟩
      have harr : renderUn (UnE.tilde u') ++ rest = '~' :: (renderUn u' ++ rest) := by
        simp [renderUn]
      have hlen : (renderUn u' ++ rest).length < l := by
        rw [harr] at hlf
        simp only [List.length_cons] at hlf
        omega
      rw [harr, unary_step]
      rw [skipWsE_cons (by decide)]
      rw [List.head?_cons]
      rw [if_neg (by simp)]
      rw [if_neg (by simp)]
      rw [if_pos (show (some '~' : Option Char) = some '~' from rfl)]
      rw [List.tail_cons]
      rw [un_render f u' rest l hok hrest hpd hlen]
      rfl
  | .prim p =>
      obtain ⟨l, rfl⟩ : ∃ l, lf = l + 1 := ⟨lf - 1, by omega⟩
      rw [unary_step]
      obtain ⟨c, r, hcr, hc⟩ := startP_toNat (startP_renderPrim p hok)
      have hs : renderUn (UnE.prim p) ++ rest = c :: (r ++ rest) := by
        show renderPrim p ++ rest = c :: (r ++ rest)
        rw [hcr]
        simp
      have hws : skipWsE (renderUn (UnE.prim p) ++ rest) = renderUn (UnE.prim p) ++ rest := by
        rw [hs]
        exact skipWsE_cons (isSpaceC_false (by omega))
      have hnplus : ¬ (renderUn (UnE.prim p) ++ rest).head? = some '+' := by
        rw [hs, List.head?_cons]
        simp only [Option.some.injEq]
        intro hcc; subst hcc; exact absurd hc (by decide)
      have hnminus : ¬ (renderUn (UnE.prim p) ++ rest).head? = some '-' := by
        rw [hs, List.head?_cons]
        simp only [Option.some.injEq]
        intro hcc; subst hcc; exact absurd hc (by decide)
      have hntilde : ¬ (renderUn (UnE.prim p) ++ rest).head? = some '~' := by
        rw [hs, List.head?_cons]
        simp only [Option.some.injEq]
        intro hcc; subst hcc; exact absurd hc (by decide)
      rw [hws]
      rw [if_neg hnplus, if_neg hnminus, if_neg hntilde]
      exact prim_render f p rest hok hrest hpd

theorem prim_render (f : Nat) (p : PrimE) (rest : List Char)
    (hok : okPrim p = true) (hrest : headIn rest stopUn) (hpd : pdPrim p ≤ f) :
    parse_primary_with (parse_bitwise_or_rec f) (renderPrim p ++ rest) true
      = (evalPrim p, rest, true) := by
  match p with
  | .paren e =>
      have hok' : okOr e = true := by simpa [okPrim] using hok
      simp only [pdPrim] at hpd
      have harr : renderPrim (PrimE.paren e) ++ rest
          = '(' :: (renderOr e ++ (')' :: rest)) := by
        simp [renderPrim]
      rw [harr, parse_primary_step]
      rw [skipWsE_cons (by decide)]
      rw [List.head?_cons]
      rw [if_pos (show (some '(' : Option Char) = some '(' from rfl)]
      rw [List.tail_cons]
      have hsub := or_render f e (')' :: rest) hok' (by simp [headIn, stopOr]) (by omega)
      rw [hsub]
      show (if (skipWsE (')' :: rest)).head? = some ')' then
              (evalOr e, (skipWsE (')' :: rest)).tail, true)
            else (evalOr e, skipWsE (')' :: rest), false))
          = (evalPrim (PrimE.paren e), rest, true)
      rw [skipWsE_cons (by decide)]
      rw [List.head?_cons]
      rw [if_pos (show (some ')' : Option Char) = some ')' from rfl)]
      rw [List.tail_cons]
      rfl
  | .num hex ds suf =>
      have hok' := hok
      simp only [okPrim, Bool.and_eq_true, decide_eq_true_eq] at hok'
      obtain ⟨⟨⟨hne, hall⟩, hlt⟩, hsuf⟩ := hok'
      have hpn := parse_number_render hex ds suf rest hok hrest
      rw [parse_primary_step]
      have hws : skipWsE (renderPrim (PrimE.num hex ds suf) ++ rest)
          = renderPrim (PrimE.num hex ds suf) ++ rest := by
        obtain ⟨c, r, hcr, hc⟩ := startP_toNat (startP_renderPrim _ hok)
        rw [hcr, (by simp : (c :: r) ++ rest = c :: (r ++ rest))]
        exact skipWsE_cons (isSpaceC_false (by omega))
      have hnp : ¬ (renderPrim (PrimE.num hex ds suf) ++ rest).head? = some '(' := by
        cases hex with
        | true =>
            rw [(by simp [renderPrim] :
              renderPrim (PrimE.num true ds suf) ++ rest
                = '0' :: ('x' :: (ds ++ (suf ++ rest)))), List.head?_cons]
            simp
        | false =>
            cases ds with
            | nil => exact absurd rfl hne
            | cons d ds' =>
                have hd := isDigitC_bounds (by
                  simpa using List.all_eq_true.mp hall d (List.mem_cons_self _ _))
                rw [(by simp [renderPrim] :
                  renderPrim (PrimE.num false (d :: ds') suf) ++ rest
                    = d :: (ds' ++ (suf ++ rest))), List.head?_cons]
                simp only [Option.some.injEq]
                intro hcc; subst hcc; exact absurd hd (by decide)
      rw [hws, if_neg hnp, hpn]
      rfl

end

/-! ## Two-complement range facts and the top-level evaluator theorem (C2) -/

theorem toU64_lt (x : Int) : toU64 x < 2 ^ 64 := by
  unfold toU64
  have he : x.emod (2 ^ 64) = x % 2 ^ 64 := rfl
  rw [he]
  omega

theorem ofU64_range (n : Nat) (h : n < 2 ^ 64) :
    -(2 ^ 63) ≤ ofU64 n ∧ ofU64 n < 2 ^ 63 := by
  unfold ofU64
  split <;> omega

theorem wrap64_range (x : Int) : -(2 ^ 63) ≤ wrap64 x ∧ wrap64 x < 2 ^ 63 :=
  ofU64_range _ (toU64_lt x)

theorem wrap64_eq_of_range (x : Int) (h1 : -(2 ^ 63) ≤ x) (h2 : x < 2 ^ 63) :
    wrap64 x = x := by
  unfold wrap64 ofU64 toU64
  have he : x.emod (2 ^ 64) = x % 2 ^ 64 := rfl
  rw [he]
  split <;> omega

theorem or64_range (a b : Int) : -(2 ^ 63) ≤ or64 a b ∧ or64 a b < 2 ^ 63 :=
  ofU64_range _ (Nat.or_lt_two_pow (toU64_lt a) (toU64_lt b))

theorem xor64_range (a b : Int) : -(2 ^ 63) ≤ xor64 a b ∧ xor64 a b < 2 ^ 63 :=
  ofU64_range _ (Nat.xor_lt_two_pow (toU64_lt a) (toU64_lt b))

theorem and64_range (a b : Int) : -(2 ^ 63) ≤ and64 a b ∧ and64 a b < 2 ^ 63 :=
  ofU64_range _ (Nat.and_lt_two_pow _ (toU64_lt b))

theorem shl64_range (a b : Int) : -(2 ^ 63) ≤ shl64 a b ∧ shl64 a b < 2 ^ 63 := by
  unfold shl64
  split
  · exact wrap64_range _
  · norm_num

theorem shr64_range (a b : Int) (h1 : -(2 ^ 63) ≤ a) (h2 : a < 2 ^ 63) :
    -(2 ^ 63) ≤ shr64 a b ∧ shr64 a b < 2 ^ 63 := by
  unfold shr64
  split
  · rw [Int.fdiv_eq_ediv a (by positivity)]
    have hd : (0 : Int) < 2 ^ b.toNat := by positivity
    have hone : (1 : Int) ≤ 2 ^ b.toNat := hd
    constructor
    · rw [Int.le_ediv_iff_mul_le hd]
      nlinarith
    · rw [Int.ediv_lt_iff_lt_mul hd]
      nlinarith
  · norm_num

mutual

theorem rangeOr : ∀ (e : OrE), okOr e = true → -(2 ^ 63) ≤ evalOr e ∧ evalOr e < 2 ^ 63
  | .mk x t, hok => by
      simp only [okOr, Bool.and_eq_true] at hok
      exact rangeOrT t (evalXor x) hok.2 (rangeXor x hok.1)

theorem rangeOrT : ∀ (t : OrT) (acc : Int), okOrT t = true →
    (-(2 ^ 63) ≤ acc ∧ acc < 2 ^ 63) → -(2 ^ 63) ≤ evalOrT acc t ∧ evalOrT acc t < 2 ^ 63
  | .nil, _, _, hacc => hacc
  | .cons a t, acc, hok, _ => by
      simp only [okOrT, Bool.and_eq_true] at hok
      exact rangeOrT t (or64 acc (evalXor a)) hok.2 (or64_range acc (evalXor a))

theorem rangeXor : ∀ (e : XorE), okXor e = true → -(2 ^ 63) ≤ evalXor e ∧ evalXor e < 2 ^ 63
  | .mk a t, hok => by
      simp only [okXor, Bool.and_eq_true] at hok
      exact rangeXorT t (evalAnd a) hok.2 (rangeAnd a hok.1)

theorem rangeXorT : ∀ (t : XorT) (acc : Int), okXorT t = true →
    (-(2 ^ 63) ≤ acc ∧ acc < 2 ^ 63) → -(2 ^ 63) ≤ evalXorT acc t ∧ evalXorT acc t < 2 ^ 63
  | .nil, _, _, hacc => hacc
  | .cons a t, acc, hok, _ => by
      simp only [okXorT, Bool.and_eq_true] at hok
      exact rangeXorT t (xor64 acc (evalAnd a)) hok.2 (xor64_range acc (evalAnd a))

theorem rangeAnd : ∀ (e : AndE), okAnd e = true → -(2 ^ 63) ≤ evalAnd e ∧ evalAnd e < 2 ^ 63
  | .mk sh t, hok => by
      simp only [okAnd, Bool.and_eq_true] at hok
      exact rangeAndT t (evalShift sh) hok.2 (rangeShift sh hok.1)

theorem rangeAndT : ∀ (t : AndT) (acc : Int), okAndT t = true →
    (-(2 ^ 63) ≤ acc ∧ acc < 2 ^ 63) → -(2 ^ 63) ≤ evalAndT acc t ∧ evalAndT acc t < 2 ^ 63
  | .nil, _, _, hacc => hacc
  | .cons a t, acc, hok, _ => by
      simp only [okAndT, Bool.and_eq_true] at hok
      exact rangeAndT t (and64 acc (evalShift a)) hok.2 (and64_range acc (evalShift a))

theorem rangeShift : ∀ (e : ShiftE), okShift e = true →
    -(2 ^ 63) ≤ evalShift e ∧ evalShift e < 2 ^ 63
  | .mk a t, hok => by
      simp only [okShift, Bool.and_eq_true] at hok
      exact rangeShiftT t (evalAdd a) hok.2 (rangeAdd a hok.1)

theorem rangeShiftT : ∀ (t : ShiftT) (acc : Int), okShiftT t = true →
    (-(2 ^ 63) ≤ acc ∧ acc < 2 ^ 63) →
    -(2 ^ 63) ≤ evalShiftT acc t ∧ evalShiftT acc t < 2 ^ 63
  | .nil, _, _, hacc => hacc
  | .shl a t, acc, hok, _ => by
      simp only [okShiftT, Bool.and_eq_true] at hok
      exact rangeShiftT t (shl64 acc (evalAdd a)) hok.2 (shl64_range acc (evalAdd a))
  | .shr a t, acc, hok, hacc => by
      simp only [okShiftT, Bool.and_eq_true] at hok
      exact rangeShiftT t (shr64 acc (evalAdd a)) hok.2
        (shr64_range acc (evalAdd a) hacc.1 hacc.2)

theorem rangeAdd : ∀ (e : AddE), okAdd e = true → -(2 ^ 63) ≤ evalAdd e ∧ evalAdd e < 2 ^ 63
  | .mk m t, hok => by
      simp only [okAdd, Bool.and_eq_true] at hok
      exact rangeAddT t (evalMul m) hok.2 (rangeMul m hok.1)

theorem rangeAddT : ∀ (t : AddT) (acc : Int), okAddT t = true →
    (-(2 ^ 63) ≤ acc ∧ acc < 2 ^ 63) → -(2 ^ 63) ≤ evalAddT acc t ∧ evalAddT acc t < 2 ^ 63
  | .nil, _, _, hacc => hacc
  | .plus m t, acc, hok, _ => by
      simp only [okAddT, Bool.and_eq_true] at hok
      exact rangeAddT t (add64 acc (evalMul m)) hok.2 (wrap64_range _)
  | .minus m t, acc, hok, _ => by
      simp only [okAddT, Bool.and_eq_true] at hok
      exact rangeAddT t (sub64 acc (evalMul m)) hok.2 (wrap64_range _)

theorem rangeMul : ∀ (e : MulE), okMul e = true → -(2 ^ 63) ≤ evalMul e ∧ evalMul e < 2 ^ 63
  | .mk u t, hok => by
      simp only [okMul, Bool.and_eq_true] at hok
      exact rangeMulT t (evalUn u) hok.2 (rangeUn u hok.1)

theorem rangeMulT : ∀ (t : MulT) (acc : Int), okMulT t = true →
    (-(2 ^ 63) ≤ acc ∧ acc < 2 ^ 63) → -(2 ^ 63) ≤ evalMulT acc t ∧ evalMulT acc t < 2 ^ 63
  | .nil, _, _, hacc => hacc
  | .times u t, acc, hok, _ => by
      simp only [okMulT, Bool.and_eq_true] at hok
      exact rangeMulT t (mul64 acc (evalUn u)) hok.2 (wrap64_range _)
  | .div u t, acc, hok, _ => by
      simp only [okMulT, Bool.and_eq_true] at hok
      exact rangeMulT t (div64 acc (evalUn u)) hok.2 (wrap64_range _)
  | .mod u t, acc, hok, _ => by
      simp only [okMulT, Bool.and_eq_true] at hok
      exact rangeMulT t (mod64 acc (evalUn u)) hok.2 (wrap64_range _)

theorem rangeUn : ∀ (u : UnE), okUn u = true → -(2 ^ 63) ≤ evalUn u ∧ evalUn u < 2 ^ 63
  | .plus u, hok => rangeUn u hok
  | .minus _, _ => wrap64_range _
  | .tilde _, _ => wrap64_range _
  | .prim p, hok => rangePrim p hok

theorem rangePrim : ∀ (p : PrimE), okPrim p = true →
    -(2 ^ 63) ≤ evalPrim p ∧ evalPrim p < 2 ^ 63
  | .paren e, hok => rangeOr e hok
  | .num hex ds suf, hok => by
      simp only [okPrim, Bool.and_eq_true, decide_eq_true_eq] at hok
      have h := hok.1.2
      show -(2 ^ 63) ≤ (digitsVal (if hex then 16 else 10) ds : Int)
        ∧ (digitsVal (if hex then 16 else 10) ds : Int) < 2 ^ 63
      exact ⟨by omega, by omega⟩

end

/-- C2 amended: the original claim quantifies over every expression of the
    grammar, but the source evaluator rejects some of them: a literal whose
    numeric value exceeds `2 ^ 63 - 1` makes `std::stoll` throw, which the
    parser turns into failure (see the counterexample below).  Restricted to
    expressions whose literals are representable (each literal value is below
    `2 ^ 63`), whose divisions and modulo operations have nonzero right
    operands and whose shift counts lie in `[0, 64)` — the `okOr` side
    condition — the evaluator is exact: it returns `some` of the value
    computed by the two-complement semantics `evalOr` (every operation
    wrapping modulo `2 ^ 64` into `[-2 ^ 63, 2 ^ 63)`), and that value is its
    own two-complement representative. -/
theorem evaluate_constant_expression_correct (e : OrE) (hok : okOr e = true) :
    evaluate_constant_expression (renderOr e) = some (evalOr e)
      ∧ wrap64 (evalOr e) = evalOr e := by
  constructor
  · have hpd : pdOr e < (renderOr e).length + 1 := by
      have := pd_le_renderOr e
      omega
    have hp := or_render ((renderOr e).length + 1) e [] hok trivial hpd
    rw [List.append_nil] at hp
    have hu : evaluate_constant_expression (renderOr e)
        = (match parse_bitwise_or_rec ((renderOr e).length + 1) (renderOr e) true with
           | (x, s1, v) => if v = true ∧ skipWsE s1 = [] then some x else none) := rfl
    rw [hu, hp]
    rfl
  · have h := rangeOr e hok
    exact wrap64_eq_of_range _ h.1 h.2

/-- C2 counterexample to the unrestricted claim: the grammar admits the hex
    literal `0xffffffffffffffff`, whose mathematical value modulo `2 ^ 64`
    under two-complement semantics is `-1` (as `wrap64` computes), yet the
    evaluator returns `none` for it because `std::stoll` overflows — not
    `some` of that value as the claim requires. -/
theorem evaluate_cec_overflow_cex :
    evaluate_constant_expression ("0xffffffffffffffff".toList) = none
      ∧ wrap64 ((18446744073709551615 : Nat) : Int) = -1 := by
  constructor
  · rfl
  · rfl

def eC2 : OrE :=
  OrE.mk (XorE.mk (AndE.mk (ShiftE.mk (AddE.mk (MulE.mk (UnE.prim (PrimE.num false ['6'] []))
    (MulT.div (UnE.prim (PrimE.num false ['2'] [])) MulT.nil)) AddT.nil) ShiftT.nil) AndT.nil)
    XorT.nil) OrT.nil

/-- Witness for the C2 theorem at the concrete expression `6/2`. -/
theorem evaluate_cec_correct_witness :
    okOr eC2 = true
      ∧ (evaluate_constant_expression (renderOr eC2) = some (evalOr eC2)
          ∧ wrap64 (evalOr eC2) = evalOr eC2) :=
  ⟨by decide, evaluate_constant_expression_correct eC2 (by decide)⟩

/-! ## The file transformer (`process_file_content` and its helpers)

    Positions are indices into the text; `cAtD` is `text[i]` with the
    out-of-bounds value `'\0'` (reads are always bounds-guarded as in the
    source, and `'\0'` matches the sentinel used by `find_identifier`).
    Every scanning loop advances its cursor by at least one per step and
    stops at or beyond the end of the text, so a fuel of `length + 1`
    never runs out; fuel exhaustion is mapped to `none`/identity and is
    proved unreachable where needed. -/

def cAtD (t : List Char) (i : Nat) : Char := (cAt t i).getD (Char.ofNat 0)

def lbrace : Char := Char.ofNat 123

def rbrace : Char := Char.ofNat 125

def squote : Char := Char.ofNat 39

/-- `skip_string_literal`: step past the opening delimiter, then scan; a
    backslash skips two characters, the delimiter one (and stops). -/
def sslLoop (t : List Char) (delim : Char) : Nat → Nat → Nat
  | 0, pos => pos
  | f + 1, pos =>
    if pos < t.length then
      if cAtD t pos = '\\' then sslLoop t delim f (pos + 2)
      else if cAtD t pos = delim then pos + 1
      else sslLoop t delim f (pos + 1)
    else pos

def skip_string_literal (t : List Char) (pos : Nat) (delim : Char) : Nat :=
  sslLoop t delim (t.length + 1) (pos + 1)

/-- `while (pos < size && text[pos] != a newline) ++pos`. -/
def lineEnd (t : List Char) (p : Nat) : Nat :=
  if p < t.length then
    match findCharFrom t '\n' p with
    | some k => k
    | none => t.length
  else p

/-- The scan of a `/* ... */` body: stop on `*/` or with one character left. -/
def blockScan (t : List Char) : Nat → Nat → Nat
  | 0, p => p
  | f + 1, p =>
    if p + 1 < t.length then
      if cAtD t p = '*' ∧ cAtD t (p + 1) = '/' then p
      else blockScan t f (p + 1)
    else p

/-- `pos = std::min(pos + 2, size)` after the `/* ... */` scan. -/
def blockEnd (t : List Char) (p : Nat) : Nat :=
  min (blockScan t (t.length + 1) p + 2) t.length

/-- `while (pos < size && isspace(text[pos])) ++pos` (the `skip_spaces`
    lambdas). -/
def wsScan (t : List Char) : Nat → Nat → Nat
  | 0, p => p
  | f + 1, p => if p < t.length ∧ isSpaceC (cAtD t p) then wsScan t f (p + 1) else p

def skipSpacesFrom (t : List Char) (p : Nat) : Nat := wsScan t (t.length + 1) p

/-- `skip_whitespace_and_comments` from the source. -/
def swacLoop (t : List Char) : Nat → Nat → Nat
  | 0, pos => pos
  | f + 1, pos =>
    if pos < t.length then
      if isSpaceC (cAtD t pos) then swacLoop t f (pos + 1)
      else if cAtD t pos = '/' ∧ pos + 1 < t.length then
        if cAtD t (pos + 1) = '/' then swacLoop t f (lineEnd t (pos + 2))
        else if cAtD t (pos + 1) = '*' then swacLoop t f (blockEnd t (pos + 2))
        else pos
      else pos
    else pos

def skip_whitespace_and_comments (t : List Char) (pos : Nat) : Nat :=
  swacLoop t (t.length + 1) pos

/-- `match_keyword` from the source. -/
def match_keyword (t : List Char) (pos : Nat) (kw : List Char) : Bool :=
  if pos + kw.length > t.length then false
  else if (decide (pos > 0) && is_identifier_char (cAtD t (pos - 1))) ||
      (decide (pos + kw.length < t.length) && is_identifier_char (cAtD t (pos + kw.length)))
    then false
  else slice t pos (pos + kw.length) == kw

/-- `while (consumed < size && is_identifier_char(text[consumed])) ++consumed`. -/
def identEnd (t : List Char) : Nat → Nat → Nat
  | 0, p => p
  | f + 1, p =>
    if p < t.length ∧ is_identifier_char (cAtD t p) then identEnd t f (p + 1) else p

/-- `while (pos < size && is_type_char(text[pos])) ++pos`. -/
def typeEnd (t : List Char) : Nat → Nat → Nat
  | 0, p => p
  | f + 1, p =>
    if p < t.length ∧ is_type_char (cAtD t p) then typeEnd t f (p + 1) else p

/-! `split_template_parameters` -/

/-- The depth-0 position of the first `'='` in a parameter token. -/
def assignPosAux : List Char → Nat → Option Nat
  | [], _ => none
  | c :: rest, depth =>
    if c = '<' then (assignPosAux rest (depth + 1)).map (· + 1)
    else if c = '>' then (assignPosAux rest (depth - 1)).map (· + 1)
    else if c = '=' ∧ depth = 0 then some 0
    else (assignPosAux rest depth).map (· + 1)

/-- `while (end > 0 && isspace(cleaned[end - 1])) --end`. -/
def rtrimLen (s : List Char) : Nat → Nat
  | 0 => 0
  | e + 1 => if isSpaceC (cAtD s e) then rtrimLen s e else e + 1

/-- `while (begin > 0 && (isalnum(ch) || ch == underscore)) --begin`. -/
def identBegin (s : List Char) : Nat → Nat
  | 0 => 0
  | b + 1 => if is_identifier_char (cAtD s b) then identBegin s b else b + 1

structure TemplateParameter where
  m_name : List Char
  m_is_type : Bool
deriving DecidableEq

/-- A parameter is a type parameter when the lowercased text before its name
    contains `typename`, `class`, `struct` or `template`. -/
def kindOfPrefix (pfx : List Char) : Bool :=
  let lower := pfx.map toLowerC
  containsSub lower ("typename".toList) || containsSub lower ("class".toList) ||
    containsSub lower ("struct".toList) || containsSub lower ("template".toList)

/-- The per-token body of `split_template_parameters`: strip a depth-0
    default (`= ...`), a trailing `...` pack, take the trailing identifier as
    the name and classify by the remaining text. -/
def paramOfToken (token : List Char) : Option TemplateParameter :=
  let cleaned :=
    match assignPosAux token 0 with
    | some j => trim (token.take j)
    | none => token
  if cleaned = [] then none
  else
    let cleaned2 :=
      if cleaned.length ≥ 3 ∧ slice cleaned (cleaned.length - 3) cleaned.length = ['.', '.', '.']
        then trim (cleaned.take (cleaned.length - 3))
      else cleaned
    let e := rtrimLen cleaned2 cleaned2.length
    let b := identBegin cleaned2 e
    if b < e then some ⟨slice cleaned2 b e, kindOfPrefix (trim (cleaned2.take b))⟩
    else none

def stpParams (p : List Char) (ts i : Nat) : List TemplateParameter :=
  match paramOfToken (trim (slice p ts i)) with
  | some pr => [pr]
  | none => []

def stpLoop (p : List Char) : Nat → Nat → Nat → Nat → List TemplateParameter →
    List TemplateParameter
  | 0, _, _, _, acc => acc
  | f + 1, i, depth, ts, acc =>
    if i < p.length then
      if cAtD p i = '<' then stpLoop p f (i + 1) (depth + 1) ts acc
      else if cAtD p i = '>' then stpLoop p f (i + 1) (depth - 1) ts acc
      else if cAtD p i = ',' ∧ depth = 0 then
        stpLoop p f (i + 1) depth (i + 1) (acc ++ stpParams p ts i)
      else stpLoop p f (i + 1) depth ts acc
    else acc ++ stpParams p ts p.length

def split_template_parameters (p : List Char) : List TemplateParameter :=
  stpLoop p (p.length + 1) 0 0 0 []

/-! `parse_template_definition` -/

structure Specialization where
  m_arguments : List (List Char)
  m_sanitized_name : List Char
  m_between : List Char
  m_body : List Char
  m_closing : List Char
deriving DecidableEq

structure TemplateDefinition where
  m_keyword : List Char
  m_name : List Char
  m_parameters : List TemplateParameter
  m_between : List Char
  m_body : List Char
  m_closing : List Char
  m_indentation : List Char
  m_scope_path : List Char
  m_start : Nat
  m_end : Nat
  m_specializations : List Specialization
  m_specialization_index : List (List Char × Nat)
deriving DecidableEq

def defaultTD : TemplateDefinition := ⟨[], [], [], [], [], [], [], [], 0, 0, [], []⟩

def defaultSpec : Specialization := ⟨[], [], [], [], []⟩

def full_name (d : TemplateDefinition) : List Char :=
  if d.m_scope_path = [] then d.m_name else d.m_scope_path ++ '.' :: d.m_name

/-- The `angle_depth` scan of `parse_template_definition`: position of the
    `'>'` closing the parameter list, skipping strings and comments. -/
def angleScan (t : List Char) : Nat → Nat → Nat → Option Nat
  | 0, _, _ => none
  | f + 1, pos, depth =>
    if pos < t.length ∧ depth > 0 then
      if cAtD t pos = '"' then angleScan t f (skip_string_literal t pos '"') depth
      else if cAtD t pos = squote then angleScan t f (skip_string_literal t pos squote) depth
      else if cAtD t pos = '/' ∧ pos + 1 < t.length ∧ cAtD t (pos + 1) = '/' then
        angleScan t f (lineEnd t pos) depth
      else if cAtD t pos = '/' ∧ pos + 1 < t.length ∧ cAtD t (pos + 1) = '*' then
        angleScan t f (blockEnd t (pos + 2)) depth
      else if cAtD t pos = '<' then angleScan t f (pos + 1) (depth + 1)
      else if cAtD t pos = '>' then
        if depth = 1 then some pos else angleScan t f (pos + 1) (depth - 1)
      else angleScan t f (pos + 1) depth
    else none

/-- The `between` scan: position of the `'{'` opening the body. -/
def braceFindScan (t : List Char) : Nat → Nat → Option Nat
  | 0, _ => none
  | f + 1, pos =>
    if pos < t.length then
      if cAtD t pos = '"' then braceFindScan t f (skip_string_literal t pos '"')
      else if cAtD t pos = squote then braceFindScan t f (skip_string_literal t pos squote)
      else if cAtD t pos = '/' ∧ pos + 1 < t.length ∧ cAtD t (pos + 1) = '/' then
        braceFindScan t f (lineEnd t pos)
      else if cAtD t pos = '/' ∧ pos + 1 < t.length ∧ cAtD t (pos + 1) = '*' then
        braceFindScan t f (blockEnd t (pos + 2))
      else if cAtD t pos = lbrace then some pos
      else braceFindScan t f (pos + 1)
    else none

/-- The `brace_depth` scan: position of the `'}'` closing the body. -/
def braceMatchScan (t : List Char) : Nat → Nat → Nat → Option Nat
  | 0, _, _ => none
  | f + 1, pos, depth =>
    if pos < t.length ∧ depth > 0 then
      if cAtD t pos = '"' then braceMatchScan t f (skip_string_literal t pos '"') depth
      else if cAtD t pos = squote then
        braceMatchScan t f (skip_string_literal t pos squote) depth
      else if cAtD t pos = '/' ∧ pos + 1 < t.length ∧ cAtD t (pos + 1) = '/' then
        braceMatchScan t f (lineEnd t pos) depth
      else if cAtD t pos = '/' ∧ pos + 1 < t.length ∧ cAtD t (pos + 1) = '*' then
        braceMatchScan t f (blockEnd t (pos + 2)) depth
      else if cAtD t pos = lbrace then braceMatchScan t f (pos + 1) (depth + 1)
      else if cAtD t pos = rbrace then
        if depth = 1 then some pos else braceMatchScan t f (pos + 1) (depth - 1)
      else braceMatchScan t f (pos + 1) depth
    else none

/-- Whitespace walk that also stops just after the first newline. -/
def wsNlScan (t : List Char) : Nat → Nat → Nat
  | 0, p => p
  | f + 1, p =>
    if p < t.length ∧ isSpaceC (cAtD t p) then
      if cAtD t p = '\n' then p + 1 else wsNlScan t f (p + 1)
    else p

/-- The closing-text scan after the body: the `'}'`, whitespace up to a
    newline, an optional `';'` and whitespace up to a newline again. -/
def closingScan (t : List Char) (bodyEnd : Nat) : Nat :=
  let p1 := if bodyEnd < t.length ∧ cAtD t bodyEnd = rbrace then bodyEnd + 1 else bodyEnd
  let p2 := wsNlScan t (t.length + 1) p1
  if p2 < t.length ∧ cAtD t p2 = ';' then wsNlScan t (t.length + 1) (p2 + 1) else p2

/-- `parse_template_definition` from the source: `struct`/`class`, a name,
    a `<...>` parameter list, optional text up to `'{'`, a brace-balanced
    body and the closing text; returns the definition and the consumed
    position. -/
def ptd_after (t : List Char) (pos c2 : Nat) (kw : List Char) :
    Option (TemplateDefinition × Nat) :=
  if c2 < t.length ∧ is_identifier_start (cAtD t c2) then
    let nameEnd := identEnd t (t.length + 1) c2
    let c3 := skip_whitespace_and_comments t nameEnd
    if c3 < t.length ∧ cAtD t c3 = '<' then
      match angleScan t (t.length + 1) (c3 + 1) 1 with
      | none => none
      | some gtPos =>
        let params := split_template_parameters (slice t (c3 + 1) gtPos)
        if params = [] then none
        else
          match braceFindScan t (t.length + 1) (gtPos + 1) with
          | none => none
          | some ob =>
            match braceMatchScan t (t.length + 1) (ob + 1) 1 with
            | none => none
            | some cb =>
              let closingStart := closingScan t cb
              let indentPos :=
                match rfindCharLE t '\n' pos with
                | none => 0
                | some k => k + 1
              some ({ m_keyword := kw
                      m_name := slice t c2 nameEnd
                      m_parameters := params
                      m_between := slice t (gtPos + 1) ob
                      m_body := slice t (ob + 1) cb
                      m_closing := slice t cb closingStart
                      m_indentation := slice t indentPos pos
                      m_scope_path := []
                      m_start := pos
                      m_end := closingStart
                      m_specializations := []
                      m_specialization_index := [] },
                    closingStart)
    else none
  else none

/-- `parse_template_definition` from the source: `struct`/`class`, a name,
    a `<...>` parameter list, optional text up to the opening brace, a
    brace-balanced body and the closing text; returns the definition and the
    consumed position. -/
def parse_template_definition (t : List Char) (pos : Nat) :
    Option (TemplateDefinition × Nat) :=
  let c0 := skip_whitespace_and_comments t pos
  if match_keyword t c0 ("struct".toList) || match_keyword t c0 ("class".toList) then
    let kw := slice t c0 (c0 + (if cAtD t c0 = 's' then 6 else 5))
    ptd_after t pos (skip_whitespace_and_comments t (c0 + kw.length)) kw
  else none

/-! `parse_template_arguments` -/

def ptaLoop (t : List Char) : Nat → Nat → Nat → Nat → List (List Char) →
    List (List Char) × Nat
  | 0, pos, _, _, acc => (acc, pos)
  | f + 1, pos, depth, ts, acc =>
    if pos < t.length ∧ depth > 0 then
      if cAtD t pos = '"' then ptaLoop t f (skip_string_literal t pos '"') depth ts acc
      else if cAtD t pos = squote then
        ptaLoop t f (skip_string_literal t pos squote) depth ts acc
      else if cAtD t pos = '/' ∧ pos + 1 < t.length ∧ cAtD t (pos + 1) = '/' then
        ptaLoop t f (lineEnd t pos) depth ts acc
      else if cAtD t pos = '/' ∧ pos + 1 < t.length ∧ cAtD t (pos + 1) = '*' then
        ptaLoop t f (blockEnd t (pos + 2)) depth ts acc
      else if cAtD t pos = '<' then ptaLoop t f (pos + 1) (depth + 1) ts acc
      else if cAtD t pos = '>' then
        if depth = 1 then
          let token := trim (slice t ts pos)
          ((if token = [] then acc else acc ++ [token]), pos + 1)
        else ptaLoop t f (pos + 1) (depth - 1) ts acc
      else if cAtD t pos = ',' ∧ depth = 1 then
        let token := trim (slice t ts pos)
        ptaLoop t f (pos + 1) depth (pos + 1) (if token = [] then acc else acc ++ [token])
      else ptaLoop t f (pos + 1) depth ts acc
    else (acc, pos)

def parse_template_arguments (t : List Char) (ltPos : Nat) : List (List Char) × Nat :=
  if ltPos < t.length ∧ cAtD t ltPos = '<' then
    ptaLoop t (t.length + 1) (ltPos + 1) 1 (ltPos + 1) []
  else ([], ltPos)

/-! `find_identifier` and `replace_parameters` -/

def fiLoop (t token : List Char) : Nat → Nat → Option Nat
  | 0, _ => none
  | f + 1, position =>
    match findSubFrom t token position with
    | none => none
    | some found =>
      let before := if found = 0 then Char.ofNat 0 else cAtD t (found - 1)
      let after := if found + token.length ≥ t.length then Char.ofNat 0
        else cAtD t (found + token.length)
      if is_identifier_char before || is_identifier_char after then
        fiLoop t token f (found + token.length)
      else some found

def find_identifier (t token : List Char) (position : Nat) : Option Nat :=
  fiLoop t token (t.length + 1) position

/-- The per-parameter replacement loop of `replace_parameters`: each step
    shrinks the text length beyond the cursor by the (nonempty) parameter
    name, so `length + 1` fuel suffices. -/
def riLoop (param repl : List Char) : Nat → List Char → Nat → List Char
  | 0, text, _ => text
  | f + 1, text, pos =>
    match find_identifier text param pos with
    | none => text
    | some found =>
      riLoop param repl f (splice text found param.length repl) (found + repl.length)

def replace_parameters (text : List Char) (params : List TemplateParameter)
    (args : List (List Char)) : List Char :=
  if params.length ≠ args.length then text
  else (params.zip args).foldl (fun t pa => riLoop pa.1.m_name pa.2 (t.length + 1) t 0) text

/-! `convert_template_body_placeholder` and `generate_placeholder_definition` -/

def constAt (t : List Char) (i : Nat) : Bool :=
  slice t i (i + 5) == "const".toList &&
    (decide (i + 5 ≥ t.length) || !(is_identifier_char (cAtD t (i + 5))))

def volatileAt (t : List Char) (i : Nat) : Bool :=
  slice t i (i + 8) == "volatile".toList &&
    (decide (i + 8 ≥ t.length) || !(is_identifier_char (cAtD t (i + 8))))

def skipQualifiers (t : List Char) : Nat → Nat → Nat
  | 0, idx => idx
  | f + 1, idx =>
    if idx < t.length then
      let i1 := if constAt t idx then skipSpacesFrom t (idx + 5) else idx
      let a2 := constAt t idx || volatileAt t i1
      let i2 := if volatileAt t i1 then skipSpacesFrom t (i1 + 8) else i1
      if a2 then skipQualifiers t f i2 else i2
    else idx

/-- The per-parameter loop of `convert_template_body_placeholder`: a type
    parameter becomes `void` if a `'*'` follows (after spaces and cv
    qualifiers), else `void*`; a non-type parameter becomes `1`. -/
def ctbLoop (p : TemplateParameter) : Nat → List Char → Nat → List Char
  | 0, result, _ => result
  | f + 1, result, searchPos =>
    match find_identifier result p.m_name searchPos with
    | none => result
    | some m =>
      if p.m_is_type then
        let la := skipSpacesFrom result (m + p.m_name.length)
        let la2 := skipQualifiers result (result.length + 1) la
        let pc := skipSpacesFrom result la2
        let repl := if pc < result.length ∧ cAtD result pc = '*' then "void".toList
          else "void*".toList
        ctbLoop p f (splice result m p.m_name.length repl) (m + repl.length)
      else ctbLoop p f (splice result m p.m_name.length ['1']) (m + 1)

def convert_template_body_placeholder (d : TemplateDefinition) : List Char :=
  evaluate_bracket_expressions
    (d.m_parameters.foldl (fun r p => ctbLoop p (r.length + 1) r 0) d.m_body)

def generate_placeholder_definition (d : TemplateDefinition) : List Char :=
  let cb := convert_template_body_placeholder d
  let base := d.m_indentation ++ d.m_keyword ++ ' ' :: d.m_name ++ d.m_between ++
    lbrace :: cb ++ d.m_closing
  if cb ≠ [] ∧ cb.getLast? ≠ some '\n' ∧ (d.m_closing = [] ∨ d.m_closing.head? ≠ some '\n')
    then base ++ ['\n']
  else base

/-! `DefinitionLookup`: definitions live in a list, the two maps hold
    indices into it. -/

def assocFind (m : List (List Char × Nat)) (k : List Char) : Option Nat :=
  (m.find? (fun e => e.1 == k)).map (fun e => e.2)

def assocSet (m : List (List Char × Nat)) (k : List Char) (v : Nat) :
    List (List Char × Nat) :=
  if (m.find? (fun e => e.1 == k)).isSome then
    m.map (fun e => if e.1 == k then (k, v) else e)
  else m ++ [(k, v)]

def assocFindL (m : List (List Char × List Nat)) (k : List Char) : Option (List Nat) :=
  (m.find? (fun e => e.1 == k)).map (fun e => e.2)

def assocAppendL (m : List (List Char × List Nat)) (k : List Char) (i : Nat) :
    List (List Char × List Nat) :=
  if (m.find? (fun e => e.1 == k)).isSome then
    m.map (fun e => if e.1 == k then (e.1, e.2 ++ [i]) else e)
  else m ++ [(k, [i])]

structure Lookup where
  by_full : List (List Char × Nat)
  by_name : List (List Char × List Nat)
deriving DecidableEq

def emptyLookup : Lookup := ⟨[], []⟩

def register_definition (lkp : Lookup) (d : TemplateDefinition) (idx : Nat) : Lookup :=
  { by_full := assocSet lkp.by_full (full_name d) idx
    by_name := assocAppendL lkp.by_name d.m_name idx }

/-- `scope_path.rfind(prefix)` followed by the at-end and boundary checks of
    `score_candidate`. -/
def rfindSubFrom (h n : List Char) : Nat → Option Nat
  | 0 => if slice h 0 n.length == n then some 0 else none
  | p + 1 =>
    if slice h (p + 1) (p + 1 + n.length) == n then some (p + 1) else rfindSubFrom h n p

def rfindSub (h n : List Char) : Option Nat :=
  if n.length ≤ h.length then rfindSubFrom h n (h.length - n.length) else none

def scoreBoundary (scope pfx : List Char) : Bool :=
  match rfindSub scope pfx with
  | some p =>
    decide (p + pfx.length = scope.length) && (decide (p = 0) || (cAtD scope (p - 1) == '.'))
  | none => false

def score_candidate (d : TemplateDefinition) (pfx cur : List Char) : Nat :=
  if pfx ≠ [] ∧ d.m_scope_path = pfx then 1000 + d.m_scope_path.length
  else if pfx ≠ [] ∧ d.m_scope_path.length ≥ pfx.length ∧ scoreBoundary d.m_scope_path pfx
    then 700 + pfx.length
  else if d.m_scope_path = cur then 800 + d.m_scope_path.length
  else if d.m_scope_path ≠ [] ∧ cur ≠ [] ∧
      slice cur 0 d.m_scope_path.length = d.m_scope_path ∧
      (cur.length = d.m_scope_path.length ∨ cAtD cur d.m_scope_path.length = '.') then
    400 + d.m_scope_path.length
  else if d.m_scope_path = [] then 100
  else 0

def resolveLoop (defs : List TemplateDefinition) (pfx cur : List Char) :
    List Nat → Option Nat → Nat → Option Nat
  | [], best, _ => best
  | i :: rest, best, bestScore =>
    let sc := score_candidate (defs.getD i defaultTD) pfx cur
    let best2 := if sc > bestScore then some i else best
    if sc ≥ 1000 then best2
    else resolveLoop defs pfx cur rest best2 (if sc > bestScore then sc else bestScore)

def resolve (defs : List TemplateDefinition) (lkp : Lookup) (token cur : List Char) :
    Option Nat :=
  let dot := rfindCharLE token '.' token.length
  let pfx := match dot with | none => [] | some d => token.take d
  let base := match dot with | none => token | some d => token.drop (d + 1)
  let direct := match dot with
    | some _ => assocFind lkp.by_full token
    | none => none
  match direct with
  | some i => some i
  | none =>
    match assocFindL lkp.by_name base with
    | none => none
    | some cands => resolveLoop defs pfx cur cands none 0

/-! `register_specialization` -/

def rs_scope_hint (d : TemplateDefinition) (pfx cur : List Char) : List Char :=
  if pfx ≠ [] then sanitize_scope_name pfx
  else if d.m_scope_path ≠ [] then sanitize_scope_name d.m_scope_path
  else sanitize_scope_name cur

def rs_signature (d : TemplateDefinition) (args : List (List Char)) (pfx cur : List Char) :
    List Char :=
  rs_scope_hint d pfx cur ++ '|' :: make_signature args

def spec_sanitized_name (base scopeTok : List Char) (args : List (List Char)) : List Char :=
  base ++ (if scopeTok ≠ [] then '_' :: scopeTok else []) ++
    args.foldl (fun acc a => acc ++ '_' :: sanitize_token a) []

def register_specialization (d : TemplateDefinition) (args : List (List Char))
    (pfx cur : List Char) : Specialization × TemplateDefinition :=
  let signature := rs_signature d args pfx cur
  match assocFind d.m_specialization_index signature with
  | some i => (d.m_specializations.getD i defaultSpec, d)
  | none =>
    let spec : Specialization :=
      { m_arguments := args
        m_sanitized_name := spec_sanitized_name d.m_name (rs_scope_hint d pfx cur) args
        m_between := replace_parameters d.m_between d.m_parameters args
        m_body := evaluate_bracket_expressions
          (replace_parameters d.m_body d.m_parameters args)
        m_closing := replace_parameters d.m_closing d.m_parameters args }
    (spec,
      { d with
        m_specializations := d.m_specializations ++ [spec]
        m_specialization_index :=
          d.m_specialization_index ++ [(signature, d.m_specializations.length)] })

/-! `current_indent` and `extract_imports` -/

def current_indent (t : List Char) : List Char :=
  match rfindCharLE t '\n' t.length with
  | none => []
  | some nl => (t.drop (nl + 1)).takeWhile (fun c => c == ' ' || c == '\t')

/-- The quoted-path scan of `extract_imports`. -/
def importPathEnd (t : List Char) : Nat → Nat → Nat
  | 0, p => p
  | f + 1, p =>
    if p < t.length ∧ cAtD t p ≠ '"' then
      if cAtD t p = '\\' ∧ p + 1 < t.length then importPathEnd t f (p + 2)
      else importPathEnd t f (p + 1)
    else p

/-- `extract_imports` from the source, returning the raw quoted strings;
    turning them into canonical paths is a filesystem operation left to the
    tree model. -/
def eiLoop (t : List Char) : Nat → Nat → List (List Char) → List (List Char)
  | 0, _, acc => acc
  | f + 1, pos, acc =>
    if pos < t.length then
      if cAtD t pos = '"' then eiLoop t f (skip_string_literal t pos '"') acc
      else if cAtD t pos = squote then eiLoop t f (skip_string_literal t pos squote) acc
      else if cAtD t pos = '/' ∧ pos + 1 < t.length ∧ cAtD t (pos + 1) = '/' then
        eiLoop t f (lineEnd t (pos + 2)) acc
      else if cAtD t pos = '/' ∧ pos + 1 < t.length ∧ cAtD t (pos + 1) = '*' then
        eiLoop t f (blockEnd t (pos + 2)) acc
      else if ¬ is_identifier_start (cAtD t pos) then eiLoop t f (pos + 1) acc
      else
        let idEnd := identEnd t (t.length + 1) pos
        if slice t pos idEnd ≠ "import".toList then eiLoop t f idEnd acc
        else
          let p2 := skip_whitespace_and_comments t idEnd
          if p2 < t.length ∧ cAtD t p2 = '"' then
            let pend := importPathEnd t (t.length + 1) (p2 + 1)
            let acc2 := if pend > p2 + 1 then acc ++ [slice t (p2 + 1) pend] else acc
            eiLoop t f (if pend < t.length ∧ cAtD t pend = '"' then pend + 1 else pend) acc2
          else eiLoop t f p2 acc
    else acc

def extract_imports (t : List Char) : List (List Char) := eiLoop t (t.length + 1) 0 []

/-! `process_file_content` -/

structure ScopeFrame where
  m_name : List Char
  m_path : List Char
  m_depth : Nat
  m_emitted : List (List Char)
deriving DecidableEq

def sframe0 : ScopeFrame := ⟨[], [], 0, []⟩

structure PendingScope where
  m_expect_name : Bool
  m_expect_brace : Bool
  m_keyword : List Char
  m_name : List Char
deriving DecidableEq

def emptyPending : PendingScope := ⟨false, false, [], []⟩

structure PfcState where
  pos : Nat
  brace_depth : Nat
  scope_stack : List ScopeFrame
  pending : PendingScope
  output : List Char
  defs : List TemplateDefinition
  lkup : Lookup
  had_templates : Bool
deriving DecidableEq

/-- The scope stack keeps its `back()` at the list head. -/
def stackBack (st : List ScopeFrame) : ScopeFrame := st.headD sframe0

/-- `while (scope_stack.size() > 1 && scope_stack.back().m_depth > brace_depth)
    scope_stack.pop_back()`. -/
def popScopes (bd : Nat) : List ScopeFrame → List ScopeFrame
  | [] => []
  | fr :: rest => if rest ≠ [] ∧ fr.m_depth > bd then popScopes bd rest else fr :: rest

/-- One iteration of the `process_file_content` scan loop (the cursor is in
    range). -/
def pfcStep (t : List Char) (st : PfcState) : PfcState :=
  let pos := st.pos
  let c := cAtD t pos
  if c = '"' then
    let e := skip_string_literal t pos '"'
    { st with pos := e, output := st.output ++ slice t pos e }
  else if c = squote then
    let e := skip_string_literal t pos squote
    { st with pos := e, output := st.output ++ slice t pos e }
  else if c = '/' ∧ pos + 1 < t.length ∧ cAtD t (pos + 1) = '/' then
    let e := lineEnd t (pos + 2)
    { st with pos := e, output := st.output ++ slice t pos e }
  else if c = '/' ∧ pos + 1 < t.length ∧ cAtD t (pos + 1) = '*' then
    let e := blockEnd t (pos + 2)
    { st with pos := e, output := st.output ++ slice t pos e }
  else
    match (if isAlphaC c || c = '_' then parse_template_definition t pos else none) with
    | some (d0, _) =>
      let d := { d0 with m_scope_path := (stackBack st.scope_stack).m_path }
      let lk2 := register_definition st.lkup d st.defs.length
      let placeholder := generate_placeholder_definition d
      let out1 := st.output ++ placeholder
      let out2 := if placeholder ≠ [] ∧ out1.getLast? ≠ some '\n' then out1 ++ ['\n'] else out1
      { st with
        pos := d.m_end
        output := out2
        defs := st.defs ++ [d]
        lkup := lk2
        had_templates := true
        pending := emptyPending }
    | none =>
      if c = lbrace then
        let bd := st.brace_depth + 1
        if st.pending.m_expect_brace then
          let base := stackBack st.scope_stack
          let new_path :=
            if st.pending.m_name ≠ [] then
              (base.m_path ++ (if base.m_path ≠ [] then ['.'] else [])) ++ st.pending.m_name
            else base.m_path
          { st with
            pos := pos + 1
            brace_depth := bd
            output := st.output ++ [lbrace]
            scope_stack := ⟨st.pending.m_name, new_path, bd, []⟩ :: st.scope_stack
            pending := emptyPending }
        else
          { st with pos := pos + 1, brace_depth := bd, output := st.output ++ [lbrace] }
      else if c = rbrace then
        let bd := st.brace_depth - 1
        { st with
          pos := pos + 1
          brace_depth := bd
          output := st.output ++ [rbrace]
          scope_stack := popScopes bd st.scope_stack
          pending := emptyPending }
      else if c = ';' then
        { st with pos := pos + 1, output := st.output ++ [';'], pending := emptyPending }
      else if isSpaceC c then
        { st with pos := pos + 1, output := st.output ++ [c] }
      else if is_type_char c then
        let tokEnd := typeEnd t (t.length + 1) pos
        let token := slice t pos tokEnd
        let pend2 :=
          if st.pending.m_expect_name then
            { st.pending with
              m_name := token
              m_expect_name := false
              m_expect_brace := true }
          else st.pending
        if token = "namespace".toList ∨ token = "struct".toList ∨ token = "class".toList then
          { st with
            pos := tokEnd
            output := st.output ++ token
            pending := { emptyPending with m_keyword := token, m_expect_name := true } }
        else
          let la := skip_whitespace_and_comments t tokEnd
          if la < t.length ∧ cAtD t la = '<' then
            let pr := parse_template_arguments t la
            match (if pr.1 ≠ [] then
                resolve st.defs st.lkup token (stackBack st.scope_stack).m_path
              else none) with
            | some di =>
              let d := st.defs.getD di defaultTD
              let tokenPfx := match rfindCharLE token '.' token.length with
                | none => []
                | some dp => token.take dp
              let sd := register_specialization d pr.1 tokenPfx
                (stackBack st.scope_stack).m_path
              let back := stackBack st.scope_stack
              if sd.1.m_sanitized_name ∈ back.m_emitted then
                { st with
                  pos := pr.2
                  defs := st.defs.set di sd.2
                  output := st.output ++ sd.1.m_sanitized_name
                  had_templates := true
                  pending := emptyPending }
              else
                let indent := current_indent st.output
                let out1 := if st.output ≠ [] ∧ st.output.getLast? ≠ some '\n' then
                    st.output ++ ['\n']
                  else st.output
                let out2 := out1 ++ indent ++ sd.2.m_keyword ++ ' ' :: sd.1.m_sanitized_name
                  ++ sd.1.m_between ++ lbrace :: sd.1.m_body
                let out3 := if (sd.1.m_closing.dropWhile isSpaceC).head? = some rbrace then
                    out2
                  else out2 ++ [rbrace]
                let out4 := out3 ++ sd.1.m_closing
                let out5 := if out4.getLast? ≠ some '\n' then out4 ++ ['\n'] else out4
                let stack2 := match st.scope_stack with
                  | [] => []
                  | b :: rest =>
                    { b with m_emitted := b.m_emitted ++ [sd.1.m_sanitized_name] } :: rest
                { st with
                  pos := pr.2
                  defs := st.defs.set di sd.2
                  output := out5 ++ indent ++ sd.1.m_sanitized_name
                  scope_stack := stack2
                  had_templates := true
                  pending := emptyPending }
            | none =>
              { st with
                pos := pr.2
                output := st.output ++ slice t pos pr.2
                pending := pend2 }
          else
            { st with pos := tokEnd, output := st.output ++ token, pending := pend2 }
      else
        { st with pos := pos + 1, output := st.output ++ [c] }

def pfcLoop (t : List Char) : Nat → PfcState → Option PfcState
  | 0, _ => none
  | f + 1, st => if st.pos < t.length then pfcLoop t f (pfcStep t st) else some st

def initPfcState : PfcState :=
  ⟨0, 0, [sframe0], emptyPending, [], [], emptyLookup, false⟩

structure FileProcessResult where
  m_processed_content : List Char
  m_had_templates : Bool
  m_imports : List (List Char)
deriving DecidableEq

/-- `process_file_content` from the source; `none` only on fuel exhaustion,
    which the termination theorem rules out. -/
def process_file_content (t : List Char) : Option FileProcessResult :=
  match pfcLoop t (t.length + 1) initPfcState with
  | none => none
  | some st => some ⟨st.output, st.had_templates, extract_imports st.output⟩

/-! ## Cursor-advance facts for the scanning loops (towards C10) -/

theorem sslLoop_ge (t : List Char) (delim : Char) :
    ∀ (f p : Nat), p ≤ sslLoop t delim f p := by
  intro f
  induction f with
  | zero => intro p; simp [sslLoop]
  | succ f ih =>
      intro p
      simp only [sslLoop]
      split_ifs with h1 h2 h3
      · have := ih (p + 2); omega
      · omega
      · have := ih (p + 1); omega
      · omega

theorem skip_string_literal_gt (t : List Char) (pos : Nat) (delim : Char) :
    pos < skip_string_literal t pos delim := by
  have := sslLoop_ge t delim (t.length + 1) (pos + 1)
  unfold skip_string_literal
  omega

theorem lineEnd_ge (t : List Char) (p : Nat) : p ≤ lineEnd t p := by
  unfold lineEnd
  split_ifs with h
  · rcases hf : findCharFrom t '\n' p with _ | k
    · simp only [hf]; omega
    · simp only [hf]; exact (findCharFrom_ge hf).1
  · omega

theorem blockScan_ge (t : List Char) : ∀ (f p : Nat), p ≤ blockScan t f p := by
  intro f
  induction f with
  | zero => intro p; simp [blockScan]
  | succ f ih =>
      intro p
      simp only [blockScan]
      split_ifs with h1 h2
      · omega
      · have := ih (p + 1); omega
      · omega

theorem blockEnd_ge (t : List Char) (q : Nat) (h : q ≤ t.length) : q ≤ blockEnd t q := by
  have := blockScan_ge t (t.length + 1) q
  unfold blockEnd
  omega

theorem wsScan_ge (t : List Char) : ∀ (f p : Nat), p ≤ wsScan t f p := by
  intro f
  induction f with
  | zero => intro p; simp [wsScan]
  | succ f ih =>
      intro p
      simp only [wsScan]
      split_ifs with h1
      · have := ih (p + 1); omega
      · omega

theorem skipSpacesFrom_ge (t : List Char) (p : Nat) : p ≤ skipSpacesFrom t p :=
  wsScan_ge t (t.length + 1) p

theorem swacLoop_ge (t : List Char) : ∀ (f p : Nat), p ≤ swacLoop t f p := by
  intro f
  induction f with
  | zero => intro p; simp [swacLoop]
  | succ f ih =>
      intro p
      simp only [swacLoop]
      split_ifs with h1 h2 h3 h4
      · have := ih (p + 1); omega
      · have := ih (lineEnd t (p + 2))
        have := lineEnd_ge t (p + 2)
        omega
      · have := ih (blockEnd t (p + 2))
        have h5 : p + 2 ≤ t.length := by omega
        have := blockEnd_ge t (p + 2) h5
        omega
      · omega
      · omega
      · omega

theorem skip_whitespace_and_comments_ge (t : List Char) (p : Nat) :
    p ≤ skip_whitespace_and_comments t p :=
  swacLoop_ge t (t.length + 1) p

theorem identEnd_ge (t : List Char) : ∀ (f p : Nat), p ≤ identEnd t f p := by
  intro f
  induction f with
  | zero => intro p; simp [identEnd]
  | succ f ih =>
      intro p
      simp only [identEnd]
      split_ifs with h1
      · have := ih (p + 1); omega
      · omega

theorem typeEnd_ge (t : List Char) : ∀ (f p : Nat), p ≤ typeEnd t f p := by
  intro f
  induction f with
  | zero => intro p; simp [typeEnd]
  | succ f ih =>
      intro p
      simp only [typeEnd]
      split_ifs with h1
      · have := ih (p + 1); omega
      · omega

theorem typeEnd_gt (t : List Char) (p : Nat) (h1 : p < t.length)
    (h2 : is_type_char (cAtD t p) = true) : p < typeEnd t (t.length + 1) p := by
  have hu : typeEnd t (t.length + 1) p = typeEnd t t.length (p + 1) := by
    simp only [typeEnd]
    rw [if_pos ⟨h1, h2⟩]
  have := typeEnd_ge t t.length (p + 1)
  omega

theorem identEnd_gt (t : List Char) (p : Nat) (h1 : p < t.length)
    (h2 : is_identifier_char (cAtD t p) = true) : p < identEnd t (t.length + 1) p := by
  have hu : identEnd t (t.length + 1) p = identEnd t t.length (p + 1) := by
    simp only [identEnd]
    rw [if_pos ⟨h1, h2⟩]
  have := identEnd_ge t t.length (p + 1)
  omega

theorem wsNlScan_ge (t : List Char) : ∀ (f p : Nat), p ≤ wsNlScan t f p := by
  intro f
  induction f with
  | zero => intro p; simp [wsNlScan]
  | succ f ih =>
      intro p
      simp only [wsNlScan]
      split_ifs with h1 h2
      · omega
      · have := ih (p + 1); omega
      · omega

theorem closingScan_ge (t : List Char) (bodyEnd : Nat) : bodyEnd ≤ closingScan t bodyEnd := by
  unfold closingScan
  dsimp only
  split_ifs with h1 h2 h3
  · have g1 := wsNlScan_ge t (t.length + 1) (bodyEnd + 1)
    have g2 := wsNlScan_ge t (t.length + 1) (wsNlScan t (t.length + 1) (bodyEnd + 1) + 1)
    omega
  · have g1 := wsNlScan_ge t (t.length + 1) (bodyEnd + 1)
    omega
  · have g1 := wsNlScan_ge t (t.length + 1) bodyEnd
    have g2 := wsNlScan_ge t (t.length + 1) (wsNlScan t (t.length + 1) bodyEnd + 1)
    omega
  · have g1 := wsNlScan_ge t (t.length + 1) bodyEnd
    omega

theorem angleScan_ge (t : List Char) : ∀ (f p dep g : Nat),
    angleScan t f p dep = some g → p ≤ g := by
  intro f
  induction f with
  | zero => intro p dep g h; simp [angleScan] at h
  | succ f ih =>
      intro p dep g h
      simp only [angleScan] at h
      split_ifs at h with h0 h1 h2 h3 h4 h5 h6 h7
      · have := ih _ _ _ h
        have := skip_string_literal_gt t p '"'
        omega
      · have := ih _ _ _ h
        have := skip_string_literal_gt t p squote
        omega
      · have := ih _ _ _ h
        have := lineEnd_ge t p
        omega
      · have := ih _ _ _ h
        have h8 : p + 2 ≤ t.length := by omega
        have := blockEnd_ge t (p + 2) h8
        omega
      · have := ih _ _ _ h
        omega
      · rw [Option.some.injEq] at h
        omega
      · have := ih _ _ _ h
        omega
      · have := ih _ _ _ h
        omega

theorem braceFindScan_ge (t : List Char) : ∀ (f p g : Nat),
    braceFindScan t f p = some g → p ≤ g := by
  intro f
  induction f with
  | zero => intro p g h; simp [braceFindScan] at h
  | succ f ih =>
      intro p g h
      simp only [braceFindScan] at h
      split_ifs at h with h0 h1 h2 h3 h4 h5
      · have := ih _ _ h
        have := skip_string_literal_gt t p '"'
        omega
      · have := ih _ _ h
        have := skip_string_literal_gt t p squote
        omega
      · have := ih _ _ h
        have := lineEnd_ge t p
        omega
      · have := ih _ _ h
        have h8 : p + 2 ≤ t.length := by omega
        have := blockEnd_ge t (p + 2) h8
        omega
      · rw [Option.some.injEq] at h
        omega
      · have := ih _ _ h
        omega

theorem braceMatchScan_ge (t : List Char) : ∀ (f p dep g : Nat),
    braceMatchScan t f p dep = some g → p ≤ g := by
  intro f
  induction f with
  | zero => intro p dep g h; simp [braceMatchScan] at h
  | succ f ih =>
      intro p dep g h
      simp only [braceMatchScan] at h
      split_ifs at h with h0 h1 h2 h3 h4 h5 h6 h7
      · have := ih _ _ _ h
        have := skip_string_literal_gt t p '"'
        omega
      · have := ih _ _ _ h
        have := skip_string_literal_gt t p squote
        omega
      · have := ih _ _ _ h
        have := lineEnd_ge t p
        omega
      · have := ih _ _ _ h
        have h8 : p + 2 ≤ t.length := by omega
        have := blockEnd_ge t (p + 2) h8
        omega
      · have := ih _ _ _ h
        omega
      · rw [Option.some.injEq] at h
        omega
      · have := ih _ _ _ h
        omega
      · have := ih _ _ _ h
        omega

theorem ptaLoop_ge (t : List Char) : ∀ (f p dep ts : Nat) (acc : List (List Char)),
    p ≤ (ptaLoop t f p dep ts acc).2 := by
  intro f
  induction f with
  | zero => intro p dep ts acc; simp [ptaLoop]
  | succ f ih =>
      intro p dep ts acc
      simp only [ptaLoop]
      split_ifs <;>
        first
          | omega
          | (have hgen := ih (skip_string_literal t p '"') dep ts acc
             have := skip_string_literal_gt t p '"'
             omega)
          | (have hgen := ih (skip_string_literal t p squote) dep ts acc
             have := skip_string_literal_gt t p squote
             omega)
          | (have hgen := ih (lineEnd t p) dep ts acc
             have := lineEnd_ge t p
             omega)
          | (have hgen := ih (blockEnd t (p + 2)) dep ts acc
             have h9 : p + 2 ≤ t.length := by omega
             have := blockEnd_ge t (p + 2) h9
             omega)
          | (have hgen := ih (p + 1) (dep + 1) ts acc
             omega)
          | (have hgen := ih (p + 1) (dep - 1) ts acc
             omega)
          | (have hgen := ih (p + 1) dep ts acc
             omega)
          | (have hgen := ih (p + 1) dep (p + 1) acc
             omega)
          | (have hgen := ih (p + 1) dep (p + 1) (acc ++ [trim (slice t ts p)])
             omega)

theorem slice_length (t : List Char) (a b : Nat) :
    (slice t a b).length = min (b - a) (t.length - a) := by
  simp [slice]

theorem match_keyword_le {t kw : List Char} {p : Nat}
    (h : match_keyword t p kw = true) : p + kw.length ≤ t.length := by
  unfold match_keyword at h
  split_ifs at h with h1 h2 <;> first | omega | simp_all

theorem ptd_after_gt {t : List Char} {pos c2 cns : Nat} {kw : List Char}
    {d : TemplateDefinition} (h : ptd_after t pos c2 kw = some (d, cns)) :
    c2 < d.m_end ∧ d.m_end = cns := by
  unfold ptd_after at h
  dsimp only at h
  set nE := identEnd t (t.length + 1) c2 with hnE
  set c3 := skip_whitespace_and_comments t nE with hc3
  split_ifs at h with hid hlt
  split at h
  next => exact absurd h (by simp)
  next gtPos hg =>
    split_ifs at h with hp2
    split at h
    next => exact absurd h (by simp)
    next ob hob =>
      split at h
      next => exact absurd h (by simp)
      next cb hcb =>
        rw [Option.some.injEq, Prod.mk.injEq] at h
        obtain ⟨hd, hc⟩ := h
        have e1 : c2 ≤ nE := identEnd_ge t (t.length + 1) c2
        have e2 : nE ≤ c3 := skip_whitespace_and_comments_ge t nE
        have e3 := angleScan_ge t (t.length + 1) (c3 + 1) 1 gtPos hg
        have e4 := braceFindScan_ge t (t.length + 1) (gtPos + 1) ob hob
        have e5 := braceMatchScan_ge t (t.length + 1) (ob + 1) 1 cb hcb
        have e6 := closingScan_ge t cb
        subst hd
        dsimp only
        omega

theorem parse_template_definition_gt {t : List Char} {pos cns : Nat}
    {d : TemplateDefinition} (h : parse_template_definition t pos = some (d, cns)) :
    pos < d.m_end ∧ d.m_end = cns := by
  unfold parse_template_definition at h
  dsimp only at h
  set c0 := skip_whitespace_and_comments t pos with hc0
  have h0 : pos ≤ c0 := skip_whitespace_and_comments_ge t pos
  split_ifs at h with hkw hs
  · have hlen : c0 < t.length := by
      rcases (Bool.or_eq_true _ _).mp hkw with hk | hk <;>
        (have hgen := match_keyword_le hk; simp only [List.length] at hgen; omega)
    have hgt := ptd_after_gt h
    have h2 := skip_whitespace_and_comments_ge t (c0 + (slice t c0 (c0 + 6)).length)
    have hkl : 1 ≤ (slice t c0 (c0 + 6)).length := by
      rw [slice_length]; omega
    omega
  · have hlen : c0 < t.length := by
      rcases (Bool.or_eq_true _ _).mp hkw with hk | hk <;>
        (have hgen := match_keyword_le hk; simp only [List.length] at hgen; omega)
    have hgt := ptd_after_gt h
    have h2 := skip_whitespace_and_comments_ge t (c0 + (slice t c0 (c0 + 5)).length)
    have hkl : 1 ≤ (slice t c0 (c0 + 5)).length := by
      rw [slice_length]; omega
    omega

theorem parse_template_arguments_gt {t : List Char} {ltPos : Nat}
    (h1 : ltPos < t.length) (h2 : cAtD t ltPos = '<') :
    ltPos < (parse_template_arguments t ltPos).2 := by
  unfold parse_template_arguments
  rw [if_pos ⟨h1, h2⟩]
  have := ptaLoop_ge t (t.length + 1) (ltPos + 1) 1 (ltPos + 1) []
  omega

theorem parse_template_arguments_ge (t : List Char) (ltPos : Nat) :
    ltPos ≤ (parse_template_arguments t ltPos).2 := by
  unfold parse_template_arguments
  split_ifs with h1
  · have := ptaLoop_ge t (t.length + 1) (ltPos + 1) 1 (ltPos + 1) []
    omega
  · omega

theorem pfcStep_pos_lt (t : List Char) (st : PfcState) (h : st.pos < t.length) :
    st.pos < (pfcStep t st).pos := by
  unfold pfcStep
  dsimp only
  by_cases h1 : cAtD t st.pos = '"'
  · rw [if_pos h1]
    exact skip_string_literal_gt t st.pos '"'
  rw [if_neg h1]
  by_cases h2 : cAtD t st.pos = squote
  · rw [if_pos h2]
    exact skip_string_literal_gt t st.pos squote
  rw [if_neg h2]
  by_cases h3 : cAtD t st.pos = '/' ∧ st.pos + 1 < t.length ∧ cAtD t (st.pos + 1) = '/'
  · rw [if_pos h3]
    have := lineEnd_ge t (st.pos + 2)
    dsimp only
    omega
  rw [if_neg h3]
  by_cases h4 : cAtD t st.pos = '/' ∧ st.pos + 1 < t.length ∧ cAtD t (st.pos + 1) = '*'
  · rw [if_pos h4]
    have h5 : st.pos + 2 ≤ t.length := by omega
    have := blockEnd_ge t (st.pos + 2) h5
    dsimp only
    omega
  rw [if_neg h4]
  rcases hp : (if isAlphaC (cAtD t st.pos) || cAtD t st.pos = '_' then
      parse_template_definition t st.pos else none) with _ | dc
  · dsimp only
    by_cases h5 : cAtD t st.pos = lbrace
    · rw [if_pos h5]
      split_ifs <;> (dsimp only; omega)
    rw [if_neg h5]
    by_cases h6 : cAtD t st.pos = rbrace
    · rw [if_pos h6]
      dsimp only
      omega
    rw [if_neg h6]
    by_cases h7 : cAtD t st.pos = ';'
    · rw [if_pos h7]
      dsimp only
      omega
    rw [if_neg h7]
    by_cases h8 : isSpaceC (cAtD t st.pos) = true
    · rw [if_pos h8]
      dsimp only
      omega
    rw [if_neg h8]
    by_cases h9 : is_type_char (cAtD t st.pos) = true
    · rw [if_pos h9]
      have htok : st.pos < typeEnd t (t.length + 1) st.pos := typeEnd_gt t st.pos h h9
      have hla : typeEnd t (t.length + 1) st.pos
          ≤ skip_whitespace_and_comments t (typeEnd t (t.length + 1) st.pos) :=
        skip_whitespace_and_comments_ge t (typeEnd t (t.length + 1) st.pos)
      have hargs : skip_whitespace_and_comments t (typeEnd t (t.length + 1) st.pos)
          ≤ (parse_template_arguments t
              (skip_whitespace_and_comments t (typeEnd t (t.length + 1) st.pos))).2 :=
        parse_template_arguments_ge t _
      repeat' split
      all_goals ((try dsimp only); omega)
    rw [if_neg h9]
    dsimp only
    omega
  · dsimp only
    have hsome : parse_template_definition t st.pos = some dc := by
      by_cases hc : (isAlphaC (cAtD t st.pos) || decide (cAtD t st.pos = '_')) = true
      · rw [if_pos hc] at hp
        exact hp
      · rw [if_neg hc] at hp
        exact absurd hp (by simp)
    obtain ⟨d0, cnsm⟩ := dc
    have := (parse_template_definition_gt hsome).1
    dsimp only
    omega

theorem pfcLoop_isSome (t : List Char) : ∀ (f : Nat) (st : PfcState),
    t.length - st.pos < f → (pfcLoop t f st).isSome = true := by
  intro f
  induction f with
  | zero => intro st h; omega
  | succ f ih =>
      intro st h
      simp only [pfcLoop]
      split_ifs with h1
      · exact ih (pfcStep t st) (by have := pfcStep_pos_lt t st h1; omega)
      · simp

/-- C10: the file transformer terminates on every input: the fuelled main
    loop always completes within `length + 1` steps because every iteration
    strictly advances the cursor — including iterations that enter an
    unterminated string literal, an unterminated block comment or a trailing
    backslash escape, all of which step to or beyond the end of the text. -/
theorem process_file_content_total (t : List Char) :
    (process_file_content t).isSome = true
      ∧ ∀ st : PfcState, st.pos < t.length → st.pos < (pfcStep t st).pos := by
  constructor
  · unfold process_file_content
    have hs := pfcLoop_isSome t (t.length + 1) initPfcState (by simp [initPfcState])
    rcases hres : pfcLoop t (t.length + 1) initPfcState with _ | st
    · rw [hres] at hs
      simp at hs
    · simp
  · exact fun st h => pfcStep_pos_lt t st h

/-- Witness for C10 at a concrete input, including one ending inside an
    unterminated string literal with a trailing backslash. -/
theorem process_file_content_total_witness :
    ((process_file_content ("int x; \"abc\\".toList)).isSome = true
        ∧ 0 < (pfcStep ("int x; \"abc\\".toList) initPfcState).pos)
      ∧ (process_file_content ("y /* t".toList)).isSome = true :=
  ⟨⟨(process_file_content_total ("int x; \"abc\\".toList)).1,
      (process_file_content_total ("int x; \"abc\\".toList)).2 initPfcState (by decide)⟩,
    (process_file_content_total ("y /* t".toList)).1⟩

/-! ## C9: argument-count mismatch at a use site -/

/-- C9: when the use-site argument count differs from the definition's
    parameter count, `replace_parameters` returns its input unchanged, so the
    specialization built and cached by `register_specialization` keeps the
    definition's `between`, `body` (the body undergoing only bracket
    reduction) and `closing` verbatim, and it is appended to the caches; no
    failure path exists. -/
theorem register_specialization_arity_mismatch
    (d : TemplateDefinition) (args : List (List Char)) (pfx cur : List Char)
    (hlen : d.m_parameters.length ≠ args.length)
    (hfresh : assocFind d.m_specialization_index (rs_signature d args pfx cur) = none) :
    (register_specialization d args pfx cur).1.m_between = d.m_between
      ∧ (register_specialization d args pfx cur).1.m_body
          = evaluate_bracket_expressions d.m_body
      ∧ (register_specialization d args pfx cur).1.m_closing = d.m_closing
      ∧ (register_specialization d args pfx cur).2.m_specializations
          = d.m_specializations ++ [(register_specialization d args pfx cur).1]
      ∧ (register_specialization d args pfx cur).2.m_specialization_index
          = d.m_specialization_index
              ++ [(rs_signature d args pfx cur, d.m_specializations.length)] := by
  have hrp : ∀ x : List Char, replace_parameters x d.m_parameters args = x := by
    intro x
    unfold replace_parameters
    rw [if_pos hlen]
  unfold register_specialization
  dsimp only
  rw [hfresh]
  dsimp only
  rw [hrp, hrp, hrp]
  exact ⟨rfl, rfl, rfl, rfl, rfl⟩

def dC9 : TemplateDefinition :=
  { defaultTD with
    m_name := "Box".toList
    m_parameters := [⟨['T'], true⟩]
    m_between := [' ']
    m_body := " T x[2*3]; ".toList
    m_closing := ("\x7d;\n").toList }

/-- Witness for C9 at a concrete definition and a two-argument use of a
    one-parameter template. -/
theorem register_specialization_arity_witness :
    (dC9.m_parameters.length ≠ ["int".toList, "float".toList].length
        ∧ assocFind dC9.m_specialization_index
            (rs_signature dC9 ["int".toList, "float".toList] [] []) = none)
      ∧ ((register_specialization dC9 ["int".toList, "float".toList] [] []).1.m_between
            = dC9.m_between
          ∧ (register_specialization dC9 ["int".toList, "float".toList] [] []).1.m_body
              = evaluate_bracket_expressions dC9.m_body
          ∧ (register_specialization dC9 ["int".toList, "float".toList] [] []).1.m_closing
              = dC9.m_closing
          ∧ (register_specialization dC9 ["int".toList, "float".toList] [] []).2.m_specializations
              = dC9.m_specializations
                  ++ [(register_specialization dC9 ["int".toList, "float".toList] [] []).1]
          ∧ (register_specialization dC9 ["int".toList, "float".toList] [] []).2.m_specialization_index
              = dC9.m_specialization_index
                  ++ [(rs_signature dC9 ["int".toList, "float".toList] [] [],
                      dC9.m_specializations.length)]) :=
  ⟨⟨by decide, by decide⟩,
    register_specialization_arity_mismatch dC9 ["int".toList, "float".toList] [] []
      (by decide) (by decide)⟩

/-! ## C1: the scenario-S1 input -/

def textS1 : List Char :=
  ("template<typename T> struct Box \x7b T value; \x7d;\n" ++
   "Box<int> b; Box<int> c;\n").toList

def textRec : List Char :=
  ("struct Box<typename T> \x7b T value; \x7d;\n" ++
   "Box<int> b; Box<int> c;\n").toList

def expectedRec : List Char :=
  ("struct Box \x7b void* value; \x7d;\n\n" ++
   "struct Box_int \x7b int value; \x7d;\nBox_int b; Box_int c;\n").toList

set_option maxRecDepth 100000 in
/-- C1, counterexample.  On the exact scenario-S1 text — a definition written
    `template<typename T> struct Box ...` — the transformer recognizes no
    template definition, because `parse_template_definition` requires
    `struct`/`class`, then the name, then `<`.  The output equals the input,
    `had_templates` is false and no `Box_int` appears anywhere, contradicting
    every output obligation of the claim. -/
theorem process_s1_unchanged_cex :
    process_file_content textS1 = some ⟨textS1, false, []⟩
      ∧ containsSub textS1 ("Box_int".toList) = false
      ∧ parse_template_definition textS1 0 = none := by
  refine ⟨by decide, by decide, by decide⟩

set_option maxRecDepth 100000 in
/-- C1, amended claim: the definition syntax the transformer recognizes is
    `struct|class Name<params>`, not `template<...> struct Name`.  On the S1
    scenario written in the recognized syntax, the output is exactly: the
    placeholder declaration of `Box` with `value` retyped `void*`, then the
    single specialization `struct Box_int \x7b int value; \x7d;` placed before
    the first use site, and both use sites rewritten to `Box_int`; the S1 text
    as literally given is returned unchanged (see the counterexample). -/
theorem process_recognized_syntax :
    process_file_content textRec = some ⟨expectedRec, true, []⟩
      ∧ containsSub expectedRec (("struct Box_int \x7b int value; \x7d;").toList) = true
      ∧ containsSub expectedRec ("void*".toList) = true := by
  refine ⟨by decide, by decide, by decide⟩

/-! ## C8: the staging directory name -/

/-- One lowercase hexadecimal digit, as `std::hex` renders it. -/
def hexChar (n : Nat) : Char :=
  if n < 10 then Char.ofNat (48 + n) else Char.ofNat (87 + n)

def hexAux : Nat → Nat → List Char
  | 0, _ => []
  | f + 1, v => if v = 0 then [] else hexAux f (v / 16) ++ [hexChar (v % 16)]

/-- `oss << std::hex << v` on an unsigned 64-bit value: lowercase hex
    digits, no leading zeros, `"0"` for zero.  `random_suffix` returns this
    for a random draw `v`. -/
def random_suffix (v : Nat) : List Char :=
  if v = 0 then ['0'] else hexAux (v + 1) v

/-- The staging directory name built in `process_tree`:
    `"regenny_tmpl_" + random_suffix()`. -/
def staging_dir_name (v : Nat) : List Char :=
  ("regenny_tmpl_").toList ++ random_suffix v

def isLowerHexC (c : Char) : Bool := isDigitC c || ('a' ≤ c && c ≤ 'f')

theorem hexDigitVal_hexChar {d : Nat} (h : d < 16) : hexDigitVal (hexChar d) = d := by
  interval_cases d <;> decide

theorem isLowerHexC_hexChar {d : Nat} (h : d < 16) : isLowerHexC (hexChar d) = true := by
  interval_cases d <;> decide

theorem hexAux_val : ∀ (f v : Nat), v < 16 ^ f → digitsVal 16 (hexAux f v) = v := by
  intro f
  induction f with
  | zero => intro v h; interval_cases v; rfl
  | succ f ih =>
      intro v h
      simp only [hexAux]
      split_ifs with h0
      · subst h0; rfl
      · have hdiv : v / 16 < 16 ^ f := by
          rw [Nat.div_lt_iff_lt_mul (by norm_num)]
          calc v < 16 ^ (f + 1) := h
            _ = 16 ^ f * 16 := by rw [Nat.pow_succ]
        have hrec := ih (v / 16) hdiv
        unfold digitsVal at hrec ⊢
        rw [List.foldl_append]
        simp only [List.foldl_cons, List.foldl_nil]
        rw [hrec, hexDigitVal_hexChar (Nat.mod_lt v (by norm_num))]
        omega

theorem hexAux_lower : ∀ (f v : Nat), (hexAux f v).all isLowerHexC = true := by
  intro f
  induction f with
  | zero => intro v; rfl
  | succ f ih =>
      intro v
      simp only [hexAux]
      split_ifs with h0
      · rfl
      · rw [List.all_append]
        simp only [List.all_cons, List.all_nil, Bool.and_true, Bool.and_eq_true]
        exact ⟨ih (v / 16), isLowerHexC_hexChar (Nat.mod_lt v (by norm_num))⟩

/-- C8, counterexample: the staging directory is named
    `regenny_tmpl_<hex>`, not `tmpl_<hex>`; at suffix value 0 the name is
    `"regenny_tmpl_0"`, which does not even start with `"tmpl_"`. -/
theorem staging_dir_name_cex :
    staging_dir_name 0 = ("regenny_tmpl_0").toList
      ∧ (("tmpl_").toList).isPrefixOf (staging_dir_name 0) = false
      ∧ staging_dir_name 0 ≠ ("tmpl_").toList ++ random_suffix 0 := by
  refine ⟨by decide, by decide, by decide⟩

/-- C8, amended claim: the staging directory created by `process_tree` is an
    OS-temp subdirectory named `regenny_tmpl_<hex>` where `<hex>` renders the
    random 64-bit draw in lowercase hexadecimal: every character is a digit
    or `a`-`f`, and reading the digits back in base 16 recovers the drawn
    value. -/
theorem staging_dir_name_spec (v : Nat) :
    staging_dir_name v = ("regenny_tmpl_").toList ++ random_suffix v
      ∧ digitsVal 16 (random_suffix v) = v
      ∧ (random_suffix v).all isLowerHexC = true := by
  refine ⟨rfl, ?_, ?_⟩
  · unfold random_suffix
    split_ifs with h0
    · subst h0; rfl
    · refine hexAux_val (v + 1) v ?_
      have h1 : v < 2 ^ (v + 1) := by
        have := Nat.lt_two_pow v
        have : (2 : Nat) ^ v ≤ 2 ^ (v + 1) := Nat.pow_le_pow_right (by norm_num) (by omega)
        omega
      calc v < 2 ^ (v + 1) := h1
        _ ≤ 16 ^ (v + 1) := Nat.pow_le_pow_left (by norm_num) (v + 1)
  · unfold random_suffix
    split_ifs with h0
    · rfl
    · exact hexAux_lower (v + 1) v

/-- C4, counterexample to the literal claim: two distinct trimmed argument
    tuples can share a sanitized specialization name, because
    `sanitize_token` collapses both a space and a comma to one separator. -/
theorem spec_name_collision_cex :
    spec_sanitized_name ("Box".toList) [] [("a b".toList)]
        = spec_sanitized_name ("Box".toList) [] [("a,b".toList)]
      ∧ ("a b".toList) ≠ ("a,b".toList)
      ∧ trim ("a b".toList) = ("a b".toList)
      ∧ trim ("a,b".toList) = ("a,b".toList) := by
  refine ⟨by decide, by decide, by decide, by decide⟩

/-! ## `process_tree` over a filesystem model

    Paths, directory creation, relative-path computation and file IO are
    operating-system effects; the model supplies them as functions
    (`canon` for `canonicalize_path`, `read` for opening and reading a
    file, `stage` for `(temp_dir / relative).lexically_normal()`,
    `resolveImport` for resolving an extracted import string against the
    importing file, and success flags for `create_directories` and
    `ofstream`).  File contents are processed by the embedded
    `process_file_content`; the work queue keeps `back()` at the list
    head, and the maps use `emplace` (no overwrite) semantics. -/

structure FsModel where
  canon : List Char → List Char
  read : List Char → Option (List Char)
  stage : List Char → List Char
  resolveImport : List Char → List Char → List Char
  tempDir : List Char
  mkdirTempOk : Bool
  mkdirParentOk : List Char → Bool
  writeOk : List Char → Bool

structure PreprocessResult where
  m_original_root : List Char
  m_temp_directory : List Char
  m_processed_root : List Char
  m_had_templates : Bool
  m_original_to_processed : List (List Char × List Char)
  m_processed_to_original : List (List Char × List Char)
deriving DecidableEq

def lookupA (mp : List (List Char × List Char)) (k : List Char) : Option (List Char) :=
  (mp.find? (fun e => e.1 == k)).map (fun e => e.2)

/-- `unordered_map::emplace`: no overwrite of an existing key. -/
def emplaceA (mp : List (List Char × List Char)) (k v : List Char) :
    List (List Char × List Char) :=
  if (mp.find? (fun e => e.1 == k)).isSome then mp else mp ++ [(k, v)]

def treeLoop (m : FsModel) : Nat → List (List Char) → List (List Char) →
    Bool → List (List Char × List Char) → List (List Char × List Char) →
    Option (Bool × List (List Char × List Char) × List (List Char × List Char))
  | 0, _, _, _, _, _ => none
  | _ + 1, [], _, had, o2p, p2o => some (had, o2p, p2o)
  | f + 1, cur :: rest, visited, had, o2p, p2o =>
    let cc := m.canon cur
    if cc ∈ visited then treeLoop m f rest visited had o2p p2o
    else
      match m.read cc with
      | none => treeLoop m f rest (cc :: visited) had o2p p2o
      | some content =>
        match process_file_content content with
        | none => none
        | some fr =>
          let had2 := had || fr.m_had_templates
          let pp := m.stage cc
          if m.mkdirParentOk pp = false then
            treeLoop m f rest (cc :: visited) had2 o2p p2o
          else if m.writeOk pp = false then
            treeLoop m f rest (cc :: visited) had2 o2p p2o
          else
            treeLoop m f
              ((fr.m_imports.map (fun imp => m.canon (m.resolveImport cc imp))).reverse
                ++ rest)
              (cc :: visited) had2 (emplaceA o2p cc pp) (emplaceA p2o pp cc)

/-- `process_tree` from the source.  The second component records whether
    `remove_temp_directory` ran on the staging directory before returning. -/
def process_tree (m : FsModel) (root : List Char) (fuel : Nat) :
    Option PreprocessResult × Bool :=
  if root = [] then (none, false)
  else if m.mkdirTempOk = false then (none, false)
  else
    match treeLoop m fuel [m.canon root] [] false [] [] with
    | none => (none, false)
    | some (had, o2p, p2o) =>
      if had = false then (none, true)
      else
        (some { m_original_root := m.canon root
                m_temp_directory := m.tempDir
                m_processed_root :=
                  match lookupA o2p (m.canon root) with
                  | some p => p
                  | none => m.canon root
                m_had_templates := had
                m_original_to_processed := o2p
                m_processed_to_original := p2o },
          false)

/-- C5: `process_tree` returns nothing exactly when the root path is empty,
    the staging directory cannot be created, or no visited file contained a
    template; and the staging directory that was created is deleted exactly
    when templates were missing after a successful setup.  The `treeLoop`
    hypothesis discharges the loop fuel, which the model makes explicit. -/
theorem process_tree_none_iff
    (m : FsModel) (root : List Char) (fuel : Nat)
    (had : Bool) (o2p p2o : List (List Char × List Char))
    (htl : treeLoop m fuel [m.canon root] [] false [] [] = some (had, o2p, p2o)) :
    ((process_tree m root fuel).1 = none
        ↔ (root = [] ∨ m.mkdirTempOk = false ∨ had = false))
      ∧ ((process_tree m root fuel).2 = true
        ↔ (root ≠ [] ∧ m.mkdirTempOk = true ∧ had = false)) := by
  unfold process_tree
  split_ifs with h1 h2
  · simp [h1]
  · simp [h1, h2]
  · rw [htl]
    dsimp only
    split_ifs with h3
    · simp [h1, h2, h3]
    · simp [h1, h2, h3]

def mT : FsModel :=
  { canon := fun p => p
    read := fun p => if p = ['r'] then some ("int x;".toList) else none
    stage := fun p => 'P' :: p
    resolveImport := fun _ i => i
    tempDir := ("regenny_tmpl_0").toList
    mkdirTempOk := true
    mkdirParentOk := fun _ => true
    writeOk := fun _ => true }

/-- Witness for C5 on a one-file model without templates: the loop finds no
    template, so nothing is returned and the staging directory is removed. -/
theorem process_tree_none_iff_witness :
    treeLoop mT 2 [mT.canon ['r']] [] false [] []
        = some (false, [(['r'], ['P', 'r'])], [(['P', 'r'], ['r'])])
      ∧ (((process_tree mT ['r'] 2).1 = none
            ↔ (['r'] = ([] : List Char) ∨ mT.mkdirTempOk = false ∨ false = false))
        ∧ ((process_tree mT ['r'] 2).2 = true
            ↔ (['r'] ≠ ([] : List Char) ∧ mT.mkdirTempOk = true ∧ false = false))) :=
  ⟨by decide,
    process_tree_none_iff mT ['r'] 2 false [(['r'], ['P', 'r'])] [(['P', 'r'], ['r'])]
      (by decide)⟩

theorem find?_eq_of_nodup :
    ∀ (mp : List (List Char × List Char)) (k v : List Char),
      (mp.map (fun e => e.1)).Nodup → (k, v) ∈ mp →
      mp.find? (fun e => e.1 == k) = some (k, v) := by
  intro mp
  induction mp with
  | nil => intro k v _ hmem; simp at hmem
  | cons e rest ih =>
      intro k v hnd hmem
      simp only [List.map_cons, List.nodup_cons] at hnd
      rcases List.mem_cons.mp hmem with he | hm
      · rw [← he]
        simp [List.find?_cons]
      · have hk : k ∈ rest.map (fun e => e.1) :=
          List.mem_map.mpr ⟨(k, v), hm, rfl⟩
        have hne : (e.1 == k) = false := by
          rw [beq_eq_false_iff_ne]
          intro hh
          exact hnd.1 (hh ▸ hk)
        rw [List.find?_cons, hne]
        exact ih k v hnd.2 hm

theorem treeLoop_inv (m : FsModel) (hinj : ∀ a b, m.stage a = m.stage b → a = b) :
    ∀ (f : Nat) (queue visited : List (List Char)) (had had2 : Bool)
      (o2p p2o o2p2 p2o2 : List (List Char × List Char)),
      p2o = o2p.map (fun e => (e.2, e.1)) →
      (∀ e ∈ o2p, e.1 ∈ visited ∧ e.2 = m.stage e.1) →
      (o2p.map (fun e => e.1)).Nodup →
      treeLoop m f queue visited had o2p p2o = some (had2, o2p2, p2o2) →
      p2o2 = o2p2.map (fun e => (e.2, e.1))
        ∧ (∀ e ∈ o2p2, e.2 = m.stage e.1)
        ∧ (o2p2.map (fun e => e.1)).Nodup := by
  intro f
  induction f with
  | zero =>
      intro queue visited had had2 o2p p2o o2p2 p2o2 h1 h2 h3 htl
      simp [treeLoop] at htl
  | succ f ih =>
      intro queue visited had had2 o2p p2o o2p2 p2o2 h1 h2 h3 htl
      cases queue with
      | nil =>
          simp only [treeLoop, Option.some.injEq, Prod.mk.injEq] at htl
          obtain ⟨-, h5, h6⟩ := htl
          subst h5
          subst h6
          exact ⟨h1, fun e he => (h2 e he).2, h3⟩
      | cons cur rest =>
          simp only [treeLoop] at htl
          by_cases hv : m.canon cur ∈ visited
          · rw [if_pos hv] at htl
            exact ih rest visited had had2 o2p p2o o2p2 p2o2 h1 h2 h3 htl
          rw [if_neg hv] at htl
          rcases hrd : m.read (m.canon cur) with _ | content
          · rw [hrd] at htl
            exact ih rest (m.canon cur :: visited) had had2 o2p p2o o2p2 p2o2 h1
              (fun e he => ⟨List.mem_cons_of_mem _ (h2 e he).1, (h2 e he).2⟩) h3 htl
          rw [hrd] at htl
          (try dsimp only at htl)
          rcases hfr : process_file_content content with _ | fr
          · rw [hfr] at htl
            exact absurd htl (by simp)
          rw [hfr] at htl
          (try dsimp only at htl)
          split_ifs at htl with hm hw
          · exact ih rest (m.canon cur :: visited) _ had2 o2p p2o o2p2 p2o2 h1
              (fun e he => ⟨List.mem_cons_of_mem _ (h2 e he).1, (h2 e he).2⟩) h3 htl
          · exact ih rest (m.canon cur :: visited) _ had2 o2p p2o o2p2 p2o2 h1
              (fun e he => ⟨List.mem_cons_of_mem _ (h2 e he).1, (h2 e he).2⟩) h3 htl
          · have hknotin : ∀ e ∈ o2p, e.1 ≠ m.canon cur := by
              intro e he hh
              exact hv (hh ▸ (h2 e he).1)
            have hfind1 : (o2p.find? (fun e => e.1 == m.canon cur)) = none := by
              rw [List.find?_eq_none]
              intro e he
              simpa using hknotin e he
            have hfind2 :
                (p2o.find? (fun e => e.1 == m.stage (m.canon cur))) = none := by
              rw [List.find?_eq_none]
              intro e he
              rw [h1] at he
              obtain ⟨e0, he0, heq⟩ := List.mem_map.mp he
              subst heq
              simp only [beq_iff_eq]
              intro hh
              rw [(h2 e0 he0).2] at hh
              exact hv ((hinj _ _ hh) ▸ (h2 e0 he0).1)
            have he1 : emplaceA o2p (m.canon cur) (m.stage (m.canon cur))
                = o2p ++ [(m.canon cur, m.stage (m.canon cur))] := by
              unfold emplaceA
              rw [hfind1]
              simp
            have he2 : emplaceA p2o (m.stage (m.canon cur)) (m.canon cur)
                = p2o ++ [(m.stage (m.canon cur), m.canon cur)] := by
              unfold emplaceA
              rw [hfind2]
              simp
            rw [he1, he2] at htl
            refine ih _ _ _ _ _ _ _ _ ?_ ?_ ?_ htl
            · rw [h1, List.map_append]
              rfl
            · intro e he
              rcases List.mem_append.mp he with h | h
              · exact ⟨List.mem_cons_of_mem _ (h2 e h).1, (h2 e h).2⟩
              · simp only [List.mem_singleton] at h
                subst h
                exact ⟨List.mem_cons_self _ _, rfl⟩
            · rw [List.map_append]
              simp only [List.map_cons, List.map_nil]
              rw [List.nodup_append]
              refine ⟨h3, List.nodup_singleton _, ?_⟩
              intro k hk hk2
              simp only [List.mem_singleton] at hk2
              obtain ⟨e0, he0, heq⟩ := List.mem_map.mp hk
              exact hknotin e0 he0 (heq.symm ▸ hk2 ▸ rfl)

/-- C6, amended claim: the two path maps are mutual inverses provided the
    staging map is injective on paths — each processed path comes from one
    original.  (Without that, `emplace` keeps only the first entry of
    `processed_to_original` for a collided processed path, and the literal
    claim fails; see the counterexample.) -/
theorem process_tree_maps_inverse
    (m : FsModel) (hinj : ∀ a b, m.stage a = m.stage b → a = b)
    (root : List Char) (fuel : Nat) (r : PreprocessResult)
    (hres : (process_tree m root fuel).1 = some r) :
    (∀ e ∈ r.m_original_to_processed,
        lookupA r.m_processed_to_original e.2 = some e.1)
      ∧ (∀ e ∈ r.m_processed_to_original,
        lookupA r.m_original_to_processed e.2 = some e.1) := by
  unfold process_tree at hres
  split_ifs at hres with h1 h2
  split at hres
  next => exact absurd hres (by simp)
  next had o2p p2o htl =>
      split_ifs at hres with h3
      rw [Option.some.injEq] at hres
      have hinv := treeLoop_inv m hinj fuel [m.canon root] [] false had [] [] o2p p2o
        rfl (by simp) (by simp) htl
      have ho2p : r.m_original_to_processed = o2p := by rw [← hres]
      have hp2o : r.m_processed_to_original = p2o := by rw [← hres]
      have hp2okeys : p2o.map (fun e => e.1)
          = (o2p.map (fun e => e.1)).map m.stage := by
        rw [hinv.1, List.map_map, List.map_map]
        exact List.map_congr_left (fun e he => hinv.2.1 e he)
      have hp2onodup : (p2o.map (fun e => e.1)).Nodup := by
        rw [hp2okeys]
        exact List.Nodup.map (fun a b hab => hinj a b hab) hinv.2.2
      rw [ho2p, hp2o]
      constructor
      · intro e he
        have hmem : (e.2, e.1) ∈ p2o := by
          rw [hinv.1]
          exact List.mem_map.mpr ⟨e, he, rfl⟩
        unfold lookupA
        rw [find?_eq_of_nodup p2o e.2 e.1 hp2onodup hmem]
        rfl
      · intro e he
        rw [hinv.1] at he
        obtain ⟨e0, he0, heq⟩ := List.mem_map.mp he
        subst heq
        unfold lookupA
        rw [find?_eq_of_nodup o2p e0.1 e0.2 hinv.2.2 (by simpa using he0)]
        rfl

def mC6 : FsModel :=
  { canon := fun p => p
    read := fun p =>
      if p = ['a'] then
        some (("struct B<typename T> \x7b \x7d; B<int> x; import \"b\"").toList)
      else if p = ['b'] then some ("int y;".toList)
      else none
    stage := fun _ => ['P']
    resolveImport := fun _ i => i
    tempDir := ("regenny_tmpl_0").toList
    mkdirTempOk := true
    mkdirParentOk := fun _ => true
    writeOk := fun _ => true }

set_option maxRecDepth 100000 in
/-- C6, counterexample to the unconditional claim: when two visited files
    stage to the same processed path, `original_to_processed` holds both
    pairs while `processed_to_original` (filled with `emplace`, which never
    overwrites) keeps only the first, so the maps are not mutual inverses. -/
theorem process_tree_maps_cex :
    (process_tree mC6 ['a'] 3).1.map (fun r => r.m_original_to_processed)
        = some [(['a'], ['P']), (['b'], ['P'])]
      ∧ (process_tree mC6 ['a'] 3).1.map (fun r => r.m_processed_to_original)
        = some [(['P'], ['a'])]
      ∧ lookupA [(['P'], ['a'])] ['P'] ≠ some ['b'] := by
  refine ⟨by decide, by decide, by decide⟩

def mW : FsModel :=
  { canon := fun p => p
    read := fun p =>
      if p = ['r'] then some (("struct B<typename T> \x7b \x7d; B<int> x;").toList)
      else none
    stage := fun p => 'P' :: p
    resolveImport := fun _ i => i
    tempDir := ("regenny_tmpl_0").toList
    mkdirTempOk := true
    mkdirParentOk := fun _ => true
    writeOk := fun _ => true }

def rW : PreprocessResult :=
  { m_original_root := ['r']
    m_temp_directory := ("regenny_tmpl_0").toList
    m_processed_root := ['P', 'r']
    m_had_templates := true
    m_original_to_processed := [(['r'], ['P', 'r'])]
    m_processed_to_original := [(['P', 'r'], ['r'])] }

set_option maxRecDepth 100000 in
/-- Witness for the amended C6 claim on a one-file model with an injective
    staging map. -/
theorem process_tree_maps_inverse_witness :
    lookupA rW.m_processed_to_original ['P', 'r'] = some ['r'] :=
  (process_tree_maps_inverse mW (fun a b h => by simpa [mW] using h) ['r'] 2 rW
    (by decide)).1 (['r'], ['P', 'r']) (by decide)

end Regenny
